import Mathlib

set_option autoImplicit false

/-!
# taas-haywood: a shallow embedding of the stochastic local search for stable labelings

The definitions follow `src/taas-haywood.c` (function `solve` and the `init_*` helpers).
The utility files included by it (`util/bitset.c`, `util/linkedlist.c`, `util/raset.c`,
`util/binaryheap.c`, `util/graph.c`, `taas/taas_labeling.c`, `taas/taas_basics.c`) are not
among the sources; what `solve` needs of them is modelled from the specification and marked so.
The command line handling and the file reader follow `src/taas/taas_inout.c`, the hash table
`src/util/hashtable.c`; `util/miscutil.c` (`trimwhitespace`) is not among the sources.

Conventions.
* Arguments are natural numbers; a bit set is a function `Nat → Bool`.
* `rand()` is a stream `rand : Nat → Nat`; the state counts the calls made so far.
* Floating point comparisons are not computed: their outcomes are fields of `Options`
  (`prob_lt_greedyprob r` is the outcome of `(float)r/(float)RAND_MAX < greedyprob`, and so on).
* Reading a NULL heap, a modulo with divisor zero and a random element of an empty set are
  undefined in C; the model stops with a `Fault` there.
* A C string is a `String` whose characters stand for its bytes. In the command line handling,
  the hash table and the file reader, a remainder by zero, an access outside an array or a
  buffer and a read of unassigned memory stop the model with an `Undefined`.
-/

namespace Haywood

/-! ## Bit sets, linked lists, labelings -/

/-- Modelled from the spec: `util/bitset.c` is missing; a dense bitmap over argument indices. -/
abbrev BitSet := Nat → Bool

/-- Modelled from the spec: `bitset__get` of the missing `util/bitset.c`. -/
def bitset__get (b : BitSet) (i : Nat) : Bool := b i

/-- Modelled from the spec: `bitset__set` of the missing `util/bitset.c`. -/
def bitset__set (b : BitSet) (i : Nat) : BitSet := fun j => if j = i then true else b j

/-- Modelled from the spec: `bitset__unset` of the missing `util/bitset.c`. -/
def bitset__unset (b : BitSet) (i : Nat) : BitSet := fun j => if j = i then false else b j

/-- Modelled from the spec: `bitset__unsetAll` of the missing `util/bitset.c`. -/
def bitset__unsetAll (_b : BitSet) : BitSet := fun _ => false

/-- The structure `AAF` of `taas/taas_aaf.c`; the linked lists `children[i]`, `parents[i]` are
lists of argument indices, the name table `ids2arguments` a function. The hash table
`arguments2ids` is not used by `solve` and is left out. -/
structure AAF where
  ids2arguments : Nat → String
  number_of_arguments : Nat
  number_of_attacks : Nat
  children : Nat → List Nat
  parents : Nat → List Nat
  initial : BitSet
  loops : BitSet

/-- Modelled from the spec: the structure `Labeling` of the missing `taas/taas_labeling.c`,
two bit sets `in` and `out` (for the two-valued labeling of `solve` only `in` is used). -/
structure Labeling where
  in_ : BitSet
  out : BitSet

/-- The labels `LAB_IN` and `LAB_OUT` of a two-valued labeling. -/
inductive Label where
  | LAB_IN
  | LAB_OUT
  deriving DecidableEq, Repr

/-- Modelled from the spec: `taas__lab_get_label` of the missing `taas/taas_labeling.c`
for a two-valued labeling: bit set means `in`, else `out`. -/
def taas__lab_get_label (lab : Labeling) (a : Nat) : Label :=
  if bitset__get lab.in_ a then Label.LAB_IN else Label.LAB_OUT

/-- Modelled from the spec: `taas__labeled_correctly` of the missing `taas/taas_basics.c`.
An argument is correctly labeled iff it is `in` and all its parents are `out`, or it is `out`
and some parent is `in`. -/
def taas__labeled_correctly (aaf : AAF) (lab : Labeling) (a : Nat) : Bool :=
  if bitset__get lab.in_ a then (aaf.parents a).all (fun p => !bitset__get lab.in_ p)
  else (aaf.parents a).any (fun p => bitset__get lab.in_ p)

/-- Modelled from the spec: `taas__labeled_correctly_under_assumption` of the missing
`taas/taas_basics.c`: correctness of `a` for the labeling in which `assumed` carries
`new_label` and every other argument its current label. -/
def taas__labeled_correctly_under_assumption (aaf : AAF) (lab : Labeling) (a assumed : Nat)
    (new_label : Label) : Bool :=
  taas__labeled_correctly aaf
    { lab with in_ := if new_label = Label.LAB_IN then bitset__set lab.in_ assumed
                      else bitset__unset lab.in_ assumed } a

/-- Modelled from the spec: `taas__lab_randomize` of the missing `taas/taas_labeling.c`,
"uniform random per bit": bit `i` is the parity of the `i`-th next value of `rand()`.
Returns the new `in` bit set and the new number of `rand()` calls. -/
def taas__lab_randomize (rand : Nat → Nat) (calls n : Nat) : BitSet × Nat :=
  (fun i => decide (i < n) && decide (rand (calls + i) % 2 = 1), calls + n)

/-- Comma separated concatenation of the names. -/
def join_names : List String → String
  | [] => ""
  | [x] => x
  | x :: y :: t => x ++ "," ++ join_names (y :: t)

/-- Modelled from the spec: `taas__lab_print` of the missing `taas/taas_labeling.c`: the
arguments labeled `in`, in internal id order, by their external names, as `[a1,a2,...]`. -/
def taas__lab_print (lab : Labeling) (aaf : AAF) : String :=
  "[" ++ join_names (((List.range aaf.number_of_arguments).filter
      (fun i => bitset__get lab.in_ i)).map aaf.ids2arguments) ++ "]"

/-! ## Random access sets -/

/-- Modelled from the spec: the `RaSet` of the missing `util/raset.c`, a subset of `[0,n)`
kept as the list of its elements in insertion order. -/
abbrev RaSet := List Nat

/-- Modelled from the spec: `raset__add` (no effect on an element already present). -/
def raset__add (s : RaSet) (x : Nat) : RaSet := if x ∈ s then s else s ++ [x]

/-- Modelled from the spec: `raset__remove`. -/
def raset__remove (s : RaSet) (x : Nat) : RaSet := s.filter (fun y => y != x)

/-- Modelled from the spec: `raset__get`, the element at index `i`. -/
def raset__get (s : RaSet) (i : Nat) : Nat := s.getD i 0

/-- Modelled from the spec: `raset__random_element`, the element at index `rand() % count`;
`none` on the empty set, where the index is not defined. -/
def raset__random_element (s : RaSet) (r : Nat) : Option Nat :=
  if s.length = 0 then none else some (raset__get s (r % s.length))

/-- Modelled from the spec: `raset__random_element_with_skip`, a random element among those
not in `skip`, by filtered sampling; `none` stands for the sentinel `-1` (all masked). -/
def raset__random_element_with_skip (s : RaSet) (skip : BitSet) (r : Nat) : Option Nat :=
  let avail := s.filter (fun x => !bitset__get skip x)
  if avail.length = 0 then none else some (raset__get avail (r % avail.length))

/-- Modelled from the spec: `llist__get_with_skip` of the missing `util/linkedlist.c`: the
element at position `idx` among the elements of the list that are not in `skip` (wrapping
around), `none` (NULL) iff every element is in `skip`. -/
def llist__get_with_skip (l : List Nat) (idx : Nat) (skip : BitSet) : Option Nat :=
  let avail := l.filter (fun x => !bitset__get skip x)
  if avail.length = 0 then none else some (avail.getD (idx % avail.length) 0)

/-! ## Binary heap -/

/-- Modelled from the spec: the indexed min-heap of the missing `util/binaryheap.c`, kept as
the list of its (element, key) entries in insertion order. -/
abbrev BinaryHeap := List (Nat × Int)

/-- Modelled from the spec: `binaryheap__contains`. -/
def binaryheap__contains (h : BinaryHeap) (x : Nat) : Bool := h.any (fun e => e.1 == x)

/-- Modelled from the spec: `binaryheap__insert`. -/
def binaryheap__insert (h : BinaryHeap) (x : Nat) (key : Int) : BinaryHeap := h ++ [(x, key)]

/-- Modelled from the spec: `binaryheap__remove`. -/
def binaryheap__remove (h : BinaryHeap) (x : Nat) : BinaryHeap := h.filter (fun e => e.1 != x)

/-- Modelled from the spec: `binaryheap__update`, "insert if absent else reseat". -/
def binaryheap__update (h : BinaryHeap) (x : Nat) (key : Int) : BinaryHeap :=
  if binaryheap__contains h x then h.map (fun e => if e.1 == x then (x, key) else e)
  else binaryheap__insert h x key

/-- An entry of minimal key; among entries of equal key the one inserted first. -/
def binaryheap__minimum : BinaryHeap → Option (Nat × Int)
  | [] => none
  | e :: t =>
    match binaryheap__minimum t with
    | none => some e
    | some m => if m.2 < e.2 then some m else some e

/-- Modelled from the spec: `binaryheap__extract_minimum`: the element of minimal key and the
heap without it. -/
def binaryheap__extract_minimum (h : BinaryHeap) : Option (Nat × BinaryHeap) :=
  match binaryheap__minimum h with
  | none => none
  | some m => some (m.1, binaryheap__remove h m.1)

/-! ## Odd cycle collection -/

/-- Modelled from the spec: the `OddCycleCollection` of the missing `util/graph.c`:
`occ__contains` and `occ__get_attackers` (a `RaSet`) per argument. -/
structure OddCycleCollection where
  occ__contains : Nat → Bool
  occ__get_attackers : Nat → RaSet

/-! ## Options -/

/-- The values that `solve` reads from the task. The four iteration options hold the result of
`atoi` on the supplied value (`none`: key absent). The `int` flags are read as C truth values.
For the `float` options the outcomes of the comparisons made by `solve` are given:
`greedyprob_pos` is `greedyprob > 0`, `prob_lt_greedyprob r` is
`(float)r/(float)RAND_MAX < greedyprob`, `prob_lt_greedyprob_plus_randsel r` is
`(float)r/(float)RAND_MAX < greedyprob + randsel`, `locminres_pos` is `locminres > 0` and
`prob_lt_locminres k m r` is `(float)r/(float)RAND_MAX < 1-log_b/log(k-m+locminres)`. -/
structure Options where
  restart_param : Option Int
  restartdyn_param : Option Int
  maxit : Option Int
  maxitdyn : Option Int
  greedyprob_pos : Bool
  prob_lt_greedyprob : Nat → Bool
  greedyincall : Bool
  init_out : Bool
  enforce_out : Bool
  escapeoddcycles : Bool
  prob_lt_greedyprob_plus_randsel : Nat → Bool
  locminres_pos : Bool
  prob_lt_locminres : Nat → Int → Nat → Bool

/-- The value of an `int` expression: two's complement wrap-around to 32 bits. -/
def wrap_int (x : Int) : Int := (x + 2147483648) % 4294967296 - 2147483648

/-- The function `init_restart` of `taas-haywood.c`. -/
def init_restart (task : Options) (aaf : AAF) : Int :=
  match task.restart_param, task.restartdyn_param with
  | some r, some d =>
    if wrap_int (d * aaf.number_of_arguments) > r then wrap_int (d * aaf.number_of_arguments)
    else r
  | none, some d => wrap_int (d * aaf.number_of_arguments)
  | some r, none => r
  | none, none => -1

/-- The function `init_max_iterations` of `taas-haywood.c`. -/
def init_max_iterations (task : Options) (aaf : AAF) : Int :=
  match task.maxitdyn, task.maxit with
  | some d, some m =>
    if wrap_int (d * aaf.number_of_arguments) > m then wrap_int (d * aaf.number_of_arguments)
    else m
  | some d, none => wrap_int (d * aaf.number_of_arguments)
  | none, some m => m
  | none, none => wrap_int (1000 * aaf.number_of_arguments)

/-- The options when no additional key is given on the command line. -/
def default_options : Options where
  restart_param := none
  restartdyn_param := none
  maxit := none
  maxitdyn := none
  greedyprob_pos := false
  prob_lt_greedyprob := fun _ => false
  greedyincall := false
  init_out := false
  enforce_out := false
  escapeoddcycles := false
  prob_lt_greedyprob_plus_randsel := fun _ => false
  locminres_pos := false
  prob_lt_locminres := fun _ _ _ => false

/-- The function `get_flipping_count` of `taas-haywood.c`. -/
def get_flipping_count (aaf : AAF) (lab : Labeling) (arg : Nat) : Int :=
  let new_label := if bitset__get lab.in_ arg then Label.LAB_OUT else Label.LAB_IN
  let count (fc : Int) (x : Nat) : Int :=
    fc + (if taas__labeled_correctly aaf lab x then 1 else 0)
       + (if taas__labeled_correctly_under_assumption aaf lab x arg new_label then -1 else 0)
  let flipping_count := count 0 arg
  let flipping_count := (aaf.children arg).foldl count flipping_count
  (aaf.parents arg).foldl count flipping_count

/-! ## The search state -/

/-- Everything `solve` is run with: the task, the framework, the grounded labeling, and what
comes from outside the function: the values returned by `rand()`, the result of `occ__init`
(missing `util/graph.c`; `none` is NULL), the contents of the two locals that are read before
they are assigned, and a bound on the draws of the rejection loop of the arbitrary move. -/
structure Setting where
  task : Options
  aaf : AAF
  grounded : Labeling
  rand : Nat → Nat
  occ_init : Option OddCycleCollection
  uninit_min_mislabeled : Int
  uninit_min_mislabeled_iteration : Int
  rejection_fuel : Nat

/-- The local variables of `solve` that live across iterations. `rand_calls` is the number of
values taken from `rand()`. `flipped` (the arguments whose label the toggle step wrote, oldest
first) and `restarts` (number of restart blocks entered) are bookkeeping of the model. -/
structure St where
  lab : Labeling
  mislabeled : RaSet
  toBeChecked : RaSet
  mislabeled_pqueue : Option BinaryHeap
  min_mislabeled : Int
  min_mislabeled_iteration : Int
  number_iterations : Nat
  rand_calls : Nat
  flipped : List Nat
  restarts : Nat

/-- Undefined behaviour of the C program, and exhaustion of the bounds of the model. -/
inductive Fault where
  | modulo_by_zero
  | null_pointer
  | empty_raset
  | rejection_fuel
  | loop_fuel
  deriving DecidableEq, Repr

/-- The places at which the main loop is left. -/
inductive Exit where
  | stable_at_restart
  | iteration_cap
  | occ_attackers_out
  | loop_no_attacker
  | loop_attackers_out
  | mislabeled_empty
  deriving DecidableEq, Repr

/-- Result of a part of the loop body. -/
inductive Step where
  | next (s : St)
  | stop (e : Exit) (s : St)
  | fault (f : Fault)

/-- What `solve` did: returned at the odd cycle check, left the main loop, or faulted. -/
inductive Outcome where
  | occ_unsat
  | finished (e : Exit) (s : St)
  | fault (f : Fault)

/-- A line printed by `solve`. -/
inductive Printed where
  | NO
  | labeling (text : String)
  deriving DecidableEq, Repr

/-- The collection `occ` of `solve`: NULL unless `escapeoddcycles` is set. -/
def occ (c : Setting) : Option OddCycleCollection :=
  if c.task.escapeoddcycles then c.occ_init else none

/-- The state at the head of the main loop (lines 243-264). -/
def init_state (c : Setting) : St where
  lab := { in_ := fun _ => false, out := fun _ => false }
  mislabeled := []
  toBeChecked := []
  mislabeled_pqueue := none
  min_mislabeled := c.uninit_min_mislabeled
  min_mislabeled_iteration := c.uninit_min_mislabeled_iteration
  number_iterations := 0
  rand_calls := 0
  flipped := []
  restarts := 0

/-! ## The body of the main loop -/

/-- Lines 270-281: the local minimum check; the first component is `force_restart`. -/
def local_minimum_check (c : Setting) (s : St) : Bool × St :=
  if c.task.locminres_pos then
    if (s.mislabeled.length : Int) < s.min_mislabeled then
      (false, { s with min_mislabeled := s.mislabeled.length,
                       min_mislabeled_iteration := s.number_iterations })
    else
      (c.task.prob_lt_locminres s.number_iterations s.min_mislabeled_iteration
          (c.rand s.rand_calls),
       { s with rand_calls := s.rand_calls + 1 })
  else (false, s)

/-- Line 283: `(number_iterations == 0) || (restart != -1 && (number_iterations % restart) == 0)
|| force_restart`, with the short-circuit evaluation of C. -/
def restart_condition (c : Setting) (s : St) (force_restart : Bool) : Except Fault Bool :=
  if s.number_iterations = 0 then Except.ok true
  else if init_restart c.task c.aaf ≠ -1 then
    if init_restart c.task c.aaf = 0 then Except.error Fault.modulo_by_zero
    else if Int.tmod (s.number_iterations : Int) (init_restart c.task c.aaf) = 0 then
      Except.ok true
    else Except.ok force_restart
  else Except.ok force_restart

/-- Lines 289-294: copy the fixed labels of the grounded labeling. -/
def overlay_grounded (c : Setting) (lab_in : BitSet) : BitSet :=
  (List.range c.aaf.number_of_arguments).foldl
    (fun l i =>
      if bitset__get c.grounded.in_ i then bitset__set l i
      else if bitset__get c.grounded.out i then bitset__unset l i
      else l) lab_in

/-- Lines 297-301: reset the mislabeled set and fill it again. -/
def rebuild_mislabeled (c : Setting) (lab : Labeling) : RaSet :=
  (List.range c.aaf.number_of_arguments).foldl
    (fun m i =>
      if !bitset__get c.grounded.in_ i && !bitset__get c.grounded.out i then
        if !taas__labeled_correctly c.aaf lab i then raset__add m i else m
      else m) []

/-- Lines 316-330: the new heap. -/
def build_heap (c : Setting) (lab : Labeling) (mislabeled : RaSet) : BinaryHeap :=
  if c.task.greedyincall then
    (List.range c.aaf.number_of_arguments).foldl
      (fun h i =>
        if !bitset__get c.grounded.in_ i && !bitset__get c.grounded.out i then
          binaryheap__insert h i (get_flipping_count c.aaf lab i)
        else h) []
  else
    (List.range mislabeled.length).foldl
      (fun h i =>
        binaryheap__insert h (raset__get mislabeled i)
          (get_flipping_count c.aaf lab (raset__get mislabeled i))) []

/-- Lines 284-301: the new labeling (all-out or random, then the grounded overlay) and the
new mislabeled set. -/
def restart_labeling (c : Setting) (s : St) : St :=
  let fresh : BitSet × Nat :=
    if c.task.init_out then (bitset__unsetAll s.lab.in_, s.rand_calls)
    else taas__lab_randomize c.rand s.rand_calls c.aaf.number_of_arguments
  let lab : Labeling := { s.lab with in_ := overlay_grounded c fresh.1 }
  { s with lab := lab, mislabeled := rebuild_mislabeled c lab, rand_calls := fresh.2,
           restarts := s.restarts + 1 }

/-- Lines 306-309: store the minimum mislabeled number. -/
def store_minimum (c : Setting) (s : St) : St :=
  if c.task.locminres_pos then
    { s with min_mislabeled := s.mislabeled.length, min_mislabeled_iteration := 0 }
  else s

/-- Lines 311-331: reset the greedy choice data structure. -/
def reset_heap (c : Setting) (s : St) : St :=
  if c.task.greedyprob_pos then
    { s with mislabeled_pqueue := some (build_heap c s.lab s.mislabeled) }
  else s

/-- Lines 284-331: the restart block. -/
def restart_block (c : Setting) (s : St) : Step :=
  if (restart_labeling c s).mislabeled.length = 0 then
    Step.stop Exit.stable_at_restart (restart_labeling c s)
  else Step.next (reset_heap c (store_minimum c (restart_labeling c s)))

/-- Lines 270-332: local minimum check, restart condition and restart block. -/
def restart_phase (c : Setting) (s : St) : Step :=
  match restart_condition c (local_minimum_check c s).2 (local_minimum_check c s).1 with
  | Except.error f => Step.fault f
  | Except.ok true => restart_block c (local_minimum_check c s).2
  | Except.ok false => Step.next (local_minimum_check c s).2

/-- Lines 334-336: count the iteration and check the cap. -/
def iteration_cap (c : Setting) (s : St) : Step :=
  if ((s.number_iterations + 1 : Nat) : Int) ≥ init_max_iterations c.task c.aaf then
    Step.stop Exit.iteration_cap { s with number_iterations := s.number_iterations + 1 }
  else Step.next { s with number_iterations := s.number_iterations + 1 }

/-- Lines 346-348: draw arguments until one is not fixed by the grounded labeling; the result
is the argument and the new number of `rand()` calls, `none` when the bound is used up. -/
def rejection_loop (c : Setting) : Nat → Nat → Option (Nat × Nat)
  | 0, _ => none
  | fuel + 1, calls =>
    if bitset__get c.grounded.in_ (c.rand calls % c.aaf.number_of_arguments)
        || bitset__get c.grounded.out (c.rand calls % c.aaf.number_of_arguments) then
      rejection_loop c fuel (calls + 1)
    else some (c.rand calls % c.aaf.number_of_arguments, calls + 1)

/-- Lines 344-351: the arbitrary random move and the random mislabeled move; `r` is the
value drawn for `prob`. -/
def select_random (c : Setting) (s : St) (r : Nat) : Except Fault (Nat × St) :=
  if c.task.prob_lt_greedyprob_plus_randsel r then
    if c.aaf.number_of_arguments = 0 then Except.error Fault.modulo_by_zero
    else
      match rejection_loop c c.rejection_fuel s.rand_calls with
      | none => Except.error Fault.rejection_fuel
      | some p => Except.ok (p.1, { s with rand_calls := p.2 })
  else
    match raset__random_element s.mislabeled (c.rand s.rand_calls) with
    | none => Except.error Fault.empty_raset
    | some sel_arg => Except.ok (sel_arg, { s with rand_calls := s.rand_calls + 1 })

/-- Lines 340-351: move selection. -/
def select_argument (c : Setting) (s : St) : Except Fault (Nat × St) :=
  if c.task.prob_lt_greedyprob (c.rand s.rand_calls) then
    match s.mislabeled_pqueue with
    | none => Except.error Fault.null_pointer
    | some h =>
      if h.length > 0 then
        match binaryheap__extract_minimum h with
        | none => Except.error Fault.null_pointer
        | some p =>
          Except.ok (p.1, { s with rand_calls := s.rand_calls + 1,
                                   mislabeled_pqueue := some p.2 })
      else select_random c { s with rand_calls := s.rand_calls + 1 } (c.rand s.rand_calls)
  else select_random c { s with rand_calls := s.rand_calls + 1 } (c.rand s.rand_calls)

/-- Lines 357-376: the odd cycle escape; `none` is the value `-1` of `sel_arg`. -/
def odd_cycle_escape (c : Setting) (s : St) (sel_arg : Nat) : Option Nat × St :=
  match occ c with
  | none => (some sel_arg, s)
  | some o =>
    if o.occ__contains sel_arg then
      if (o.occ__get_attackers sel_arg).all (fun x => !bitset__get s.lab.in_ x) then
        (raset__random_element_with_skip (o.occ__get_attackers sel_arg) c.grounded.out
            (c.rand s.rand_calls),
         { s with rand_calls := s.rand_calls + 1 })
      else (some sel_arg, s)
    else (some sel_arg, s)

/-- Lines 409-422, one of the two loops: label the listed neighbours out and add their
neighbourhood to `toBeChecked`. -/
def enforce_out_loop (c : Setting) (nodes : List Nat) (acc : BitSet × RaSet) : BitSet × RaSet :=
  nodes.foldl
    (fun a node =>
      (bitset__unset a.1 node,
       (c.aaf.parents node).foldl raset__add ((c.aaf.children node).foldl raset__add a.2)))
    acc

/-- Result of the toggle step: the argument whose label was written, or a `break`. -/
inductive Toggled where
  | done (sel_arg : Nat) (s : St)
  | stop (e : Exit) (s : St)

/-- Lines 398-423: label the argument in, with the enforce-out propagation. -/
def label_in (c : Setting) (s : St) (sel_arg : Nat) : Toggled :=
  let p : BitSet × RaSet :=
    if c.task.enforce_out then
      enforce_out_loop c (c.aaf.parents sel_arg)
        (enforce_out_loop c (c.aaf.children sel_arg)
          (bitset__set s.lab.in_ sel_arg, raset__add s.toBeChecked sel_arg))
    else (bitset__set s.lab.in_ sel_arg, raset__add s.toBeChecked sel_arg)
  Toggled.done sel_arg
    { s with lab := { s.lab with in_ := p.1 }, toBeChecked := p.2,
             flipped := s.flipped ++ [sel_arg] }

/-- Lines 378-424: toggle the label. The self-attack replacement reads `aaf->parents->length`
and `aaf->parents`, which is the list of parents of argument 0. -/
def toggle_label (c : Setting) (s : St) (sel_arg : Nat) : Toggled :=
  if taas__lab_get_label s.lab sel_arg = Label.LAB_IN then
    Toggled.done sel_arg
      { s with lab := { s.lab with in_ := bitset__unset s.lab.in_ sel_arg },
               toBeChecked := raset__add s.toBeChecked sel_arg,
               flipped := s.flipped ++ [sel_arg] }
  else if bitset__get c.aaf.loops sel_arg then
    if (c.aaf.parents 0).length = 0 then Toggled.stop Exit.loop_no_attacker s
    else
      match llist__get_with_skip (c.aaf.parents 0)
          (c.rand s.rand_calls % (c.aaf.parents 0).length) c.grounded.out with
      | none => Toggled.stop Exit.loop_attackers_out { s with rand_calls := s.rand_calls + 1 }
      | some r => label_in c { s with rand_calls := s.rand_calls + 1 } r
  else label_in c s sel_arg

/-- Lines 433-446: the body of the re-check loop for one element. -/
def recheck_element (c : Setting) (s : St) (elem : Nat) : Except Fault St :=
  if !bitset__get c.grounded.in_ elem && !bitset__get c.grounded.out elem then
    let labeled_correctly := taas__labeled_correctly c.aaf s.lab elem
    let s1 : St :=
      { s with mislabeled := if !labeled_correctly then raset__add s.mislabeled elem
                             else raset__remove s.mislabeled elem }
    if c.task.greedyprob_pos && (!labeled_correctly || c.task.greedyincall) then
      match s.mislabeled_pqueue with
      | none => Except.error Fault.null_pointer
      | some h =>
        Except.ok
          { s1 with
            mislabeled_pqueue :=
              some (binaryheap__update h elem (get_flipping_count c.aaf s.lab elem)) }
    else if c.task.greedyprob_pos && labeled_correctly && !c.task.greedyincall then
      match s.mislabeled_pqueue with
      | none => Except.error Fault.null_pointer
      | some h =>
        if binaryheap__contains h elem then
          Except.ok { s1 with mislabeled_pqueue := some (binaryheap__remove h elem) }
        else Except.ok s1
    else Except.ok s1
  else Except.ok s

/-- Lines 432-447: the re-check loop over the elements of `toBeChecked`. -/
def recheck_loop (c : Setting) : List Nat → St → Except Fault St
  | [], s => Except.ok s
  | elem :: rest, s =>
    match recheck_element c s elem with
    | Except.error f => Except.error f
    | Except.ok s1 => recheck_loop c rest s1

/-- Lines 426-447: add the direct neighbourhood to `toBeChecked` and re-check. -/
def recheck (c : Setting) (s : St) (sel_arg : Nat) : Step :=
  let toBeChecked : RaSet :=
    (c.aaf.parents sel_arg).foldl raset__add
      ((c.aaf.children sel_arg).foldl raset__add s.toBeChecked)
  match recheck_loop c toBeChecked { s with toBeChecked := toBeChecked } with
  | Except.error f => Step.fault f
  | Except.ok s1 => Step.next s1

/-- Lines 378-447: toggle and re-check. -/
def flip_step (c : Setting) (s : St) (sel_arg : Nat) : Step :=
  match toggle_label c s sel_arg with
  | Toggled.stop e s1 => Step.stop e s1
  | Toggled.done a s1 => recheck c s1 a

/-- Lines 340-447: move selection, odd cycle escape, toggle and re-check. -/
def search_step (c : Setting) (s : St) : Step :=
  match select_argument c s with
  | Except.error f => Step.fault f
  | Except.ok p =>
    match (odd_cycle_escape c { p.2 with toBeChecked := [] } p.1).1 with
    | none =>
      Step.stop Exit.occ_attackers_out (odd_cycle_escape c { p.2 with toBeChecked := [] } p.1).2
    | some sel_arg =>
      flip_step c (odd_cycle_escape c { p.2 with toBeChecked := [] } p.1).2 sel_arg

/-- Lines 268-447: the body of the `do ... while`. -/
def iteration (c : Setting) (s : St) : Step :=
  match restart_phase c s with
  | Step.fault f => Step.fault f
  | Step.stop e s1 => Step.stop e s1
  | Step.next s1 =>
    match iteration_cap c s1 with
    | Step.fault f => Step.fault f
    | Step.stop e s2 => Step.stop e s2
    | Step.next s2 => search_step c s2

/-- Lines 268-448: the `do ... while(mislabeled->number_of_elements > 0)`; the first argument
bounds the number of iterations. -/
def main_loop (c : Setting) : Nat → St → Outcome
  | 0, _ => Outcome.fault Fault.loop_fuel
  | fuel + 1, s =>
    match iteration c s with
    | Step.fault f => Outcome.fault f
    | Step.stop e s1 => Outcome.finished e s1
    | Step.next s1 =>
      if s1.mislabeled.length > 0 then main_loop c fuel s1
      else Outcome.finished Exit.mislabeled_empty s1

/-- The function `solve` of `taas-haywood.c`. The loop bound is the iteration cap plus one,
which the loop never uses up. -/
def solve (c : Setting) : Outcome :=
  if c.task.escapeoddcycles && (c.occ_init).isNone then Outcome.occ_unsat
  else main_loop c ((init_max_iterations c.task c.aaf).toNat + 1) (init_state c)

/-- Lines 238 and 453-456: the line printed; nothing is known to be printed after a fault. -/
def printed (c : Setting) : Outcome → Option Printed
  | Outcome.occ_unsat => some Printed.NO
  | Outcome.finished _ s =>
    if s.mislabeled.length = 0 then some (Printed.labeling (taas__lab_print s.lab c.aaf))
    else some Printed.NO
  | Outcome.fault _ => none

/-- The place at which the main loop was left, if it was entered and left. -/
def exit_of : Outcome → Option Exit
  | Outcome.finished e _ => some e
  | _ => none

/-- The state in which the main loop was left. -/
def final_state : Outcome → Option St
  | Outcome.finished _ s => some s
  | _ => none

/-! ## Properties of frameworks and labelings -/

/-- The adjacency invariant of the data model: `children` and `parents` describe the same
attacks, between arguments in `[0, n)` only. -/
def well_formed (aaf : AAF) : Prop :=
  (∀ a p, p ∈ aaf.parents a →
    a < aaf.number_of_arguments ∧ p < aaf.number_of_arguments ∧ a ∈ aaf.children p) ∧
  (∀ a b, b ∈ aaf.children a →
    a < aaf.number_of_arguments ∧ b < aaf.number_of_arguments ∧ a ∈ aaf.parents b)

/-- A stable labeling, in the words of the specification: every argument labeled in has no
attacker labeled in and every argument labeled out has at least one attacker labeled in. -/
def stable_labeling (aaf : AAF) (lab : Labeling) : Prop :=
  ∀ a, a < aaf.number_of_arguments →
    (lab.in_ a = true → ∀ p ∈ aaf.parents a, lab.in_ p = false) ∧
    (lab.in_ a = false → ∃ p ∈ aaf.parents a, lab.in_ p = true)

/-- The argument is in neither `gr.in` nor `gr.out`. -/
def not_fixed (grounded : Labeling) (a : Nat) : Prop :=
  grounded.in_ a = false ∧ grounded.out a = false

instance (grounded : Labeling) (a : Nat) : Decidable (not_fixed grounded a) :=
  inferInstanceAs (Decidable (grounded.in_ a = false ∧ grounded.out a = false))

/-- The two conditions of a valid grounded labeling: each `gr.in` argument has all its
attackers in `gr.out`, each `gr.out` argument has an attacker in `gr.in`. -/
def valid_grounded (aaf : AAF) (grounded : Labeling) : Prop :=
  ∀ a, a < aaf.number_of_arguments →
    (grounded.in_ a = true → ∀ p ∈ aaf.parents a, grounded.out p = true) ∧
    (grounded.out a = true → ∃ p ∈ aaf.parents a, grounded.in_ p = true)

/-- The two bit sets of the grounded labeling are disjoint. -/
def disjoint_grounded (aaf : AAF) (grounded : Labeling) : Prop :=
  ∀ a, a < aaf.number_of_arguments → ¬ (grounded.in_ a = true ∧ grounded.out a = true)

/-- The closure rule of the grounded computation: an argument with an attacker in `gr.in`
is in `gr.out`. -/
def closed_grounded (aaf : AAF) (grounded : Labeling) : Prop :=
  ∀ a, a < aaf.number_of_arguments →
    ∀ p ∈ aaf.parents a, grounded.in_ p = true → grounded.out a = true

/-! ## Example inputs -/

/-- The framework with the given argument names and attacks (pairs of argument indices). -/
def aaf_of (names : List String) (attacks : List (Nat × Nat)) : AAF where
  ids2arguments := fun i => names.getD i ""
  number_of_arguments := names.length
  number_of_attacks := attacks.length
  children := fun a => (attacks.filter (fun e => e.1 == a)).map (fun e => e.2)
  parents := fun b => (attacks.filter (fun e => e.2 == b)).map (fun e => e.1)
  initial := fun b => !(attacks.any (fun e => e.2 == b))
  loops := fun a => attacks.any (fun e => e.1 == a && e.2 == a)

/-- The labeling whose `in` and `out` sets are the listed arguments. -/
def labeling_of (ins outs : List Nat) : Labeling where
  in_ := fun i => ins.contains i
  out := fun i => outs.contains i

/-- A setting without odd cycle collection, with zeroes in the unassigned locals and a
rejection bound of 64 draws. -/
def setting_of (task : Options) (aaf : AAF) (grounded : Labeling) (rand : Nat → Nat) :
    Setting where
  task := task
  aaf := aaf
  grounded := grounded
  rand := rand
  occ_init := none
  uninit_min_mislabeled := 0
  uninit_min_mislabeled_iteration := 0
  rejection_fuel := 64

/-- Arguments `a`, `b` with the attack `a b`. -/
def aaf_a_attacks_b : AAF := aaf_of ["a", "b"] [(0, 1)]

/-- The empty framework. -/
def aaf_empty : AAF := aaf_of [] []

/-- Arguments `a`, `b` with the attacks `a b` and `b a`. -/
def aaf_two_cycle : AAF := aaf_of ["a", "b"] [(0, 1), (1, 0)]

/-- The argument `a` with the attack `a a`. -/
def aaf_self_loop : AAF := aaf_of ["a"] [(0, 0)]

/-- Default options, two arguments attacking each other, nothing fixed. -/
def setting_two_cycle (rand : Nat → Nat) : Setting :=
  setting_of default_options aaf_two_cycle (labeling_of [] []) rand

/-- Arguments `a`, `b`, `c`, `d` with the attacks `a b`, `c d`, `d c`. -/
def aaf_chain_and_cycle : AAF := aaf_of ["a", "b", "c", "d"] [(0, 1), (2, 3), (3, 2)]

/-- The options `-initout 1 -enforceout 1 -randsel 2`: every move is the arbitrary random
move. -/
def options_enforce_randsel : Options :=
  { default_options with
    init_out := true
    enforce_out := true
    prob_lt_greedyprob_plus_randsel := fun _ => true }

/-- The framework `aaf_chain_and_cycle` with `gr.in = {a}` and `gr.out = {}`, the options
`options_enforce_randsel`, and a random stream whose second and fourth values select `b`
and `c`. -/
def setting_weak_grounded : Setting :=
  setting_of options_enforce_randsel aaf_chain_and_cycle (labeling_of [0] [])
    (fun i => [0, 1, 0, 2].getD i 0)

/-- The same run with the grounded labeling of the framework, `gr.in = {a}`, `gr.out = {b}`. -/
def setting_closed_grounded : Setting :=
  setting_of options_enforce_randsel aaf_chain_and_cycle (labeling_of [0] [1])
    (fun i => [0, 1, 0, 2].getD i 0)

/-- Arguments `a`, `b`, `c` with the attacks `a b`, `b c`, `c a`. -/
def aaf_three_cycle : AAF := aaf_of ["a", "b", "c"] [(0, 1), (1, 2), (2, 0)]

/-- The three-cycle with `-escapeoddcycles 1` and a failing odd cycle collection build. -/
def setting_three_cycle : Setting :=
  setting_of { default_options with escapeoddcycles := true } aaf_three_cycle
    (labeling_of [] []) (fun _ => 0)

/-- Arguments `a`, `b`, `c`, `d` with the attacks `b b`, `c b`, `c d`, `d c`: `a` (index 0) is
unattacked, the self-attacking `b` is also attacked by `c`. -/
def aaf_loop_attacked : AAF := aaf_of ["a", "b", "c", "d"] [(1, 1), (2, 1), (2, 3), (3, 2)]

/-- The framework `aaf_loop_attacked` with its grounded labeling (`gr.in = {a}`, `gr.out = {}`),
the option `-initout 1` and a random stream of zeroes (the first mislabeled argument, `b`, is
selected). -/
def setting_loop_attacked : Setting :=
  setting_of { default_options with init_out := true } aaf_loop_attacked (labeling_of [0] [])
    (fun _ => 0)

/-- The scenario of the single self-attacking argument: no argument fixed, the options
`greedyprob`, `greedyincall`, `randsel`, `initout` and `enforceout` arbitrary, all others at
their defaults. A draw below `greedyprob` is only possible for a positive `greedyprob`, and the
rejection loop may draw at least once. -/
def self_loop_scenario (c : Setting) : Prop :=
  c.aaf = aaf_self_loop ∧ c.grounded = labeling_of [] [] ∧
  c.task.restart_param = none ∧ c.task.restartdyn_param = none ∧
  c.task.maxit = none ∧ c.task.maxitdyn = none ∧
  c.task.escapeoddcycles = false ∧ c.task.locminres_pos = false ∧
  (∀ r, c.task.prob_lt_greedyprob r = true → c.task.greedyprob_pos = true) ∧
  1 ≤ c.rejection_fuel

/-- The options `-greedyprob 0.5 -randsel 0.3 -initout 1 -enforceout 1`, with `RAND_MAX`
taken as 2147483647 and IEEE single precision for `float`. `(float)RAND_MAX` is 2^31 and
`(float)r` is `r` rounded to 24 bits, so `(float)r/(float)RAND_MAX < 0.5f` holds exactly for
`r < 1073741792` (from there on `(float)r` is 2^30 or more). The sum `0.5f + 0.3f` is
13421773 / 2^24, so `(float)r/(float)RAND_MAX < greedyprob + randsel` holds exactly when
`(float)r < 1717986944`, which is `r ≤ 1717986880`. -/
def options_mixed_moves : Options :=
  { default_options with
    greedyprob_pos := true
    prob_lt_greedyprob := fun r => decide (r < 1073741792)
    init_out := true
    enforce_out := true
    prob_lt_greedyprob_plus_randsel := fun r => decide (r ≤ 1717986880) }

/-- The loop was left and the property holds for the state it was left in. -/
def holds_finally (o : Outcome) (P : St → Prop) : Prop :=
  match o with
  | Outcome.finished _ s => P s
  | _ => False

instance (o : Outcome) (P : St → Prop) [DecidablePred P] : Decidable (holds_finally o P) :=
  match o with
  | Outcome.finished _ s => inferInstanceAs (Decidable (P s))
  | Outcome.occ_unsat => isFalse (fun h => h)
  | Outcome.fault _ => isFalse (fun h => h)

instance (aaf : AAF) (lab : Labeling) : Decidable (stable_labeling aaf lab) :=
  inferInstanceAs (Decidable (∀ a, a < aaf.number_of_arguments →
    (lab.in_ a = true → ∀ p ∈ aaf.parents a, lab.in_ p = false) ∧
    (lab.in_ a = false → ∃ p ∈ aaf.parents a, lab.in_ p = true)))

instance (aaf : AAF) (grounded : Labeling) : Decidable (valid_grounded aaf grounded) :=
  inferInstanceAs (Decidable (∀ a, a < aaf.number_of_arguments →
    (grounded.in_ a = true → ∀ p ∈ aaf.parents a, grounded.out p = true) ∧
    (grounded.out a = true → ∃ p ∈ aaf.parents a, grounded.in_ p = true)))

instance (aaf : AAF) (grounded : Labeling) : Decidable (disjoint_grounded aaf grounded) :=
  inferInstanceAs (Decidable (∀ a, a < aaf.number_of_arguments →
    ¬ (grounded.in_ a = true ∧ grounded.out a = true)))

instance (aaf : AAF) (grounded : Labeling) : Decidable (closed_grounded aaf grounded) :=
  inferInstanceAs (Decidable (∀ a, a < aaf.number_of_arguments →
    ∀ p ∈ aaf.parents a, grounded.in_ p = true → grounded.out a = true))

/-! ## Invariants and reachable states -/

/-- The states at the head of the main loop: the initial one, and the one after each
completed iteration that found the mislabeled set non-empty. -/
inductive loop_head (c : Setting) : St → Prop where
  | init : loop_head c (init_state c)
  | next (s s1 : St) : loop_head c s → iteration c s = Step.next s1 →
      0 < s1.mislabeled.length → loop_head c s1

/-- The mislabeled set holds exactly the incorrectly labeled arguments among those not fixed
by the grounded labeling. -/
def mislabeled_inv (c : Setting) (s : St) : Prop :=
  ∀ a, a < c.aaf.number_of_arguments → not_fixed c.grounded a →
    (a ∈ s.mislabeled ↔ taas__labeled_correctly c.aaf s.lab a = false)

/-- Every argument fixed by the grounded labeling carries its grounded label. -/
def fixed_inv (c : Setting) (s : St) : Prop :=
  ∀ a, a < c.aaf.number_of_arguments →
    (c.grounded.in_ a = true → s.lab.in_ a = true) ∧
    (c.grounded.out a = true → s.lab.in_ a = false)

/-- The mislabeled set and the heap hold only arguments not fixed by the grounded labeling. -/
def candidates_inv (c : Setting) (s : St) : Prop :=
  (∀ a, a ∈ s.mislabeled → not_fixed c.grounded a) ∧
  (∀ h, s.mislabeled_pqueue = some h → ∀ e, e ∈ h → not_fixed c.grounded e.1)

/-- The second state has the labeling, the mislabeled set and the counters of the first. -/
def same_labels (s s1 : St) : Prop :=
  s1.lab = s.lab ∧ s1.mislabeled = s.mislabeled ∧ s1.number_iterations = s.number_iterations ∧
    s1.flipped = s.flipped ∧ s1.restarts = s.restarts

/-- Every entry of the heap of the second state is an entry of the heap of the first. -/
def heap_shrinks (s s1 : St) : Prop :=
  ∀ h1, s1.mislabeled_pqueue = some h1 →
    ∃ h, s.mislabeled_pqueue = some h ∧ ∀ e, e ∈ h1 → e ∈ h

/-! ## Inputs for the option and determinism statements -/

/-- The options `-locminres 2`, with `RAND_MAX` taken as 2147483647 and IEEE arithmetic.
With `log_b = 1/log(2)` the bound `1-log_b/log(k-m+2)` of line 277 is 1 at `k-m = -2` (the
logarithm of zero), is below zero or not a number at every other `k-m ≤ 2`, and is above zero
from `k-m = 3` on. So the comparison of line 278 is false for every draw at `k-m ≤ 2` other
than `-2`, holds at `k-m = -2` unless `(float)r` is 2^31 (`r ≥ 2147483584`), and holds for the
draw 0 at `k-m ≥ 3`. For the other draws at `k-m ≥ 3` the outcome depends on the value of the
logarithm; the record gives `false` there, so it stands for the run of the program up to the
first such draw only. -/
def options_locminres : Options :=
  { default_options with
    locminres_pos := true
    prob_lt_locminres := fun k m r =>
      if (k : Int) - m = -2 then decide (r < 2147483584)
      else decide (3 ≤ (k : Int) - m) && decide (r = 0) }

/-- The two-cycle with `-locminres 2`, a random stream starting 1, 0, 1, and the given content
of the local `min_mislabeled` before its first assignment. -/
def setting_locminres (uninit : Int) : Setting :=
  { setting_of options_locminres aaf_two_cycle (labeling_of [] [])
      (fun i => [1, 0, 1].getD i 0) with
    uninit_min_mislabeled := uninit }

/-- The options `-maxit 10 -maxitdyn 1 -restart 7 -restartdyn 2`. -/
def options_both_given : Options :=
  { default_options with
    maxit := some 10
    maxitdyn := some 1
    restart_param := some 7
    restartdyn_param := some 2 }

/-- The options `-maxit 5 -maxitdyn 1500000000 -restart 5 -restartdyn 1500000000`. -/
def options_large_factor : Options :=
  { default_options with
    maxit := some 5
    maxitdyn := some 1500000000
    restart_param := some 5
    restartdyn_param := some 1500000000 }

/-- Arguments `a`, `b` with the attacks `a a` and `b b`. -/
def aaf_two_loops : AAF := aaf_of ["a", "b"] [(0, 0), (1, 1)]

/-- The options `-restartdyn -1 -maxit 6`. -/
def options_restartdyn_minus_one : Options :=
  { default_options with
    restartdyn_param := some (-1)
    maxit := some 6 }

/-- Two self-attacking arguments, nothing fixed, `-restartdyn -1 -maxit 6`, a random stream of
zeroes. -/
def setting_restartdyn_minus_one : Setting :=
  setting_of options_restartdyn_minus_one aaf_two_loops (labeling_of [] []) (fun _ => 0)

/-! ## Command line (`taas/taas_inout.c`)

A C string is a `String` whose characters stand for its bytes. A `char*` is a `CharPtr`: the
content of memory that `malloc` returned and nothing assigned (`unset`), `NULL`, or a string.
`argv` is the list of the `argc` tokens; `argv[argc]` is `NULL`. -/

/-- A `char*` field or value. -/
inductive CharPtr
  | unset
  | null
  | str (s : String)
  deriving DecidableEq, Repr

/-- The fields of `struct SolverInformation` that `taas__cmd_handle` prints. -/
structure SolverInformation where
  description : String
  formats : String
  problems : String

/-- The fields of `struct TaskSpecification` that `taas__cmd_handle` and
`taas__task_get_value` use; `arg` is `none` until it is assigned. The arrays
`additional_keys` and `additional_values` are lists of their first
`number_of_additional_arguments` cells. -/
structure TaskSpecification where
  track : CharPtr
  problem : CharPtr
  file : CharPtr
  arg : Option Int
  argAsString : CharPtr
  number_of_additional_arguments : Nat
  additional_keys : List String
  additional_values : List CharPtr
  deriving DecidableEq, Repr

/-- Undefined behaviour of the C code in the command line handling, the hash table and the
file reader. -/
inductive Undefined
  | modulo_by_zero
  | out_of_bounds
  | null_pointer
  | unset_read
  deriving DecidableEq, Repr

/-- What a call of `taas__cmd_handle` does: it prints a text and returns `NULL`, it returns a
task, or its behaviour is undefined. -/
inductive CmdResult
  | null (out : String)
  | task (t : TaskSpecification)
  | undefined (u : Undefined)
  deriving DecidableEq, Repr

/-- The task after `malloc` and the three assignments before the loop of
`taas__cmd_handle`. -/
def new_task : TaskSpecification :=
  { track := CharPtr.unset
    problem := CharPtr.unset
    file := CharPtr.unset
    arg := none
    argAsString := CharPtr.unset
    number_of_additional_arguments := 0
    additional_keys := []
    additional_values := [] }

/-- One pass of the loop of `taas__cmd_handle` at the token `tok = argv[i]`, where `value` is
`argv[++i]`: the new task and `param`, or the text printed before `return NULL`. -/
def cmd_option (info : SolverInformation) (task : TaskSpecification) (param : Nat)
    (tok : String) (value : CharPtr) : Except String (TaskSpecification × Nat) :=
  if tok = "-p" then
    Except.ok ({ task with track := value }, param + 1)
  else if tok = "-f" then
    Except.ok ({ task with file := value }, param + 1)
  else if tok = "-a" then
    Except.ok ({ task with argAsString := value }, param)
  else if tok = "--formats" then
    Except.error (info.formats ++ "\n")
  else if tok = "--problems" then
    Except.error (info.problems ++ "\n")
  else
    Except.ok
      ({ task with
          number_of_additional_arguments := task.number_of_additional_arguments + 1
          additional_keys := task.additional_keys ++ [tok]
          additional_values := task.additional_values ++ [value] },
        param)

/-- The loop `for(int i = 1; i < argc; i++)` of `taas__cmd_handle` over the tokens from
`argv[i]` on. Every pass that does not return reads `argv[++i]`, which is `NULL` after the
last token. -/
def cmd_loop (info : SolverInformation) :
    List String → TaskSpecification → Nat → Except String (TaskSpecification × Nat)
  | [], task, param => Except.ok (task, param)
  | [tok], task, param => cmd_option info task param tok CharPtr.null
  | tok :: value :: rest, task, param =>
    match cmd_option info task param tok (CharPtr.str value) with
    | Except.ok (task', param') => cmd_loop info rest task' param'
    | Except.error out => Except.error out

/-- The function `taas__cmd_handle(argc, argv, info)` with `argv` the list of the `argc`
tokens. `memcpy(task->problem, task->track, 2)` followed by the terminator leaves the string of
the first two bytes of the track in `problem` (for the empty track the first byte copied is the
terminator). -/
def taas__cmd_handle (argv : List String) (info : SolverInformation) : CmdResult :=
  match cmd_loop info (argv.drop 1) new_task 0 with
  | Except.error out => CmdResult.null out
  | Except.ok (task, param) =>
    if param < 2 then
      CmdResult.null (info.description ++ "\n")
    else
      match task.track with
      | CharPtr.str t =>
        CmdResult.task { task with problem := CharPtr.str (t.take 2), arg := some (-1) }
      | CharPtr.null => CmdResult.undefined Undefined.null_pointer
      | CharPtr.unset => CmdResult.undefined Undefined.unset_read

/-- The loop of `taas__task_get_value` from index `i` with `k` passes left. -/
def task_get_value_loop (task : TaskSpecification) (key : String) : Nat → Nat → CharPtr
  | _, 0 => CharPtr.null
  | i, k + 1 =>
    if task.additional_keys.get? i = some key then
      task.additional_values.getD i CharPtr.unset
    else
      task_get_value_loop task key (i + 1) k

/-- The function `taas__task_get_value(task, key)`. -/
def taas__task_get_value (task : TaskSpecification) (key : String) : CharPtr :=
  task_get_value_loop task key 0 task.number_of_additional_arguments

/-- The tokens `k1 v1 ... km vm` of a list of key/value pairs. -/
def key_value_tokens : List (String × String) → List String
  | [] => []
  | (k, v) :: rest => k :: v :: key_value_tokens rest

/-- The tokens that `taas__cmd_handle` compares `argv[i]` with. -/
def option_tokens : List String := ["-p", "-f", "-a", "--formats", "--problems"]

/-- A solver information. -/
def haywood_information : SolverInformation :=
  { description := "taas-haywood"
    formats := "[tgf]"
    problems := "[SE-ST]" }

/-! ## Hash table (`util/hashtable.c`)

The characters of a string stand for its bytes (a C string holds no zero byte); `char` is
signed. The array `arr` of `length` linked lists is a function on the indices; an access at an
index outside `[0, length)` is undefined behaviour. -/

/-- The value of a byte as a (signed) `char`. -/
def signed_char (ch : Char) : Int := ((ch.toNat : Int) + 128) % 256 - 128

/-- The loop of `hash__hashcode` from position `i` with the sum `h`; the addition is that of
`int`. In `string[i] * 127^(len-i)` the operator `^` is the exclusive or, which binds weaker
than `*`. -/
def hashcode_loop (len : Int) : List Char → Int → Int → Int
  | [], _, h => h
  | ch :: rest, i, h =>
    hashcode_loop len rest (i + 1) (wrap_int (h + Int.xor (signed_char ch * 127) (len - i)))

/-- The function `hash__hashcode(string)`. -/
def hash__hashcode (string : String) : Int :=
  hashcode_loop (wrap_int string.length) string.toList 0 0

/-- The structure `StringValuePair` (declared in the missing `util/hashtable.h`), with the
fields that `hash__insert` assigns. -/
structure StringValuePair where
  string : String
  value : Int
  deriving DecidableEq, Repr

/-- The structure `StringHashTable`. -/
structure StringHashTable where
  arr : Nat → List StringValuePair
  length : Int

/-- The function `hash__init(table, length)`: `length` empty lists. -/
def hash__init (length : Int) : StringHashTable :=
  { arr := fun _ => []
    length := length }

/-- The index `hash__hashcode(string) % table->length` of `hash__insert` and `hash__get`
together with the access `table->arr[idx]`: the remainder of C (`Int.tmod`) is undefined
for the divisor 0, and the access is undefined outside `[0, length)`. -/
def hash__index (table : StringHashTable) (string : String) : Except Undefined Nat :=
  if table.length = 0 then Except.error Undefined.modulo_by_zero
  else if 0 ≤ Int.tmod (hash__hashcode string) table.length ∧
      Int.tmod (hash__hashcode string) table.length < table.length then
    Except.ok (Int.tmod (hash__hashcode string) table.length).toNat
  else Except.error Undefined.out_of_bounds

/-- Modelled from the spec: `llist__add` of the missing `util/linkedlist.c` puts the new
element at the end of the list. -/
def llist__add {α : Type} (l : List α) (data : α) : List α := l ++ [data]

/-- The function `hash__insert(table, string, value)`. -/
def hash__insert (table : StringHashTable) (string : String) (value : Int) :
    Except Undefined StringHashTable :=
  match hash__index table string with
  | Except.error u => Except.error u
  | Except.ok idx =>
    Except.ok
      { table with
        arr := fun i =>
          if i = idx then llist__add (table.arr idx) { string := string, value := value }
          else table.arr i }

/-- The loop of `hash__get` over the nodes of a list. -/
def hash__get_loop (string : String) : List StringValuePair → Int
  | [] => -1
  | node :: rest => if node.string = string then node.value else hash__get_loop string rest

/-- The function `hash__get(table, string)`. -/
def hash__get (table : StringHashTable) (string : String) : Except Undefined Int :=
  match hash__index table string with
  | Except.error u => Except.error u
  | Except.ok idx => Except.ok (hash__get_loop string (table.arr idx))

/-- The table after `hash__init(table, length)` and the calls of `hash__insert` with the
given strings and values, in order. -/
def hash__insert_all (table : StringHashTable) :
    List (String × Int) → Except Undefined StringHashTable
  | [] => Except.ok table
  | (string, value) :: rest =>
    match hash__insert table string value with
    | Except.error u => Except.error u
    | Except.ok table' => hash__insert_all table' rest

/-! ## Reading the input file (`taas__readFile` of `taas/taas_inout.c`)

The file is the list of the rows that the successive calls of `getline` return (each with its
line end, if it has one). -/

/-- Modelled from the spec: `bitset__setAll` of the missing `util/bitset.c`. -/
def bitset__setAll (_b : BitSet) : BitSet := fun _ => true

/-- The function `isspace` of the C library in the C locale. -/
def isspace (ch : Char) : Bool :=
  ch = ' ' || ch = '\t' || ch = '\n' || ch.toNat = 11 || ch.toNat = 12 || ch = '\r'

/-- Modelled from the spec: the effect of `trimwhitespace(row)` of the missing
`util/miscutil.c` on the buffer `row` when the row is not blank: the string is ended after its
last character that is not white space. -/
def trim_end (row : String) : String :=
  String.mk (row.toList.reverse.dropWhile isspace).reverse

/-- Modelled from the spec: the string that `trimwhitespace(row)` of the missing
`util/miscutil.c` returns: the row without the white space at its start and end (the pointer
to the first character that is not white space). -/
def trimwhitespace (row : String) : String :=
  String.mk ((trim_end row).toList.dropWhile isspace)

/-- The first loop of `taas__readFile`: the number of rows before the first `#` row that are
not blank. -/
def count_arguments : List String → Nat → Nat
  | [], idx => idx
  | row :: rest, idx =>
    if trimwhitespace row = "" then count_arguments rest idx
    else if trimwhitespace row = "#" then idx
    else count_arguments rest (idx + 1)

/-- The structure `AAF` as `taas__readFile` fills it: `number_of_attacks`, `initial` and
`loops` are `none` until the `#` row assigns them. -/
structure ParsedAAF where
  ids2arguments : Nat → String
  arguments2ids : StringHashTable
  number_of_arguments : Nat
  number_of_attacks : Option Nat
  children : Nat → List Nat
  parents : Nat → List Nat
  initial : Option BitSet
  loops : Option BitSet

/-- The variables of the second loop of `taas__readFile`; `allocated` is the number of cells
of the arrays `ids2arguments`, `children` and `parents`. -/
structure ReadState where
  aaf : ParsedAAF
  allocated : Nat
  argumentSection : Bool
  idx : Nat

/-- The value of `sizeof(trimwhitespace(row))`, the size of a `char*` (LP64). -/
def sizeof_char_pointer : Nat := 8

/-- The branch of the `#` row. -/
def read_sentinel (s : ReadState) : ReadState :=
  { s with
    argumentSection := false
    aaf :=
      { s.aaf with
        number_of_arguments := s.idx
        number_of_attacks := some 0
        initial := some (bitset__setAll (fun _ => false))
        loops := some (bitset__unsetAll (fun _ => false)) } }

/-- The branch `// parse an argument`: `strcpy` writes the name and its terminator to the
`sizeof(trimwhitespace(row))+1` bytes of `arg1`. -/
def read_argument (s : ReadState) (row : String) : Except Undefined ReadState :=
  if sizeof_char_pointer + 1 < (trimwhitespace row).length + 1 then
    Except.error Undefined.out_of_bounds
  else if s.allocated ≤ s.idx then Except.error Undefined.out_of_bounds
  else
    match hash__insert s.aaf.arguments2ids (trimwhitespace row) s.idx with
    | Except.error u => Except.error u
    | Except.ok table =>
      Except.ok
        { s with
          aaf :=
            { s.aaf with
              ids2arguments := fun i => if i = s.idx then trimwhitespace row
                                        else s.aaf.ids2arguments i
              arguments2ids := table
              children := fun i => if i = s.idx then [] else s.aaf.children i
              parents := fun i => if i = s.idx then [] else s.aaf.parents i }
          idx := s.idx + 1 }

/-- The branch `// parse an attack` on the row as the calls of `trimwhitespace` left it: the
scan `while(row[idx] != ' ')` leaves the string when it has no space; the two names are looked
up and index the arrays and the bit sets. -/
def read_attack (s : ReadState) (row : String) : Except Undefined ReadState :=
  if ' ' ∉ (trim_end row).toList then Except.error Undefined.out_of_bounds
  else
    let idx := ((trim_end row).toList.takeWhile (fun ch => ch ≠ ' ')).length
    match hash__get s.aaf.arguments2ids (String.mk ((trim_end row).toList.take idx)) with
    | Except.error u => Except.error u
    | Except.ok idx1 =>
      match hash__get s.aaf.arguments2ids (String.mk ((trim_end row).toList.drop (idx + 1))) with
      | Except.error u => Except.error u
      | Except.ok idx2 =>
        if idx1 < 0 ∨ (s.allocated : Int) ≤ idx1 ∨ idx2 < 0 ∨ (s.allocated : Int) ≤ idx2 ∨
            (s.aaf.number_of_arguments : Int) ≤ idx2 then
          Except.error Undefined.out_of_bounds
        else
          Except.ok
            { s with
              idx := idx
              aaf :=
                { s.aaf with
                  number_of_attacks := s.aaf.number_of_attacks.map (fun k => k + 1)
                  children := fun i =>
                    if i = idx1.toNat then llist__add (s.aaf.children idx1.toNat) idx2.toNat
                    else s.aaf.children i
                  parents := fun i =>
                    if i = idx2.toNat then llist__add (s.aaf.parents idx2.toNat) idx1.toNat
                    else s.aaf.parents i
                  initial := s.aaf.initial.map (fun b => bitset__unset b idx2.toNat)
                  loops :=
                    if idx1 = idx2 then s.aaf.loops.map (fun b => bitset__set b idx1.toNat)
                    else s.aaf.loops } }

/-- The second loop of `taas__readFile`. -/
def read_rows : List String → ReadState → Except Undefined ReadState
  | [], s => Except.ok s
  | row :: rest, s =>
    if trimwhitespace row = "" then read_rows rest s
    else if trimwhitespace row = "#" then read_rows rest (read_sentinel s)
    else
      match (if s.argumentSection then read_argument s row else read_attack s row) with
      | Except.error u => Except.error u
      | Except.ok s' => read_rows rest s'

/-- The state before the second loop of `taas__readFile`. -/
def read_start (rows : List String) : ReadState :=
  { aaf :=
      { ids2arguments := fun _ => ""
        arguments2ids := hash__init (count_arguments rows 0)
        number_of_arguments := count_arguments rows 0
        number_of_attacks := none
        children := fun _ => []
        parents := fun _ => []
        initial := none
        loops := none }
    allocated := count_arguments rows 0
    argumentSection := true
    idx := 0 }

/-- The function `taas__readFile(path, aaf)` on the rows of the file at `path`. -/
def taas__readFile (rows : List String) : Except Undefined ParsedAAF :=
  match read_rows rows (read_start rows) with
  | Except.error u => Except.error u
  | Except.ok s => Except.ok s.aaf

/-- The framework that `solve` receives when all fields are assigned. -/
def built_aaf (p : ParsedAAF) : Option AAF :=
  match p.number_of_attacks, p.initial, p.loops with
  | some k, some initial, some loops =>
    some
      { ids2arguments := p.ids2arguments
        number_of_arguments := p.number_of_arguments
        number_of_attacks := k
        children := p.children
        parents := p.parents
        initial := initial
        loops := loops }
  | _, _, _ => none

/-! ## Files in the input format -/

/-- The row of the attack `e` between two of the named arguments: `name1 name2` and the line
end. -/
def attack_row (names : List String) (e : Nat × Nat) : String :=
  names.getD e.1 "" ++ " " ++ names.getD e.2 "" ++ "\n"

/-- The rows of the file that declares the arguments `names`, one per row, then has the `#`
row, then one row for each attack of `attacks` (pairs of indices into `names`). -/
def file_rows (names : List String) (attacks : List (Nat × Nat)) : List String :=
  names.map (fun name => name ++ "\n") ++ "#\n" :: attacks.map (attack_row names)

/-- The names with their indices from `k` on, as `hash__insert` receives them. -/
def indexed_from : Nat → List String → List (String × Int)
  | _, [] => []
  | k, name :: rest => (name, (k : Int)) :: indexed_from (k + 1) rest

/-- A name that `taas__readFile` handles in a file of `n` arguments: not empty, not `#`,
without white space, fitting the buffer `arg1` together with its terminator, and with an index
`hash__hashcode(name) % n` that is not negative. -/
def readable_name (n : Nat) (name : String) : Prop :=
  name ≠ "" ∧ name ≠ "#" ∧ (∀ ch ∈ name.toList, isspace ch = false) ∧
    name.length ≤ sizeof_char_pointer ∧ 0 ≤ Int.tmod (hash__hashcode name) n

instance (n : Nat) (name : String) : Decidable (readable_name n name) := by
  unfold readable_name
  exact inferInstance

/-- The files of `file_rows` that `taas__readFile` handles: distinct readable names and
attacks between declared arguments. -/
def readable_file (names : List String) (attacks : List (Nat × Nat)) : Prop :=
  names.Nodup ∧ (∀ name ∈ names, readable_name names.length name) ∧
    ∀ e ∈ attacks, e.1 < names.length ∧ e.2 < names.length

instance (names : List String) (attacks : List (Nat × Nat)) :
    Decidable (readable_file names attacks) := by
  unfold readable_file
  exact inferInstance

/-- The state of the second loop of `taas__readFile` after the `#` row and the rows of the
attacks `done` of a file with the arguments `names`. -/
def attacks_read (names : List String) (done : List (Nat × Nat)) (s : ReadState) : Prop :=
  s.argumentSection = false ∧ s.allocated = names.length ∧
  s.aaf.number_of_arguments = names.length ∧
  (∀ j, j < names.length →
    hash__get s.aaf.arguments2ids (names.getD j "") = Except.ok (j : Int)) ∧
  (∀ i, s.aaf.ids2arguments i = names.getD i "") ∧
  s.aaf.number_of_attacks = some done.length ∧
  (∀ i, s.aaf.children i = (aaf_of names done).children i) ∧
  (∀ i, s.aaf.parents i = (aaf_of names done).parents i) ∧
  (∃ b, s.aaf.initial = some b ∧ ∀ i, b i = (aaf_of names done).initial i) ∧
  (∃ b, s.aaf.loops = some b ∧ ∀ i, b i = (aaf_of names done).loops i)

/-! ## The flip gain in the words of the specification -/

/-- The neighbourhood `N[a] = {a} ∪ children(a) ∪ parents(a)` of the specification, as the
list of its members without repetition. -/
def neighbourhood (aaf : AAF) (a : Nat) : List Nat :=
  (a :: (aaf.children a ++ aaf.parents a)).dedup

/-- The labeling with the label of `a` toggled. -/
def toggled (lab : Labeling) (a : Nat) : Labeling :=
  { lab with in_ := if bitset__get lab.in_ a then bitset__unset lab.in_ a
                    else bitset__set lab.in_ a }

/-- The number of correctly labeled arguments among the listed ones. -/
def correct_count (aaf : AAF) (lab : Labeling) (l : List Nat) : Int :=
  ((l.filter (taas__labeled_correctly aaf lab)).length : Int)

/-- The flip gain in the words of the specification: the number of correctly labeled
arguments in `N[a]` under the labeling minus the number of correctly labeled arguments in
`N[a]` under the labeling with the label of `a` toggled. -/
def flip_gain (aaf : AAF) (lab : Labeling) (a : Nat) : Int :=
  correct_count aaf lab (neighbourhood aaf a) -
    correct_count aaf (toggled lab a) (neighbourhood aaf a)

/-- Arguments `a`, `b` with the attack `a b` given twice. -/
def aaf_duplicate_attack : AAF := aaf_of ["a", "b"] [(0, 1), (0, 1)]

/-- The self-attacking argument `a`, also attacked by `b`: attacks `a a` and `b a`. -/
def aaf_attacked_loop : AAF := aaf_of ["a", "b"] [(0, 0), (1, 0)]

/-! ## Inputs for the statements on the toggle step and on restarts -/

/-- The argument whose label the toggle step wrote, if it did not leave the loop. -/
def written_argument : Toggled → Option Nat
  | Toggled.done a _ => some a
  | Toggled.stop _ _ => none

/-- The place at which the toggle step left the loop, if it did. -/
def toggled_exit : Toggled → Option Exit
  | Toggled.done _ _ => none
  | Toggled.stop e _ => some e

/-- The fault of an outcome, if it is one. -/
def fault_of : Outcome → Option Fault
  | Outcome.fault f => some f
  | _ => none

/-- The part of the loop body went through and the property holds for the state after it. -/
def step_holds (r : Step) (P : St → Prop) : Prop :=
  match r with
  | Step.next s => P s
  | _ => False

instance (r : Step) (P : St → Prop) [DecidablePred P] : Decidable (step_holds r P) :=
  match r with
  | Step.next s => inferInstanceAs (Decidable (P s))
  | Step.stop _ _ => isFalse (fun h => h)
  | Step.fault _ => isFalse (fun h => h)

/-- Arguments `a`, `b`, `c` with the attacks `a b`, `b a`, `c c`: the self-attacking `c`
(index 2) has itself as only parent, the argument with index 0 has the parent `b`. -/
def aaf_loop_beside_cycle : AAF := aaf_of ["a", "b", "c"] [(0, 1), (1, 0), (2, 2)]

/-- The framework `aaf_loop_beside_cycle`, nothing fixed, the option `-initout 1`, and a random
stream whose second value selects `c`, the third of the mislabeled arguments. -/
def setting_loop_beside_cycle : Setting :=
  setting_of { default_options with init_out := true } aaf_loop_beside_cycle
    (labeling_of [] []) (fun i => [0, 2, 0].getD i 0)

/-- The options `-restart -2 -maxit 6`. -/
def options_restart_minus_two : Options :=
  { default_options with
    restart_param := some (-2)
    maxit := some 6 }

/-- Two self-attacking arguments, nothing fixed, `-restart -2 -maxit 6`, a random stream of
zeroes. -/
def setting_restart_minus_two : Setting :=
  setting_of options_restart_minus_two aaf_two_loops (labeling_of [] []) (fun _ => 0)

/-- The options `-restart 3 -maxit 8`. -/
def options_restart_three : Options :=
  { default_options with
    restart_param := some 3
    maxit := some 8 }

/-- Two self-attacking arguments, nothing fixed, `-restart 3 -maxit 8`, a random stream of
zeroes. -/
def setting_restart_three : Setting :=
  setting_of options_restart_three aaf_two_loops (labeling_of [] []) (fun _ => 0)

/-- A state of the run `setting_restart_three` with the counter value 3. -/
def state_at_three : St :=
  { init_state setting_restart_three with number_iterations := 3 }

/-- Two self-attacking arguments, nothing fixed, `-restart 0`, a random stream of zeroes. -/
def setting_restart_zero : Setting :=
  setting_of { default_options with restart_param := some 0 } aaf_two_loops
    (labeling_of [] []) (fun _ => 0)

/-- Two self-attacking arguments, nothing fixed, `-restartdyn 0`, a random stream of zeroes. -/
def setting_restartdyn_zero : Setting :=
  setting_of { default_options with restartdyn_param := some 0 } aaf_two_loops
    (labeling_of [] []) (fun _ => 0)

/-! ## The heap at the move selection -/

/-- When `greedyprob > 0`, the heap has been constructed (the pointer is not NULL). -/
def heap_ready (c : Setting) (s : St) : Prop :=
  c.task.greedyprob_pos = true → ∃ h, s.mislabeled_pqueue = some h

/-- The two-cycle, nothing fixed, the options `-greedyprob 0.5 -randsel 0.3 -initout 1
-enforceout 1` and a random stream of zeroes. -/
def setting_greedy_two_cycle : Setting :=
  setting_of options_mixed_moves aaf_two_cycle (labeling_of [] []) (fun _ => 0)

/-! ## Inputs for the statements on the heap -/

/-- The options `-greedyprob 0.5 -initout 1`, with `RAND_MAX` taken as 2147483647 and IEEE
single precision for `float`: `(float)RAND_MAX` is 2^31 and `(float)r` is `r` rounded to 24
bits, so `(float)r/(float)RAND_MAX < 0.5f` holds exactly for `r < 1073741792`; `randsel` is 0
and the second comparison is the same. -/
def options_greedy_half : Options :=
  { default_options with
    greedyprob_pos := true
    prob_lt_greedyprob := fun r => decide (r < 1073741792)
    prob_lt_greedyprob_plus_randsel := fun r => decide (r < 1073741792)
    init_out := true }

/-- Arguments `x`, `x2`, `y`, `z`, `z2` with the attacks `x x2`, `x2 x`, `z z2`, `z2 z`, `x y`,
`z y`: the arguments `x` and `z` share the child `y` and are not neighbours. -/
def aaf_shared_child : AAF :=
  aaf_of ["x", "x2", "y", "z", "z2"] [(0, 1), (1, 0), (3, 4), (4, 3), (0, 2), (3, 2)]

/-- The framework `aaf_shared_child`, nothing fixed, `-greedyprob 0.5 -initout 1`, and a random
stream whose first value gives a draw above `greedyprob` and whose second value selects `z`,
the fourth of the mislabeled arguments. -/
def setting_shared_child : Setting :=
  setting_of options_greedy_half aaf_shared_child (labeling_of [] [])
    (fun i => [2000000000, 3].getD i 0)

/-- Arguments `a`, `c`, `b`, `x1`, ..., `x4` with the attacks `a c`, `c a`, `b b` and `b xi`:
the self-attacking `b` (index 2) has the smallest flipping count under the all-out labeling. -/
def aaf_loop_with_children : AAF :=
  aaf_of ["a", "c", "b", "x1", "x2", "x3", "x4"]
    [(0, 1), (1, 0), (2, 2), (2, 3), (2, 4), (2, 5), (2, 6)]

/-- The framework `aaf_loop_with_children`, nothing fixed, `-greedyprob 0.5 -initout 1`, and a
random stream of zeroes: the first move is a greedy move. -/
def setting_loop_with_children : Setting :=
  setting_of options_greedy_half aaf_loop_with_children (labeling_of [] []) (fun _ => 0)

/-- Arguments `p`, `q`, `r`, `t`, `t2`, `y1`, `y2`, `y3` with the odd cycle `p q`, `q r`, `r p`,
its attacker `t` (`t p`, `t t2`, `t2 t`) and the attacks `q yi`: `q` (index 1) has the smallest
flipping count under the all-out labeling. -/
def aaf_attacked_odd_cycle : AAF :=
  aaf_of ["p", "q", "r", "t", "t2", "y1", "y2", "y3"]
    [(0, 1), (1, 2), (2, 0), (3, 0), (3, 4), (4, 3), (1, 5), (1, 6), (1, 7)]

/-- The odd cycle collection of `aaf_attacked_odd_cycle`: the cycle `p`, `q`, `r` with the
attacker `t`. -/
def occ_attacked_odd_cycle : OddCycleCollection :=
  { occ__contains := fun x => decide (x < 3)
    occ__get_attackers := fun x => if x < 3 then [3] else [] }

/-- The framework `aaf_attacked_odd_cycle`, nothing fixed, `-greedyprob 0.5 -initout 1
-escapeoddcycles 1`, and a random stream of zeroes: the first move is a greedy move. -/
def setting_attacked_odd_cycle : Setting :=
  { setting_of { options_greedy_half with escapeoddcycles := true } aaf_attacked_odd_cycle
      (labeling_of [] []) (fun _ => 0) with
    occ_init := some occ_attacked_odd_cycle }

/-! ## The label writes of the toggle step -/

/-- One write to the `in` bit set of the labeling: `bitset__set` for the value `true`,
`bitset__unset` for the value `false`. -/
def apply_write (b : BitSet) (w : Nat × Bool) : BitSet :=
  if w.2 then bitset__set b w.1 else bitset__unset b w.1

/-- Lines 399 and 406-422: the writes to `lab->in` when `sel_arg` is labeled in, in program
order: the `bitset__set` of line 399, and under `enforce_out` the `bitset__unset` of line 411
for each child and that of line 418 for each parent. -/
def label_in_writes (c : Setting) (sel_arg : Nat) : List (Nat × Bool) :=
  (sel_arg, true) ::
    (if c.task.enforce_out then
      (c.aaf.children sel_arg).map (fun node => (node, false)) ++
        (c.aaf.parents sel_arg).map (fun node => (node, false))
    else [])

/-- Lines 378-424: the writes to `lab->in` of the toggle step in program order, each as the
argument and the value written: the `bitset__unset` of line 379 when the argument is labeled
in, no write when the step is left by a `break`, and otherwise the writes of labeling the
argument (or the attacker that replaces a self-attacking argument) in. -/
def toggle_writes (c : Setting) (s : St) (sel_arg : Nat) : List (Nat × Bool) :=
  if taas__lab_get_label s.lab sel_arg = Label.LAB_IN then [(sel_arg, false)]
  else if bitset__get c.aaf.loops sel_arg then
    if (c.aaf.parents 0).length = 0 then []
    else
      match llist__get_with_skip (c.aaf.parents 0)
          (c.rand s.rand_calls % (c.aaf.parents 0).length) c.grounded.out with
      | none => []
      | some r => label_in_writes c r
  else label_in_writes c sel_arg

/-- Arguments `a`, `b`, `c`, `d` with the attacks `a b`, `c b`, `c d`, `d c`: the grounded
labeling is `gr.in = {a}`, `gr.out = {b}`, and `c`, which it leaves open, attacks `b`. -/
def aaf_fixed_neighbour : AAF := aaf_of ["a", "b", "c", "d"] [(0, 1), (2, 1), (2, 3), (3, 2)]

/-- The framework `aaf_fixed_neighbour` with its grounded labeling, the options
`-initout 1 -enforceout 1 -randsel 2`, and a random stream whose second value selects `c`. -/
def setting_fixed_neighbour : Setting :=
  setting_of options_enforce_randsel aaf_fixed_neighbour (labeling_of [0] [1])
    (fun i => [0, 2].getD i 0)

/-- The state of the run `setting_fixed_neighbour` after the restart phase of the first
iteration. -/
def state_after_overlay : St :=
  reset_heap setting_fixed_neighbour
    (store_minimum setting_fixed_neighbour
      (restart_labeling setting_fixed_neighbour (init_state setting_fixed_neighbour)))

/-- The result of the move selection of the first iteration of the run
`setting_fixed_neighbour`: the argument `c`, after two values of the random stream. -/
def selection_after_overlay : Nat × St :=
  (2, { state_after_overlay with number_iterations := 1, rand_calls := 2 })

/-- The two-cycle with `gr.in = gr.out = {a, b}`: both conditions of a valid grounded labeling
and the closure rule hold, and the two bit sets are not disjoint. -/
def setting_overlapping_grounded : Setting :=
  setting_of default_options aaf_two_cycle (labeling_of [0, 1] [0, 1]) (fun _ => 0)

/-- Arguments `a`, `b` where `a` is listed as a parent of `b` and `b` is not listed as a child
of `a`: adjacency lists that break the invariant of the data model. -/
def aaf_missing_child : AAF :=
  { aaf_of ["a", "b"] [(0, 1)] with children := fun _ => [] }

/-- The framework `aaf_missing_child`, nothing fixed, default options, and a random stream
that labels `a` out and `b` in at the restart. -/
def setting_missing_child : Setting :=
  setting_of default_options aaf_missing_child (labeling_of [] []) (fun i => [0, 1].getD i 0)

/-! # Theorems -/

/-! ## Bit sets, random access sets, heap -/

@[simp] theorem bitset__get_eq (b : BitSet) (i : Nat) : bitset__get b i = b i := rfl
@[simp] theorem bitset__set_apply (b : BitSet) (i j : Nat) :
    bitset__set b i j = if j = i then true else b j := rfl
@[simp] theorem bitset__unset_apply (b : BitSet) (i j : Nat) :
    bitset__unset b i j = if j = i then false else b j := rfl

theorem mem_raset__add (s : RaSet) (x y : Nat) : y ∈ raset__add s x ↔ y ∈ s ∨ y = x := by
  unfold raset__add
  split
  · constructor
    · intro h; exact Or.inl h
    · rintro (h | h)
      · exact h
      · subst h; assumption
  · simp

theorem mem_raset__remove (s : RaSet) (x y : Nat) : y ∈ raset__remove s x ↔ y ∈ s ∧ y ≠ x := by
  simp [raset__remove]

theorem mem_foldl_raset__add (l : List Nat) (s : RaSet) (y : Nat) :
    y ∈ l.foldl raset__add s ↔ y ∈ s ∨ y ∈ l := by
  induction l generalizing s with
  | nil => simp
  | cons a t ih =>
    simp only [List.foldl_cons, ih, mem_raset__add, List.mem_cons]
    tauto

theorem overlay_grounded_apply (c : Setting) (l : BitSet) (j : Nat) :
    overlay_grounded c l j =
      if j < c.aaf.number_of_arguments then
        (if c.grounded.in_ j then true else if c.grounded.out j then false else l j)
      else l j := by
  unfold overlay_grounded
  induction c.aaf.number_of_arguments with
  | zero => simp
  | succ k ih =>
    rw [List.range_succ, List.foldl_append]
    simp only [List.foldl_cons, List.foldl_nil]
    by_cases hjk : j = k
    · subst hjk
      simp only [lt_irrefl, if_false] at ih
      by_cases h1 : c.grounded.in_ j = true
      · simp [h1]
      · by_cases h2 : c.grounded.out j = true
        · simp [h1, h2]
        · simp only [bitset__get_eq] at ih
          simp [h1, h2, ih]
    · have hlt : (j < k + 1) ↔ (j < k) := by omega
      simp only [hlt]
      rw [← ih]
      by_cases h1 : c.grounded.in_ k = true
      · simp [h1, hjk]
      · by_cases h2 : c.grounded.out k = true
        · simp [h1, h2, hjk]
        · simp [h1, h2]

theorem mem_rebuild_mislabeled (c : Setting) (lab : Labeling) (x : Nat) :
    x ∈ rebuild_mislabeled c lab ↔
      x < c.aaf.number_of_arguments ∧ not_fixed c.grounded x ∧
        taas__labeled_correctly c.aaf lab x = false := by
  unfold rebuild_mislabeled
  induction c.aaf.number_of_arguments with
  | zero => simp
  | succ k ih =>
    rw [List.range_succ, List.foldl_append]
    simp only [List.foldl_cons, List.foldl_nil]
    by_cases hxk : x = k
    · subst hxk
      have hnot : ¬ x < x := lt_irrefl x
      simp only [hnot, false_and, iff_false] at ih
      by_cases h1 : (!bitset__get c.grounded.in_ x && !bitset__get c.grounded.out x) = true
      · rw [if_pos h1]
        by_cases h2 : (!taas__labeled_correctly c.aaf lab x) = true
        · rw [if_pos h2]
          simp_all [mem_raset__add, not_fixed]
        · rw [if_neg h2]
          simp_all [not_fixed]
      · rw [if_neg h1]
        simp_all [not_fixed]
    · have hlt : (x < k + 1) ↔ (x < k) := by omega
      rw [hlt, ← ih]
      split
      · split
        · simp [mem_raset__add, hxk]
        · rfl
      · rfl

/-! ## The restart phase -/

theorem restart_condition_first (c : Setting) (s : St) (b : Bool) (h : s.number_iterations = 0) :
    restart_condition c s b = Except.ok true := by
  simp [restart_condition, h]

theorem local_minimum_check_iterations (c : Setting) (s : St) :
    (local_minimum_check c s).2.number_iterations = s.number_iterations := by
  unfold local_minimum_check
  split
  · split <;> rfl
  · rfl

theorem restart_phase_first (c : Setting) (s : St) (h : s.number_iterations = 0) :
    restart_phase c s = restart_block c (local_minimum_check c s).2 := by
  unfold restart_phase
  rw [restart_condition_first c _ _ (by rw [local_minimum_check_iterations]; exact h)]

theorem local_minimum_check_frame (c : Setting) (s : St) :
    (local_minimum_check c s).2.lab = s.lab ∧
    (local_minimum_check c s).2.mislabeled = s.mislabeled ∧
    (local_minimum_check c s).2.mislabeled_pqueue = s.mislabeled_pqueue ∧
    (local_minimum_check c s).2.number_iterations = s.number_iterations ∧
    (local_minimum_check c s).2.flipped = s.flipped ∧
    (local_minimum_check c s).2.restarts = s.restarts := by
  unfold local_minimum_check
  split
  · split <;> simp
  · simp

theorem store_minimum_frame (c : Setting) (s : St) :
    (store_minimum c s).lab = s.lab ∧ (store_minimum c s).mislabeled = s.mislabeled ∧
    (store_minimum c s).mislabeled_pqueue = s.mislabeled_pqueue ∧
    (store_minimum c s).number_iterations = s.number_iterations ∧
    (store_minimum c s).flipped = s.flipped ∧ (store_minimum c s).restarts = s.restarts := by
  unfold store_minimum
  split <;> simp

theorem reset_heap_frame (c : Setting) (s : St) :
    (reset_heap c s).lab = s.lab ∧ (reset_heap c s).mislabeled = s.mislabeled ∧
    (reset_heap c s).number_iterations = s.number_iterations ∧
    (reset_heap c s).flipped = s.flipped ∧ (reset_heap c s).restarts = s.restarts ∧
    ((reset_heap c s).mislabeled_pqueue = s.mislabeled_pqueue ∨
      (reset_heap c s).mislabeled_pqueue = some (build_heap c s.lab s.mislabeled)) := by
  unfold reset_heap
  split <;> simp

theorem restart_labeling_spec (c : Setting) (s : St) :
    (restart_labeling c s).mislabeled = rebuild_mislabeled c (restart_labeling c s).lab ∧
    (∀ j, j < c.aaf.number_of_arguments →
      (c.grounded.in_ j = true → (restart_labeling c s).lab.in_ j = true) ∧
      (c.grounded.in_ j = false → c.grounded.out j = true →
        (restart_labeling c s).lab.in_ j = false)) ∧
    (restart_labeling c s).number_iterations = s.number_iterations ∧
    (restart_labeling c s).flipped = s.flipped ∧
    (restart_labeling c s).restarts = s.restarts + 1 ∧
    (restart_labeling c s).mislabeled_pqueue = s.mislabeled_pqueue := by
  refine ⟨rfl, ?_, rfl, rfl, rfl, rfl⟩
  intro j hj
  simp only [restart_labeling, overlay_grounded_apply, hj, if_true]
  constructor
  · intro h; simp [h]
  · intro h1 h2; simp [h1, h2]

/-- What the restart block leaves behind, whether it continues or breaks. -/
theorem restart_block_spec (c : Setting) (s s1 : St)
    (h : restart_block c s = Step.next s1 ∨ ∃ e, restart_block c s = Step.stop e s1) :
    s1.lab = (restart_labeling c s).lab ∧
    s1.mislabeled = (restart_labeling c s).mislabeled ∧
    s1.number_iterations = s.number_iterations ∧ s1.flipped = s.flipped ∧
    s1.restarts = s.restarts + 1 ∧
    (s1.mislabeled_pqueue = s.mislabeled_pqueue ∨
      s1.mislabeled_pqueue = some (build_heap c s1.lab s1.mislabeled)) := by
  unfold restart_block at h
  split at h
  · rcases h with h | ⟨e, h⟩
    · cases h
    · injection h with _ h
      subst h
      exact ⟨rfl, rfl, rfl, rfl, rfl, Or.inl rfl⟩
  · rcases h with h | ⟨e, h⟩
    · injection h with h
      subst h
      obtain ⟨a1, a2, a3, a4, a5, a6⟩ := reset_heap_frame c (store_minimum c (restart_labeling c s))
      obtain ⟨b1, b2, b3, b4, b5, b6⟩ := store_minimum_frame c (restart_labeling c s)
      refine ⟨by rw [a1, b1], by rw [a2, b2], by rw [a3, b4]; rfl, by rw [a4, b5]; rfl,
        by rw [a5, b6]; rfl, ?_⟩
      rcases a6 with a6 | a6
      · left; rw [a6, b3]; rfl
      · right; rw [a6, a1, a2]
    · cases h

/-! ## Move selection and odd cycle escape -/

theorem raset__get_mem (s : RaSet) (i : Nat) (h : i < s.length) : raset__get s i ∈ s := by
  unfold raset__get
  rw [List.getD_eq_getElem _ _ h]
  exact List.getElem_mem h

theorem raset__random_element_mem (s : RaSet) (r x : Nat)
    (h : raset__random_element s r = some x) : x ∈ s := by
  unfold raset__random_element at h
  split at h
  · cases h
  · injection h with h
    subst h
    exact raset__get_mem _ _ (Nat.mod_lt _ (by omega))

theorem raset__random_element_with_skip_mem (s : RaSet) (skip : BitSet) (r x : Nat)
    (h : raset__random_element_with_skip s skip r = some x) : x ∈ s ∧ skip x = false := by
  unfold raset__random_element_with_skip at h
  simp only at h
  split at h
  · cases h
  · injection h with h
    have hm := raset__get_mem (s.filter (fun x => !bitset__get skip x))
      (r % (s.filter (fun x => !bitset__get skip x)).length) (Nat.mod_lt _ (by omega))
    rw [h] at hm
    simpa using hm

theorem llist__get_with_skip_mem (l : List Nat) (idx : Nat) (skip : BitSet) (x : Nat)
    (h : llist__get_with_skip l idx skip = some x) : x ∈ l ∧ skip x = false := by
  unfold llist__get_with_skip at h
  simp only at h
  split at h
  · cases h
  · injection h with h
    have hm := raset__get_mem (l.filter (fun x => !bitset__get skip x))
      (idx % (l.filter (fun x => !bitset__get skip x)).length) (Nat.mod_lt _ (by omega))
    unfold raset__get at hm
    rw [h] at hm
    simpa using hm

theorem binaryheap__minimum_mem (h : BinaryHeap) (m : Nat × Int)
    (hm : binaryheap__minimum h = some m) : m ∈ h := by
  induction h generalizing m with
  | nil => simp [binaryheap__minimum] at hm
  | cons e t ih =>
    unfold binaryheap__minimum at hm
    split at hm
    · injection hm with hm; subst hm; simp
    · rename_i m1 hm1
      split at hm
      · injection hm with hm; subst hm
        exact List.mem_cons_of_mem _ (ih _ hm1)
      · injection hm with hm; subst hm; simp

theorem binaryheap__extract_minimum_mem (h : BinaryHeap) (p : Nat × BinaryHeap)
    (hp : binaryheap__extract_minimum h = some p) :
    (∃ k, (p.1, k) ∈ h) ∧ ∀ e, e ∈ p.2 → e ∈ h := by
  unfold binaryheap__extract_minimum at hp
  split at hp
  · cases hp
  · rename_i m hm
    injection hp with hp
    subst hp
    refine ⟨⟨m.2, binaryheap__minimum_mem h m hm⟩, ?_⟩
    intro e he
    simp only [binaryheap__remove, List.mem_filter] at he
    exact he.1

theorem rejection_loop_not_fixed (c : Setting) (fuel calls : Nat) (p : Nat × Nat)
    (h : rejection_loop c fuel calls = some p) : not_fixed c.grounded p.1 := by
  induction fuel generalizing calls with
  | zero => simp [rejection_loop] at h
  | succ k ih =>
    unfold rejection_loop at h
    split at h
    · exact ih _ h
    · rename_i hne
      injection h with h
      subst h
      simpa [not_fixed] using hne

theorem select_random_spec (c : Setting) (s : St) (r : Nat) (p : Nat × St)
    (h : select_random c s r = Except.ok p) :
    same_labels s p.2 ∧ p.2.mislabeled_pqueue = s.mislabeled_pqueue ∧
      p.2.toBeChecked = s.toBeChecked ∧
      ((∀ a, a ∈ s.mislabeled → not_fixed c.grounded a) → not_fixed c.grounded p.1) := by
  unfold select_random at h
  split at h
  · split at h
    · cases h
    · split at h
      · cases h
      · rename_i q hq
        injection h with h
        subst h
        exact ⟨⟨rfl, rfl, rfl, rfl, rfl⟩, rfl, rfl, fun _ => rejection_loop_not_fixed c _ _ q hq⟩
  · split at h
    · cases h
    · rename_i x hx
      injection h with h
      subst h
      exact ⟨⟨rfl, rfl, rfl, rfl, rfl⟩, rfl, rfl,
        fun hm => hm _ (raset__random_element_mem _ _ _ hx)⟩

theorem select_argument_spec (c : Setting) (s : St) (p : Nat × St)
    (h : select_argument c s = Except.ok p) :
    same_labels s p.2 ∧ heap_shrinks s p.2 ∧ p.2.toBeChecked = s.toBeChecked ∧
      (candidates_inv c s → not_fixed c.grounded p.1) := by
  have hrandom : ∀ r, select_random c { s with rand_calls := s.rand_calls + 1 } r = Except.ok p →
      same_labels s p.2 ∧ heap_shrinks s p.2 ∧ p.2.toBeChecked = s.toBeChecked ∧
        (candidates_inv c s → not_fixed c.grounded p.1) := by
    intro r hr
    obtain ⟨h1, h2, h3, h4⟩ := select_random_spec c _ r p hr
    refine ⟨h1, ?_, h3, fun hc => h4 hc.1⟩
    intro h1 hh
    rw [h2] at hh
    exact ⟨h1, hh, fun _ he => he⟩
  unfold select_argument at h
  split at h
  · split at h
    · cases h
    · rename_i hp hq
      split at h
      · split at h
        · cases h
        · rename_i q hex
          injection h with h
          subst h
          obtain ⟨⟨k, hk⟩, hsub⟩ := binaryheap__extract_minimum_mem _ _ hex
          refine ⟨⟨rfl, rfl, rfl, rfl, rfl⟩, ?_, rfl, ?_⟩
          · intro h1 hh
            injection hh with hh
            subst hh
            exact ⟨hp, hq, hsub⟩
          · intro hc
            exact hc.2 hp hq _ hk
      · exact hrandom _ h
  · exact hrandom _ h

theorem odd_cycle_escape_spec (c : Setting) (s : St) (sel_arg : Nat) :
    same_labels s (odd_cycle_escape c s sel_arg).2 ∧
    (odd_cycle_escape c s sel_arg).2.mislabeled_pqueue = s.mislabeled_pqueue ∧
    (odd_cycle_escape c s sel_arg).2.toBeChecked = s.toBeChecked ∧
    ∀ a, (odd_cycle_escape c s sel_arg).1 = some a →
      a = sel_arg ∨ (s.lab.in_ a = false ∧ c.grounded.out a = false) := by
  unfold odd_cycle_escape
  split
  · exact ⟨⟨rfl, rfl, rfl, rfl, rfl⟩, rfl, rfl, fun a ha => Or.inl (by injection ha with ha; exact ha.symm)⟩
  · split
    · split
      · rename_i hall
        refine ⟨⟨rfl, rfl, rfl, rfl, rfl⟩, rfl, rfl, ?_⟩
        intro a ha
        obtain ⟨hmem, hskip⟩ := raset__random_element_with_skip_mem _ _ _ _ ha
        right
        rw [List.all_eq_true] at hall
        have := hall a hmem
        simp at this
        exact ⟨this, hskip⟩
      · exact ⟨⟨rfl, rfl, rfl, rfl, rfl⟩, rfl, rfl, fun a ha => Or.inl (by injection ha with ha; exact ha.symm)⟩
    · exact ⟨⟨rfl, rfl, rfl, rfl, rfl⟩, rfl, rfl, fun a ha => Or.inl (by injection ha with ha; exact ha.symm)⟩

/-! ## Toggle and re-check -/

theorem enforce_out_loop_spec (c : Setting) (nodes : List Nat) (acc : BitSet × RaSet) :
    (∀ x, (enforce_out_loop c nodes acc).1 x = if x ∈ nodes then false else acc.1 x) ∧
    (∀ y, y ∈ (enforce_out_loop c nodes acc).2 ↔
      y ∈ acc.2 ∨ ∃ node, node ∈ nodes ∧ (y ∈ c.aaf.children node ∨ y ∈ c.aaf.parents node)) := by
  unfold enforce_out_loop
  induction nodes generalizing acc with
  | nil => simp
  | cons n t ih =>
    simp only [List.foldl_cons]
    obtain ⟨ih1, ih2⟩ := ih (bitset__unset acc.1 n,
      (c.aaf.parents n).foldl raset__add ((c.aaf.children n).foldl raset__add acc.2))
    constructor
    · intro x
      rw [ih1]
      by_cases hxt : x ∈ t
      · simp [hxt]
      · by_cases hxn : x = n
        · simp [hxn]
        · simp [hxt, hxn]
    · intro y
      rw [ih2]
      simp only [mem_foldl_raset__add, List.mem_cons]
      constructor
      · rintro (((h | h) | h) | ⟨node, hn, h⟩)
        · exact Or.inl h
        · exact Or.inr ⟨n, Or.inl rfl, Or.inl h⟩
        · exact Or.inr ⟨n, Or.inl rfl, Or.inr h⟩
        · exact Or.inr ⟨node, Or.inr hn, h⟩
      · rintro (h | ⟨node, hn | hn, h⟩)
        · exact Or.inl (Or.inl (Or.inl h))
        · subst hn
          rcases h with h | h
          · exact Or.inl (Or.inl (Or.inr h))
          · exact Or.inl (Or.inr h)
        · exact Or.inr ⟨node, hn, h⟩

theorem label_in_spec (c : Setting) (s s1 : St) (a b : Nat)
    (h : label_in c s a = Toggled.done b s1) :
    b = a ∧ s1.mislabeled = s.mislabeled ∧ s1.mislabeled_pqueue = s.mislabeled_pqueue ∧
    s1.number_iterations = s.number_iterations ∧ s1.restarts = s.restarts ∧
    s1.flipped = s.flipped ++ [a] ∧
    (∀ y, s1.lab.in_ y =
      if c.task.enforce_out = true ∧ (y ∈ c.aaf.children a ∨ y ∈ c.aaf.parents a) then false
      else if y = a then true else s.lab.in_ y) ∧
    (∀ y, y ∈ s1.toBeChecked ↔ y ∈ s.toBeChecked ∨ y = a ∨
      (c.task.enforce_out = true ∧ ∃ node, (node ∈ c.aaf.children a ∨ node ∈ c.aaf.parents a) ∧
        (y ∈ c.aaf.children node ∨ y ∈ c.aaf.parents node))) := by
  unfold label_in at h
  injection h with h1 h2
  subst h1 h2
  refine ⟨rfl, rfl, rfl, rfl, rfl, rfl, ?_, ?_⟩
  · intro y
    by_cases he : c.task.enforce_out = true
    · simp only [he, if_true, true_and]
      rw [(enforce_out_loop_spec c _ _).1, (enforce_out_loop_spec c _ _).1]
      by_cases hp : y ∈ c.aaf.parents a
      · simp [hp]
      · by_cases hc : y ∈ c.aaf.children a
        · simp [hc]
        · simp [hp, hc]
    · simp [he]
  · intro y
    by_cases he : c.task.enforce_out = true
    · simp only [he, if_true, true_and]
      rw [(enforce_out_loop_spec c _ _).2, (enforce_out_loop_spec c _ _).2, mem_raset__add]
      constructor
      · rintro (((h | h) | ⟨node, hn, h⟩) | ⟨node, hn, h⟩)
        · exact Or.inl h
        · exact Or.inr (Or.inl h)
        · exact Or.inr (Or.inr ⟨node, Or.inl hn, h⟩)
        · exact Or.inr (Or.inr ⟨node, Or.inr hn, h⟩)
      · rintro (h | h | ⟨node, hn | hn, h⟩)
        · exact Or.inl (Or.inl (Or.inl h))
        · exact Or.inl (Or.inl (Or.inr h))
        · exact Or.inl (Or.inr ⟨node, hn, h⟩)
        · exact Or.inr ⟨node, hn, h⟩
    · simp [he, mem_raset__add]

theorem toggle_label_done (c : Setting) (s s1 : St) (sel_arg a : Nat)
    (h : toggle_label c s sel_arg = Toggled.done a s1) :
    (s.lab.in_ sel_arg = true ∧ a = sel_arg ∧
      s1 = { s with lab := { s.lab with in_ := bitset__unset s.lab.in_ sel_arg },
                    toBeChecked := raset__add s.toBeChecked sel_arg,
                    flipped := s.flipped ++ [sel_arg] }) ∨
    (s.lab.in_ sel_arg = false ∧ (a = sel_arg ∨ c.grounded.out a = false) ∧
      ∃ s0, same_labels s s0 ∧ s0.mislabeled_pqueue = s.mislabeled_pqueue ∧
        s0.toBeChecked = s.toBeChecked ∧ label_in c s0 a = Toggled.done a s1) := by
  unfold toggle_label at h
  split at h
  · rename_i hin
    left
    injection h with h1 h2
    subst h1 h2
    refine ⟨?_, rfl, rfl⟩
    unfold taas__lab_get_label at hin
    by_cases hb : s.lab.in_ sel_arg = true
    · exact hb
    · simp [hb] at hin
  · rename_i hin
    have hout : s.lab.in_ sel_arg = false := by
      unfold taas__lab_get_label at hin
      by_cases hb : s.lab.in_ sel_arg = true
      · simp [hb] at hin
      · simpa using hb
    right
    split at h
    · split at h
      · cases h
      · split at h
        · cases h
        · rename_i r hr
          obtain ⟨hb, _⟩ := label_in_spec c _ _ _ _ h
          subst hb
          exact ⟨hout, Or.inr (llist__get_with_skip_mem _ _ _ _ hr).2,
            { s with rand_calls := s.rand_calls + 1 }, ⟨rfl, rfl, rfl, rfl, rfl⟩, rfl, rfl, h⟩
    · obtain ⟨hb, _⟩ := label_in_spec c _ _ _ _ h
      subst hb
      exact ⟨hout, Or.inl rfl, s, ⟨rfl, rfl, rfl, rfl, rfl⟩, rfl, rfl, h⟩

theorem toggle_label_stop (c : Setting) (s s1 : St) (sel_arg : Nat) (e : Exit)
    (h : toggle_label c s sel_arg = Toggled.stop e s1) :
    same_labels s s1 ∧ s1.mislabeled_pqueue = s.mislabeled_pqueue ∧
      (e = Exit.loop_no_attacker ∨ e = Exit.loop_attackers_out) := by
  unfold toggle_label at h
  split at h
  · cases h
  · split at h
    · split at h
      · injection h with h1 h2
        subst h1 h2
        exact ⟨⟨rfl, rfl, rfl, rfl, rfl⟩, rfl, Or.inl rfl⟩
      · split at h
        · injection h with h1 h2
          subst h1 h2
          exact ⟨⟨rfl, rfl, rfl, rfl, rfl⟩, rfl, Or.inr rfl⟩
        · unfold label_in at h
          cases h
    · unfold label_in at h
      cases h

theorem mem_binaryheap__update (h : BinaryHeap) (x : Nat) (k : Int) (e : Nat × Int)
    (he : e ∈ binaryheap__update h x k) : e ∈ h ∨ e.1 = x := by
  unfold binaryheap__update at he
  split at he
  · rw [List.mem_map] at he
    obtain ⟨e0, he0, heq⟩ := he
    split at heq
    · right; rw [← heq]
    · left; rw [← heq]; exact he0
  · simp only [binaryheap__insert, List.mem_append, List.mem_singleton] at he
    rcases he with he | he
    · exact Or.inl he
    · right; rw [he]

theorem recheck_element_spec (c : Setting) (s s1 : St) (elem : Nat)
    (h : recheck_element c s elem = Except.ok s1) :
    s1.lab = s.lab ∧ s1.number_iterations = s.number_iterations ∧ s1.flipped = s.flipped ∧
    s1.restarts = s.restarts ∧
    (∀ y, y ∈ s1.mislabeled ↔
      if y = elem ∧ not_fixed c.grounded elem then taas__labeled_correctly c.aaf s.lab elem = false
      else y ∈ s.mislabeled) ∧
    (∀ h1, s1.mislabeled_pqueue = some h1 → ∃ h0, s.mislabeled_pqueue = some h0 ∧
      ∀ e, e ∈ h1 → e ∈ h0 ∨ not_fixed c.grounded e.1) := by
  have hmis : not_fixed c.grounded elem → ∀ y, (y ∈ (if (!taas__labeled_correctly c.aaf s.lab elem) = true
        then raset__add s.mislabeled elem else raset__remove s.mislabeled elem) ↔
      if y = elem ∧ not_fixed c.grounded elem then taas__labeled_correctly c.aaf s.lab elem = false
      else y ∈ s.mislabeled) := by
    intro hnf y
    by_cases hl : taas__labeled_correctly c.aaf s.lab elem = true
    · simp only [hl, Bool.not_true, if_false, mem_raset__remove]
      by_cases hy : y = elem
      · simp [hy, hnf, mem_raset__remove]
      · simp [hy, mem_raset__remove]
    · simp only [Bool.not_eq_true] at hl
      simp only [hl, Bool.not_false, if_true, mem_raset__add]
      by_cases hy : y = elem
      · simp [hy, hnf]
      · simp [hy]
  unfold recheck_element at h
  split at h
  · rename_i hfix
    have hnf : not_fixed c.grounded elem := by simpa [not_fixed] using hfix
    simp only at h
    split at h
    · split at h
      · cases h
      · rename_i h0 hh0
        injection h with h
        subst h
        refine ⟨rfl, rfl, rfl, rfl, hmis hnf, ?_⟩
        intro h1 hh1
        injection hh1 with hh1
        subst hh1
        refine ⟨h0, hh0, fun e he => ?_⟩
        rcases mem_binaryheap__update _ _ _ _ he with he | he
        · exact Or.inl he
        · right; rw [he]; exact hnf
    · split at h
      · split at h
        · cases h
        · rename_i h0 hh0
          split at h
          · injection h with h
            subst h
            refine ⟨rfl, rfl, rfl, rfl, hmis hnf, ?_⟩
            intro h1 hh1
            injection hh1 with hh1
            subst hh1
            refine ⟨h0, hh0, fun e he => ?_⟩
            simp only [binaryheap__remove, List.mem_filter] at he
            exact Or.inl he.1
          · injection h with h
            subst h
            exact ⟨rfl, rfl, rfl, rfl, hmis hnf, fun h1 hh1 => ⟨h1, hh1, fun e he => Or.inl he⟩⟩
      · injection h with h
        subst h
        exact ⟨rfl, rfl, rfl, rfl, hmis hnf, fun h1 hh1 => ⟨h1, hh1, fun e he => Or.inl he⟩⟩
  · rename_i hfix
    have hnf : ¬ not_fixed c.grounded elem := by simpa [not_fixed] using hfix
    injection h with h
    subst h
    refine ⟨rfl, rfl, rfl, rfl, ?_, fun h1 hh1 => ⟨h1, hh1, fun e he => Or.inl he⟩⟩
    intro y
    simp [hnf]

theorem recheck_loop_spec (c : Setting) (l : List Nat) (s s1 : St)
    (h : recheck_loop c l s = Except.ok s1) :
    s1.lab = s.lab ∧ s1.number_iterations = s.number_iterations ∧ s1.flipped = s.flipped ∧
    s1.restarts = s.restarts ∧
    (∀ y, y ∈ s1.mislabeled ↔
      if y ∈ l ∧ not_fixed c.grounded y then taas__labeled_correctly c.aaf s.lab y = false
      else y ∈ s.mislabeled) ∧
    (∀ h1, s1.mislabeled_pqueue = some h1 → ∃ h0, s.mislabeled_pqueue = some h0 ∧
      ∀ e, e ∈ h1 → e ∈ h0 ∨ not_fixed c.grounded e.1) := by
  induction l generalizing s with
  | nil =>
    unfold recheck_loop at h
    injection h with h
    subst h
    exact ⟨rfl, rfl, rfl, rfl, by simp, fun h1 hh1 => ⟨h1, hh1, fun e he => Or.inl he⟩⟩
  | cons elem rest ih =>
    unfold recheck_loop at h
    split at h
    · cases h
    · rename_i s2 hs2
      obtain ⟨a1, a2, a3, a4, a5, a6⟩ := recheck_element_spec c s s2 elem hs2
      obtain ⟨b1, b2, b3, b4, b5, b6⟩ := ih s2 h
      refine ⟨by rw [b1, a1], by rw [b2, a2], by rw [b3, a3], by rw [b4, a4], ?_, ?_⟩
      · intro y
        rw [b5, a1]
        by_cases hyr : y ∈ rest ∧ not_fixed c.grounded y
        · have : y ∈ elem :: rest ∧ not_fixed c.grounded y :=
            ⟨List.mem_cons_of_mem _ hyr.1, hyr.2⟩
          rw [if_pos hyr, if_pos this]
        · rw [if_neg hyr, a5]
          by_cases hye : y = elem ∧ not_fixed c.grounded elem
          · have : y ∈ elem :: rest ∧ not_fixed c.grounded y := by
              obtain ⟨h1, h2⟩ := hye
              subst h1
              exact ⟨List.mem_cons_self _ _, h2⟩
            rw [if_pos hye, if_pos this, hye.1]
          · have : ¬ (y ∈ elem :: rest ∧ not_fixed c.grounded y) := by
              rintro ⟨h1, h2⟩
              rcases List.mem_cons.mp h1 with h1 | h1
              · exact hye ⟨h1, h1 ▸ h2⟩
              · exact hyr ⟨h1, h2⟩
            rw [if_neg hye, if_neg this]
      · intro h1 hh1
        obtain ⟨h2, hh2, hsub2⟩ := b6 h1 hh1
        obtain ⟨h0, hh0, hsub0⟩ := a6 h2 hh2
        refine ⟨h0, hh0, fun e he => ?_⟩
        rcases hsub2 e he with he | he
        · exact hsub0 e he
        · exact Or.inr he

theorem same_labels_trans {s s1 s2 : St} (h1 : same_labels s s1) (h2 : same_labels s1 s2) :
    same_labels s s2 := by
  obtain ⟨a1, a2, a3, a4, a5⟩ := h1
  obtain ⟨b1, b2, b3, b4, b5⟩ := h2
  exact ⟨by rw [b1, a1], by rw [b2, a2], by rw [b3, a3], by rw [b4, a4], by rw [b5, a5]⟩

theorem list_all_any_congr (l : List Nat) (f g : Nat → Bool) (h : ∀ p, p ∈ l → f p = g p) :
    l.all (fun p => !f p) = l.all (fun p => !g p) ∧ l.any f = l.any g := by
  induction l with
  | nil => exact ⟨rfl, rfl⟩
  | cons a t ih =>
    obtain ⟨ih1, ih2⟩ := ih (fun p hp => h p (List.mem_cons_of_mem _ hp))
    simp only [List.all_cons, List.any_cons]
    rw [h a (List.mem_cons_self _ _), ih1, ih2]
    exact ⟨rfl, rfl⟩

theorem taas__labeled_correctly_congr (aaf : AAF) (lab1 lab2 : Labeling) (y : Nat)
    (hy : lab1.in_ y = lab2.in_ y) (hp : ∀ p, p ∈ aaf.parents y → lab1.in_ p = lab2.in_ p) :
    taas__labeled_correctly aaf lab1 y = taas__labeled_correctly aaf lab2 y := by
  unfold taas__labeled_correctly
  obtain ⟨h1, h2⟩ := list_all_any_congr (aaf.parents y) lab1.in_ lab2.in_ hp
  simp only [bitset__get_eq, hy]
  rw [h1]
  have h3 : (aaf.parents y).any (fun p => lab1.in_ p) = (aaf.parents y).any (fun p => lab2.in_ p) := h2
  rw [h3]

/-- A completed toggle and re-check, in terms of the toggle result. -/
theorem flip_step_next (c : Setting) (s s2 : St) (sel_arg : Nat)
    (h : flip_step c s sel_arg = Step.next s2) :
    ∃ a s1, toggle_label c s sel_arg = Toggled.done a s1 ∧ s2.lab = s1.lab ∧
      s2.number_iterations = s1.number_iterations ∧ s2.flipped = s1.flipped ∧
      s2.restarts = s1.restarts ∧
      (∀ y, y ∈ s2.mislabeled ↔
        if (y ∈ s1.toBeChecked ∨ y ∈ c.aaf.children a ∨ y ∈ c.aaf.parents a) ∧
            not_fixed c.grounded y
        then taas__labeled_correctly c.aaf s1.lab y = false else y ∈ s1.mislabeled) ∧
      (∀ h1, s2.mislabeled_pqueue = some h1 → ∃ h0, s1.mislabeled_pqueue = some h0 ∧
        ∀ e, e ∈ h1 → e ∈ h0 ∨ not_fixed c.grounded e.1) := by
  unfold flip_step at h
  split at h
  · cases h
  · rename_i a s1 ht
    refine ⟨a, s1, ht, ?_⟩
    unfold recheck at h
    simp only at h
    split at h
    · cases h
    · rename_i s3 hs3
      injection h with h
      subst h
      obtain ⟨b1, b2, b3, b4, b5, b6⟩ := recheck_loop_spec c _ _ _ hs3
      refine ⟨b1, b2, b3, b4, ?_, b6⟩
      intro y
      rw [b5]
      simp only [mem_foldl_raset__add, or_assoc]

theorem flip_step_stop (c : Setting) (s s2 : St) (sel_arg : Nat) (e : Exit)
    (h : flip_step c s sel_arg = Step.stop e s2) :
    same_labels s s2 ∧ s2.mislabeled_pqueue = s.mislabeled_pqueue ∧
      (e = Exit.loop_no_attacker ∨ e = Exit.loop_attackers_out) := by
  unfold flip_step at h
  split at h
  · rename_i e1 s1 ht
    injection h with h1 h2
    subst h1 h2
    exact toggle_label_stop c s _ sel_arg _ ht
  · unfold recheck at h
    simp only at h
    split at h <;> cases h

/-- Every argument whose label the toggle step changes is in the re-check set, with its
children. -/
theorem toggle_label_changes (c : Setting) (s s1 : St) (sel_arg a : Nat)
    (h : toggle_label c s sel_arg = Toggled.done a s1) (x : Nat)
    (hx : s1.lab.in_ x ≠ s.lab.in_ x) :
    (x ∈ s1.toBeChecked ∨ x ∈ c.aaf.children a ∨ x ∈ c.aaf.parents a) ∧
    ∀ y, y ∈ c.aaf.children x →
      (y ∈ s1.toBeChecked ∨ y ∈ c.aaf.children a ∨ y ∈ c.aaf.parents a) := by
  rcases toggle_label_done c s s1 sel_arg a h with ⟨hin, ha, hs1⟩ | ⟨hout, _, s0, hs0, _, _, hl⟩
  · subst ha hs1
    have hxa : x = a := by
      by_contra hne
      apply hx
      simp [hne]
    subst hxa
    exact ⟨Or.inl (by simp [mem_raset__add]), fun y hy => Or.inr (Or.inl hy)⟩
  · obtain ⟨_, _, _, _, _, _, hlab, htbc⟩ := label_in_spec c s0 s1 a a hl
    rw [hlab x, ← hs0.1] at hx
    by_cases he : c.task.enforce_out = true ∧ (x ∈ c.aaf.children a ∨ x ∈ c.aaf.parents a)
    · refine ⟨Or.inr he.2, fun y hy => Or.inl ?_⟩
      rw [htbc]
      exact Or.inr (Or.inr ⟨he.1, x, he.2, Or.inl hy⟩)
    · rw [if_neg he] at hx
      have hxa : x = a := by
        by_contra hne
        apply hx
        simp [hne]
      subst hxa
      refine ⟨Or.inl ?_, fun y hy => Or.inr (Or.inl hy)⟩
      rw [htbc]
      exact Or.inr (Or.inl rfl)

theorem toggle_label_frame (c : Setting) (s s1 : St) (sel_arg a : Nat)
    (h : toggle_label c s sel_arg = Toggled.done a s1) :
    s1.mislabeled = s.mislabeled ∧ s1.mislabeled_pqueue = s.mislabeled_pqueue ∧
    s1.number_iterations = s.number_iterations ∧ s1.restarts = s.restarts ∧
    s1.flipped = s.flipped ++ [a] := by
  rcases toggle_label_done c s s1 sel_arg a h with ⟨_, ha, hs1⟩ | ⟨_, _, s0, hs0, hpq, _, hl⟩
  · subst ha hs1
    exact ⟨rfl, rfl, rfl, rfl, rfl⟩
  · obtain ⟨_, b2, b3, b4, b5, b6, _, _⟩ := label_in_spec c s0 s1 a a hl
    obtain ⟨_, a2, a3, a4, a5⟩ := hs0
    exact ⟨by rw [b2, a2], by rw [b3, hpq], by rw [b4, a3], by rw [b5, a5], by rw [b6, a4]⟩

theorem flip_step_frame (c : Setting) (s s2 : St) (sel_arg : Nat)
    (h : flip_step c s sel_arg = Step.next s2) :
    s2.number_iterations = s.number_iterations ∧ s2.restarts = s.restarts ∧
    s2.flipped.length = s.flipped.length + 1 := by
  obtain ⟨a, s1, ht, _, h2, h3, h4, _, _⟩ := flip_step_next c s s2 sel_arg h
  obtain ⟨_, _, f3, f4, f5⟩ := toggle_label_frame c s s1 sel_arg a ht
  exact ⟨by rw [h2, f3], by rw [h4, f4], by rw [h3, f5]; simp⟩

theorem flip_step_mislabeled_inv (c : Setting) (s s2 : St) (sel_arg : Nat)
    (hwf : well_formed c.aaf) (hinv : mislabeled_inv c s)
    (h : flip_step c s sel_arg = Step.next s2) : mislabeled_inv c s2 := by
  obtain ⟨a, s1, ht, hlab, _, _, _, hmis, _⟩ := flip_step_next c s s2 sel_arg h
  obtain ⟨f1, _⟩ := toggle_label_frame c s s1 sel_arg a ht
  intro y hy hnf
  rw [hmis y, hlab]
  by_cases hT : y ∈ s1.toBeChecked ∨ y ∈ c.aaf.children a ∨ y ∈ c.aaf.parents a
  · rw [if_pos ⟨hT, hnf⟩]
  · have hneg : ¬ ((y ∈ s1.toBeChecked ∨ y ∈ c.aaf.children a ∨ y ∈ c.aaf.parents a) ∧
        not_fixed c.grounded y) := fun hh => hT hh.1
    rw [if_neg hneg, f1, hinv y hy hnf]
    have hsame : taas__labeled_correctly c.aaf s1.lab y = taas__labeled_correctly c.aaf s.lab y := by
      apply taas__labeled_correctly_congr
      · by_contra hne
        exact hT (toggle_label_changes c s s1 sel_arg a ht y hne).1
      · intro p hp
        by_contra hne
        exact hT ((toggle_label_changes c s s1 sel_arg a ht p hne).2 y (hwf.1 y p hp).2.2)
    rw [hsame]

theorem flip_step_candidates_inv (c : Setting) (s s2 : St) (sel_arg : Nat)
    (hinv : candidates_inv c s) (h : flip_step c s sel_arg = Step.next s2) :
    candidates_inv c s2 := by
  obtain ⟨a, s1, ht, _, _, _, _, hmis, hpq⟩ := flip_step_next c s s2 sel_arg h
  obtain ⟨f1, f2, _⟩ := toggle_label_frame c s s1 sel_arg a ht
  constructor
  · intro y hy
    rw [hmis y] at hy
    split at hy
    · rename_i hh; exact hh.2
    · rw [f1] at hy; exact hinv.1 y hy
  · intro h1 hh1 e he
    obtain ⟨h0, hh0, hsub⟩ := hpq h1 hh1
    rcases hsub e he with he | he
    · rw [f2] at hh0
      exact hinv.2 h0 hh0 e he
    · exact he

theorem flip_step_fixed_inv (c : Setting) (s s2 : St) (sel_arg : Nat)
    (hwf : well_formed c.aaf) (hvalid : valid_grounded c.aaf c.grounded)
    (hclosed : closed_grounded c.aaf c.grounded) (hinv : fixed_inv c s)
    (hout : c.grounded.out sel_arg = false)
    (hin : s.lab.in_ sel_arg = true → c.grounded.in_ sel_arg = false)
    (h : flip_step c s sel_arg = Step.next s2) : fixed_inv c s2 := by
  obtain ⟨a, s1, ht, hlab, _⟩ := flip_step_next c s s2 sel_arg h
  intro y hy
  rw [hlab]
  rcases toggle_label_done c s s1 sel_arg a ht with ⟨hsin, ha, hs1⟩ | ⟨_, hsa, s0, hs0, _, _, hl⟩
  · subst ha hs1
    have hgin := hin hsin
    by_cases hya : y = a
    · subst hya
      simp [hgin, hout]
    · simpa [hya] using hinv y hy
  · have houta : c.grounded.out a = false := by
      rcases hsa with hsa | hsa
      · rw [hsa]; exact hout
      · exact hsa
    obtain ⟨_, _, _, _, _, _, hl1, _⟩ := label_in_spec c s0 s1 a a hl
    rw [hl1 y, hs0.1]
    constructor
    · intro hgin
      have hno : ¬ (c.task.enforce_out = true ∧ (y ∈ c.aaf.children a ∨ y ∈ c.aaf.parents a)) := by
        rintro ⟨_, hch | hpa⟩
        · have := (hvalid y hy).1 hgin a (hwf.2 a y hch).2.2
          rw [houta] at this
          cases this
        · have := hclosed a (hwf.1 a y hpa).1 y hpa hgin
          rw [houta] at this
          cases this
      rw [if_neg hno]
      by_cases hya : y = a
      · simp [hya]
      · simp [hya, (hinv y hy).1 hgin]
    · intro hgout
      by_cases he : c.task.enforce_out = true ∧ (y ∈ c.aaf.children a ∨ y ∈ c.aaf.parents a)
      · rw [if_pos he]
      · rw [if_neg he]
        have hya : y ≠ a := by
          rintro rfl
          rw [houta] at hgout
          cases hgout
        simp [hya, (hinv y hy).2 hgout]

/-! ## Invariants of a search step and of an iteration -/

theorem mislabeled_inv_of_same_labels {c : Setting} {s s1 : St} (h : same_labels s s1)
    (hinv : mislabeled_inv c s) : mislabeled_inv c s1 := by
  intro a ha hnf
  rw [h.1, h.2.1]
  exact hinv a ha hnf

theorem fixed_inv_of_same_labels {c : Setting} {s s1 : St} (h : same_labels s s1)
    (hinv : fixed_inv c s) : fixed_inv c s1 := by
  intro a ha
  rw [h.1]
  exact hinv a ha

theorem candidates_inv_of_same_labels {c : Setting} {s s1 : St} (h : same_labels s s1)
    (hh : heap_shrinks s s1) (hinv : candidates_inv c s) : candidates_inv c s1 := by
  constructor
  · intro a ha
    rw [h.2.1] at ha
    exact hinv.1 a ha
  · intro h1 hh1 e he
    obtain ⟨h0, hh0, hsub⟩ := hh h1 hh1
    exact hinv.2 h0 hh0 e (hsub e he)

theorem heap_shrinks_of_eq {s s1 : St} (h : s1.mislabeled_pqueue = s.mislabeled_pqueue) :
    heap_shrinks s s1 := by
  intro h1 hh1
  rw [h] at hh1
  exact ⟨h1, hh1, fun _ he => he⟩

theorem heap_shrinks_trans {s s1 s2 : St} (h1 : heap_shrinks s s1) (h2 : heap_shrinks s1 s2) :
    heap_shrinks s s2 := by
  intro k2 hk2
  obtain ⟨k1, hk1, hsub1⟩ := h2 k2 hk2
  obtain ⟨k0, hk0, hsub0⟩ := h1 k1 hk1
  exact ⟨k0, hk0, fun e he => hsub0 e (hsub1 e he)⟩

/-- The parts of a search step: selection, odd cycle escape, and the toggle with re-check. -/
theorem search_step_cases (c : Setting) (s s2 : St) (r : Step)
    (h : search_step c s = r) (hr : r = Step.next s2 ∨ ∃ e, r = Step.stop e s2) :
    ∃ s0, same_labels s s0 ∧ heap_shrinks s s0 ∧
      ((r = Step.stop Exit.occ_attackers_out s0 ∧ s2 = s0) ∨
       ∃ sel_arg, flip_step c s0 sel_arg = r ∧
         (candidates_inv c s → c.grounded.out sel_arg = false ∧
           (s0.lab.in_ sel_arg = true → c.grounded.in_ sel_arg = false))) := by
  unfold search_step at h
  split at h
  · subst h
    rcases hr with hr | ⟨e, hr⟩ <;> cases hr
  · rename_i p hp
    obtain ⟨a1, a2, _, a4⟩ := select_argument_spec c s p hp
    obtain ⟨b1, b2, _, b4⟩ := odd_cycle_escape_spec c { p.2 with toBeChecked := [] } p.1
    have hsame : same_labels s (odd_cycle_escape c { p.2 with toBeChecked := [] } p.1).2 :=
      same_labels_trans (same_labels_trans a1 ⟨rfl, rfl, rfl, rfl, rfl⟩) b1
    have hheap : heap_shrinks s (odd_cycle_escape c { p.2 with toBeChecked := [] } p.1).2 :=
      heap_shrinks_trans a2 (heap_shrinks_of_eq b2)
    refine ⟨_, hsame, hheap, ?_⟩
    split at h
    · left
      subst h
      rcases hr with hr | ⟨e, hr⟩
      · cases hr
      · injection hr with _ hr
        exact ⟨rfl, hr.symm⟩
    · rename_i sel_arg hsel
      right
      refine ⟨sel_arg, h, fun hc => ?_⟩
      rcases b4 sel_arg hsel with hb | ⟨hb, hb2⟩
      · rw [hb]
        exact ⟨(a4 hc).2, fun _ => (a4 hc).1⟩
      · refine ⟨hb2, fun hin => ?_⟩
        rw [b1.1] at hin
        simp only at hb
        rw [hb] at hin
        cases hin

/-- A completed search step keeps the invariants and performs one flip. -/
theorem search_step_next (c : Setting) (s s2 : St) (h : search_step c s = Step.next s2) :
    s2.number_iterations = s.number_iterations ∧ s2.restarts = s.restarts ∧
    s2.flipped.length = s.flipped.length + 1 ∧
    (well_formed c.aaf → mislabeled_inv c s → mislabeled_inv c s2) ∧
    (candidates_inv c s → candidates_inv c s2) ∧
    (well_formed c.aaf → valid_grounded c.aaf c.grounded → closed_grounded c.aaf c.grounded →
      candidates_inv c s → fixed_inv c s → fixed_inv c s2) := by
  obtain ⟨s0, hsame, hheap, hc⟩ := search_step_cases c s s2 _ h (Or.inl rfl)
  rcases hc with ⟨hc, _⟩ | ⟨sel_arg, hflip, hsafe⟩
  · cases hc
  · obtain ⟨f1, f2, f3⟩ := flip_step_frame c s0 s2 sel_arg hflip
    refine ⟨by rw [f1, hsame.2.2.1], by rw [f2, hsame.2.2.2.2], by rw [f3, hsame.2.2.2.1],
      ?_, ?_, ?_⟩
    · intro hwf hinv
      exact flip_step_mislabeled_inv c s0 s2 sel_arg hwf
        (mislabeled_inv_of_same_labels hsame hinv) hflip
    · intro hinv
      exact flip_step_candidates_inv c s0 s2 sel_arg
        (candidates_inv_of_same_labels hsame hheap hinv) hflip
    · intro hwf hvalid hclosed hcand hinv
      exact flip_step_fixed_inv c s0 s2 sel_arg hwf hvalid hclosed
        (fixed_inv_of_same_labels hsame hinv) (hsafe hcand).1 (hsafe hcand).2 hflip

/-- A search step that breaks leaves labeling, mislabeled set and counters as they were. -/
theorem search_step_stop (c : Setting) (s s2 : St) (e : Exit)
    (h : search_step c s = Step.stop e s2) :
    same_labels s s2 ∧ heap_shrinks s s2 ∧
    (e = Exit.occ_attackers_out ∨ e = Exit.loop_no_attacker ∨ e = Exit.loop_attackers_out) := by
  obtain ⟨s0, hsame, hheap, hc⟩ := search_step_cases c s s2 _ h (Or.inr ⟨e, rfl⟩)
  rcases hc with ⟨hc, hs⟩ | ⟨sel_arg, hflip, _⟩
  · subst hs
    injection hc with hc _
    exact ⟨hsame, hheap, Or.inl hc⟩
  · obtain ⟨g1, g2, g3⟩ := flip_step_stop c s0 s2 sel_arg e hflip
    exact ⟨same_labels_trans hsame g1, heap_shrinks_trans hheap (heap_shrinks_of_eq g2),
      Or.inr g3⟩

theorem mem_build_heap (c : Setting) (lab : Labeling) (mislabeled : RaSet) (e : Nat × Int)
    (he : e ∈ build_heap c lab mislabeled) :
    not_fixed c.grounded e.1 ∨ e.1 ∈ mislabeled := by
  unfold build_heap at he
  split at he
  · left
    revert he
    induction c.aaf.number_of_arguments with
    | zero => simp
    | succ k ih =>
      rw [List.range_succ, List.foldl_append]
      simp only [List.foldl_cons, List.foldl_nil]
      split
      · rename_i hnf
        intro he
        simp only [binaryheap__insert, List.mem_append, List.mem_singleton] at he
        rcases he with he | he
        · exact ih he
        · rw [he]
          simpa [not_fixed] using hnf
      · exact ih
  · right
    have key : ∀ k, k ≤ mislabeled.length →
        e ∈ (List.range k).foldl (fun h i =>
          binaryheap__insert h (raset__get mislabeled i)
            (get_flipping_count c.aaf lab (raset__get mislabeled i))) [] →
        e.1 ∈ mislabeled := by
      intro k
      induction k with
      | zero => simp
      | succ k ih =>
        intro hk
        rw [List.range_succ, List.foldl_append]
        simp only [List.foldl_cons, List.foldl_nil, binaryheap__insert, List.mem_append,
          List.mem_singleton]
        rintro (he | he)
        · exact ih (by omega) he
        · rw [he]
          exact raset__get_mem _ _ (by omega)
    exact key _ (le_refl _) he

/-- The restart phase either rebuilds labeling and mislabeled set, or (after the first
iteration only) leaves them as they are. -/
theorem restart_phase_spec (c : Setting) (s s1 : St) (r : Step)
    (h : restart_phase c s = r) (hr : r = Step.next s1 ∨ ∃ e, r = Step.stop e s1) :
    s1.number_iterations = s.number_iterations ∧ s1.flipped = s.flipped ∧
    ((s1.lab = (restart_labeling c (local_minimum_check c s).2).lab ∧
        s1.mislabeled = rebuild_mislabeled c s1.lab ∧ s1.restarts = s.restarts + 1 ∧
        (s1.mislabeled_pqueue = s.mislabeled_pqueue ∨
          s1.mislabeled_pqueue = some (build_heap c s1.lab s1.mislabeled)) ∧
        (r = Step.next s1 → s1.mislabeled.length ≠ 0) ∧
        (∀ e, r = Step.stop e s1 → e = Exit.stable_at_restart ∧ s1.mislabeled.length = 0)) ∨
      (s.number_iterations ≠ 0 ∧ r = Step.next s1 ∧ same_labels s s1 ∧
        s1.mislabeled_pqueue = s.mislabeled_pqueue)) := by
  obtain ⟨l1, l2, l3, l4, l5, l6⟩ := local_minimum_check_frame c s
  unfold restart_phase at h
  split at h
  · subst h
    rcases hr with hr | ⟨e, hr⟩ <;> cases hr
  · have hrb : restart_block c (local_minimum_check c s).2 = Step.next s1 ∨
        ∃ e, restart_block c (local_minimum_check c s).2 = Step.stop e s1 := by
      rw [h]; exact hr
    obtain ⟨b1, b2, b3, b4, b5, b6⟩ := restart_block_spec c _ s1 hrb
    refine ⟨by rw [b3, l4], by rw [b4, l5], Or.inl ⟨b1, ?_, by rw [b5, l6], ?_, ?_, ?_⟩⟩
    · rw [b2, b1]; rfl
    · rw [l3] at b6; exact b6
    · intro hn
      rw [← h] at hn
      unfold restart_block at hn
      split at hn
      · cases hn
      · rename_i hne
        rw [b2]; exact hne
    · intro e he
      rw [← h] at he
      unfold restart_block at he
      split at he
      · rename_i heq
        injection he with he1 he2
        exact ⟨he1.symm, by rw [b2]; exact heq⟩
      · cases he
  · rename_i hcond
    subst h
    rcases hr with hr | ⟨e, hr⟩
    · injection hr with hr
      subst hr
      refine ⟨l4, l5, Or.inr ⟨?_, rfl, ⟨l1, l2, l4, l5, l6⟩, l3⟩⟩
      intro h0
      rw [restart_condition_first c _ _ (by rw [l4]; exact h0)] at hcond
      cases hcond
    · cases hr

theorem restart_phase_inv (c : Setting) (s s1 : St) (r : Step)
    (h : restart_phase c s = r) (hr : r = Step.next s1 ∨ ∃ e, r = Step.stop e s1) :
    ((s.number_iterations = 0 ∨ mislabeled_inv c s) → mislabeled_inv c s1) ∧
    (candidates_inv c s → candidates_inv c s1) ∧
    (disjoint_grounded c.aaf c.grounded → (s.number_iterations = 0 ∨ fixed_inv c s) →
      fixed_inv c s1) := by
  obtain ⟨_, _, hcase⟩ := restart_phase_spec c s s1 r h hr
  rcases hcase with ⟨a1, a2, _, a4, _, _⟩ | ⟨b1, _, b3, b4⟩
  · have hmis : ∀ a, a ∈ s1.mislabeled → not_fixed c.grounded a := by
      intro a ha
      rw [a2, mem_rebuild_mislabeled] at ha
      exact ha.2.1
    refine ⟨fun _ => ?_, fun hc => ⟨hmis, ?_⟩, fun hd _ => ?_⟩
    · intro a ha hnf
      rw [a2, mem_rebuild_mislabeled]
      exact ⟨fun hh => hh.2.2, fun hh => ⟨ha, hnf, hh⟩⟩
    · intro h1 hh1 e he
      rcases a4 with a4 | a4
      · rw [a4] at hh1
        exact hc.2 h1 hh1 e he
      · rw [a4] at hh1
        injection hh1 with hh1
        subst hh1
        rcases mem_build_heap c _ _ e he with he | he
        · exact he
        · exact hmis _ he
    · intro a ha
      rw [a1]
      obtain ⟨_, hl, _⟩ := restart_labeling_spec c (local_minimum_check c s).2
      refine ⟨(hl a ha).1, fun hout => (hl a ha).2 ?_ hout⟩
      by_contra hin
      exact hd a ha ⟨by simpa using hin, hout⟩
  · refine ⟨fun hh => ?_, fun hc => candidates_inv_of_same_labels b3 (heap_shrinks_of_eq b4) hc,
      fun _ hh => ?_⟩
    · rcases hh with hh | hh
      · exact absurd hh b1
      · exact mislabeled_inv_of_same_labels b3 hh
    · rcases hh with hh | hh
      · exact absurd hh b1
      · exact fixed_inv_of_same_labels b3 hh

theorem iteration_cap_spec (c : Setting) (s1 : St) :
    (iteration_cap c s1 =
        Step.stop Exit.iteration_cap { s1 with number_iterations := s1.number_iterations + 1 } ∧
      init_max_iterations c.task c.aaf ≤ ((s1.number_iterations + 1 : Nat) : Int)) ∨
    (iteration_cap c s1 =
        Step.next { s1 with number_iterations := s1.number_iterations + 1 } ∧
      ((s1.number_iterations + 1 : Nat) : Int) < init_max_iterations c.task c.aaf) := by
  unfold iteration_cap
  split
  · rename_i hcap
    exact Or.inl ⟨rfl, hcap⟩
  · rename_i hcap
    exact Or.inr ⟨rfl, lt_of_not_ge hcap⟩

/-- The parts of an iteration that does not fault. -/
theorem iteration_cases (c : Setting) (s s3 : St) (r : Step) (h : iteration c s = r)
    (hr : r = Step.next s3 ∨ ∃ e, r = Step.stop e s3) :
    (restart_phase c s = r ∧ ∃ e, r = Step.stop e s3) ∨
    ∃ s1, restart_phase c s = Step.next s1 ∧
      ((r = Step.stop Exit.iteration_cap s3 ∧
          s3 = { s1 with number_iterations := s1.number_iterations + 1 } ∧
          init_max_iterations c.task c.aaf ≤ ((s1.number_iterations + 1 : Nat) : Int)) ∨
       (((s1.number_iterations + 1 : Nat) : Int) < init_max_iterations c.task c.aaf ∧
          search_step c { s1 with number_iterations := s1.number_iterations + 1 } = r)) := by
  unfold iteration at h
  split at h
  · subst h
    rcases hr with hr | ⟨e, hr⟩ <;> cases hr
  · rename_i e s1 hrp
    left
    subst h
    rcases hr with hr | ⟨e1, hr⟩
    · cases hr
    · injection hr with h1 h2
      subst h1 h2
      exact ⟨hrp, e, rfl⟩
  · rename_i s1 hrp
    right
    refine ⟨s1, hrp, ?_⟩
    rcases iteration_cap_spec c s1 with ⟨hic, hcap⟩ | ⟨hic, hcap⟩
    · left
      rw [hic] at h
      simp only at h
      subst h
      rcases hr with hr | ⟨e1, hr⟩
      · cases hr
      · injection hr with h1 h2
        subst h2
        exact ⟨rfl, rfl, hcap⟩
    · right
      rw [hic] at h
      exact ⟨hcap, h⟩

theorem iteration_next (c : Setting) (s s3 : St) (h : iteration c s = Step.next s3) :
    s3.number_iterations = s.number_iterations + 1 ∧
    ((s3.number_iterations : Nat) : Int) < init_max_iterations c.task c.aaf ∧
    s3.flipped.length = s.flipped.length + 1 ∧
    (well_formed c.aaf → (s.number_iterations = 0 ∨ mislabeled_inv c s) → mislabeled_inv c s3) ∧
    (candidates_inv c s → candidates_inv c s3) ∧
    (well_formed c.aaf → valid_grounded c.aaf c.grounded → disjoint_grounded c.aaf c.grounded →
      closed_grounded c.aaf c.grounded → candidates_inv c s →
      (s.number_iterations = 0 ∨ fixed_inv c s) → fixed_inv c s3) := by
  rcases iteration_cases c s s3 _ h (Or.inl rfl) with ⟨_, e, he⟩ | ⟨s1, hrp, hc⟩
  · cases he
  · rcases hc with ⟨hc, _⟩ | ⟨hcap, hss⟩
    · cases hc
    · obtain ⟨p1, p2, _⟩ := restart_phase_spec c s s1 _ hrp (Or.inl rfl)
      obtain ⟨i1, i2, i3⟩ := restart_phase_inv c s s1 _ hrp (Or.inl rfl)
      obtain ⟨q1, _, q3, q4, q5, q6⟩ := search_step_next c _ s3 hss
      refine ⟨by rw [q1, ← p1], by rw [q1]; exact hcap, by rw [q3]; simp [p2], ?_, ?_, ?_⟩
      · intro hwf hh
        exact q4 hwf (i1 hh)
      · intro hh
        exact q5 (i2 hh)
      · intro hwf hv hd hcl hcand hh
        exact q6 hwf hv hcl (i2 hcand) (i3 hd hh)

theorem iteration_stop (c : Setting) (s s3 : St) (e : Exit)
    (h : iteration c s = Step.stop e s3) :
    s3.flipped = s.flipped ∧ s3.number_iterations ≤ s.number_iterations + 1 ∧
    e ≠ Exit.mislabeled_empty ∧
    (e = Exit.stable_at_restart →
      s3.mislabeled.length = 0 ∧ s3.number_iterations = s.number_iterations) ∧
    (e ≠ Exit.stable_at_restart → (s.number_iterations = 0 ∨ 0 < s.mislabeled.length) →
      0 < s3.mislabeled.length) ∧
    (e = Exit.iteration_cap → init_max_iterations c.task c.aaf ≤ (s3.number_iterations : Int) ∧
      s3.number_iterations = s.number_iterations + 1) ∧
    ((s.number_iterations = 0 ∨ mislabeled_inv c s) → mislabeled_inv c s3) ∧
    (candidates_inv c s → candidates_inv c s3) ∧
    (disjoint_grounded c.aaf c.grounded → (s.number_iterations = 0 ∨ fixed_inv c s) →
      fixed_inv c s3) := by
  rcases iteration_cases c s s3 _ h (Or.inr ⟨e, rfl⟩) with ⟨hrp, _⟩ | ⟨s1, hrp, hc⟩
  · obtain ⟨p1, p2, pc⟩ := restart_phase_spec c s s3 _ hrp (Or.inr ⟨e, rfl⟩)
    obtain ⟨i1, i2, i3⟩ := restart_phase_inv c s s3 _ hrp (Or.inr ⟨e, rfl⟩)
    rcases pc with ⟨_, _, _, _, _, a6⟩ | ⟨_, b2, _⟩
    · obtain ⟨he, hlen⟩ := a6 e rfl
      subst he
      refine ⟨p2, by omega, by decide, fun _ => ⟨hlen, p1⟩, fun hne => absurd rfl hne,
        fun hh => (by cases hh), i1, i2, i3⟩
    · cases b2
  · obtain ⟨p1, p2, pc⟩ := restart_phase_spec c s s1 _ hrp (Or.inl rfl)
    obtain ⟨i1, i2, i3⟩ := restart_phase_inv c s s1 _ hrp (Or.inl rfl)
    have hpos : (s.number_iterations = 0 ∨ 0 < s.mislabeled.length) → 0 < s1.mislabeled.length := by
      intro hh
      rcases pc with ⟨_, _, _, _, a5, _⟩ | ⟨b1, _, b3, _⟩
      · exact Nat.pos_of_ne_zero (a5 rfl)
      · rw [b3.2.1]
        rcases hh with hh | hh
        · exact absurd hh b1
        · exact hh
    rcases hc with ⟨hc, hs3, hcap⟩ | ⟨hcap, hss⟩
    · injection hc with hc _
      subst hc hs3
      refine ⟨p2, by simp [p1], by decide, fun hh => (by cases hh), fun _ hh => hpos hh,
        fun _ => ⟨hcap, by simp [p1]⟩, fun hh => ?_, fun hh => ?_, fun hd hh => ?_⟩
      · exact i1 hh
      · exact i2 hh
      · exact i3 hd hh
    · obtain ⟨g1, g2, g3⟩ := search_step_stop c _ s3 e hss
      refine ⟨by rw [g1.2.2.2.1]; exact p2, by rw [g1.2.2.1]; simp [p1], ?_, ?_, ?_, ?_,
        fun hh => ?_, fun hh => ?_, fun hd hh => ?_⟩
      · rcases g3 with g3 | g3 | g3 <;> rw [g3] <;> decide
      · intro he
        rcases g3 with g3 | g3 | g3 <;> rw [g3] at he <;> cases he
      · intro _ hh
        rw [g1.2.1]
        exact hpos hh
      · intro he
        rcases g3 with g3 | g3 | g3 <;> rw [g3] at he <;> cases he
      · exact mislabeled_inv_of_same_labels g1 (i1 hh)
      · exact candidates_inv_of_same_labels g1 g2 (i2 hh)
      · exact fixed_inv_of_same_labels g1 (i3 hd hh)

theorem restart_phase_fault (c : Setting) (s : St) (f : Fault)
    (h : restart_phase c s = Step.fault f) : f = Fault.modulo_by_zero := by
  unfold restart_phase at h
  split at h
  · rename_i f1 hf1
    injection h with h
    subst h
    unfold restart_condition at hf1
    split at hf1
    · cases hf1
    · split at hf1
      · split at hf1
        · injection hf1 with hf1; exact hf1.symm
        · split at hf1 <;> cases hf1
      · cases hf1
  · unfold restart_block at h
    split at h <;> cases h
  · cases h

theorem select_argument_fault (c : Setting) (s : St) (f : Fault)
    (h : select_argument c s = Except.error f) : f ≠ Fault.loop_fuel := by
  have hrandom : ∀ s r, select_random c s r = Except.error f → f ≠ Fault.loop_fuel := by
    intro s r hr
    unfold select_random at hr
    split at hr
    · split at hr
      · injection hr with hr; subst hr; decide
      · split at hr
        · injection hr with hr; subst hr; decide
        · cases hr
    · split at hr
      · injection hr with hr; subst hr; decide
      · cases hr
  unfold select_argument at h
  split at h
  · split at h
    · injection h with h; subst h; decide
    · split at h
      · split at h
        · injection h with h; subst h; decide
        · cases h
      · exact hrandom _ _ h
  · exact hrandom _ _ h

theorem recheck_loop_fault (c : Setting) (l : List Nat) (s : St) (f : Fault)
    (h : recheck_loop c l s = Except.error f) : f = Fault.null_pointer := by
  induction l generalizing s with
  | nil => simp [recheck_loop] at h
  | cons elem rest ih =>
    unfold recheck_loop at h
    split at h
    · rename_i f1 hf1
      injection h with h
      subst h
      unfold recheck_element at hf1
      split at hf1
      · simp only at hf1
        split at hf1
        · split at hf1
          · injection hf1 with hf1; exact hf1.symm
          · cases hf1
        · split at hf1
          · split at hf1
            · injection hf1 with hf1; exact hf1.symm
            · split at hf1 <;> cases hf1
          · cases hf1
      · cases hf1
    · exact ih _ h

theorem iteration_fault (c : Setting) (s : St) (f : Fault)
    (h : iteration c s = Step.fault f) : f ≠ Fault.loop_fuel := by
  unfold iteration at h
  split at h
  · rename_i f1 hf1
    injection h with h
    subst h
    rw [restart_phase_fault c s _ hf1]
    decide
  · cases h
  · rename_i s1 _
    rcases iteration_cap_spec c s1 with ⟨hic, _⟩ | ⟨hic, _⟩
    · rw [hic] at h
      cases h
    · rw [hic] at h
      simp only at h
      unfold search_step at h
      split at h
      · rename_i f1 hf1
        injection h with h
        subst h
        exact select_argument_fault c _ _ hf1
      · split at h
        · cases h
        · unfold flip_step at h
          split at h
          · cases h
          · unfold recheck at h
            simp only at h
            split at h
            · rename_i f1 hf1
              injection h with h
              subst h
              rw [recheck_loop_fault c _ _ _ hf1]
              decide
            · cases h

/-! ## The main loop -/

/-- What holds at every head of the main loop. -/
theorem loop_head_inv (c : Setting) (s : St) (h : loop_head c s) :
    candidates_inv c s ∧ s.flipped.length = s.number_iterations ∧
    (s.number_iterations = 0 ∨
      (((s.number_iterations : Nat) : Int) < init_max_iterations c.task c.aaf ∧
        0 < s.mislabeled.length)) ∧
    (well_formed c.aaf → (s.number_iterations = 0 ∨ mislabeled_inv c s)) ∧
    (well_formed c.aaf → valid_grounded c.aaf c.grounded → disjoint_grounded c.aaf c.grounded →
      closed_grounded c.aaf c.grounded → (s.number_iterations = 0 ∨ fixed_inv c s)) := by
  induction h with
  | init =>
    refine ⟨⟨?_, ?_⟩, rfl, Or.inl rfl, fun _ => Or.inl rfl, fun _ _ _ _ => Or.inl rfl⟩
    · intro a ha
      simp [init_state] at ha
    · intro h1 hh1
      simp [init_state] at hh1
  | next s s1 _ hit hpos ih =>
    obtain ⟨i1, i2, _, i4, i5⟩ := ih
    obtain ⟨n1, n2, n3, n4, n5, n6⟩ := iteration_next c s s1 hit
    refine ⟨n5 i1, by rw [n3, n1, i2], Or.inr ⟨n2, hpos⟩, fun hwf => Or.inr (n4 hwf (i4 hwf)),
      fun hwf hv hd hcl => Or.inr (n6 hwf hv hd hcl i1 (i5 hwf hv hd hcl))⟩

/-- The state in which the main loop is left comes from an iteration at a loop head. -/
theorem main_loop_finished (c : Setting) (fuel : Nat) (s s1 : St) (e : Exit)
    (hs : loop_head c s) (h : main_loop c fuel s = Outcome.finished e s1) :
    ∃ s0, loop_head c s0 ∧
      (iteration c s0 = Step.stop e s1 ∨
        (iteration c s0 = Step.next s1 ∧ e = Exit.mislabeled_empty ∧ s1.mislabeled.length = 0)) := by
  induction fuel generalizing s with
  | zero => simp [main_loop] at h
  | succ k ih =>
    unfold main_loop at h
    split at h
    · cases h
    · rename_i e1 s2 hit
      injection h with h1 h2
      subst h1 h2
      exact ⟨s, hs, Or.inl hit⟩
    · rename_i s2 hit
      split at h
      · rename_i hpos
        exact ih s2 (loop_head.next s s2 hs hit hpos) h
      · rename_i hpos
        injection h with h1 h2
        subst h1 h2
        exact ⟨s, hs, Or.inr ⟨hit, rfl, by omega⟩⟩

/-- The bound on the iterations is never used up. -/
theorem main_loop_fuel (c : Setting) (fuel : Nat) (s : St) (hs : loop_head c s)
    (hf : (init_max_iterations c.task c.aaf).toNat + 1 ≤ fuel + s.number_iterations) :
    main_loop c fuel s ≠ Outcome.fault Fault.loop_fuel := by
  induction fuel generalizing s with
  | zero =>
    obtain ⟨_, _, h3, _⟩ := loop_head_inv c s hs
    rcases h3 with h3 | ⟨h3, _⟩
    · omega
    · omega
  | succ k ih =>
    unfold main_loop
    split
    · rename_i f hit
      intro hh
      injection hh with hh
      exact iteration_fault c s f hit hh
    · intro hh; cases hh
    · rename_i s2 hit
      split
      · rename_i hpos
        apply ih s2 (loop_head.next s s2 hs hit hpos)
        obtain ⟨n1, _⟩ := iteration_next c s s2 hit
        omega
      · intro hh; cases hh

theorem solve_finished (c : Setting) (s1 : St) (e : Exit)
    (h : solve c = Outcome.finished e s1) :
    ∃ s0, loop_head c s0 ∧
      (iteration c s0 = Step.stop e s1 ∨
        (iteration c s0 = Step.next s1 ∧ e = Exit.mislabeled_empty ∧ s1.mislabeled.length = 0)) := by
  unfold solve at h
  split at h
  · cases h
  · exact main_loop_finished c _ _ s1 e loop_head.init h

/-! ## Stability of the printed labeling, fixed labels, mislabeled set, iteration cap -/

theorem well_formed_aaf_of (names : List String) (attacks : List (Nat × Nat))
    (h : ∀ e, e ∈ attacks → e.1 < names.length ∧ e.2 < names.length) :
    well_formed (aaf_of names attacks) := by
  constructor
  · intro a p hp
    simp only [aaf_of, List.mem_map, List.mem_filter, beq_iff_eq] at hp ⊢
    obtain ⟨e, ⟨he, he2⟩, he1⟩ := hp
    subst he1 he2
    exact ⟨(h e he).2, (h e he).1, e, ⟨he, rfl⟩, rfl⟩
  · intro a b hb
    simp only [aaf_of, List.mem_map, List.mem_filter, beq_iff_eq] at hb ⊢
    obtain ⟨e, ⟨he, he1⟩, he2⟩ := hb
    subst he1 he2
    exact ⟨(h e he).1, (h e he).2, e, ⟨he, rfl⟩, rfl⟩

theorem taas__labeled_correctly_iff (aaf : AAF) (lab : Labeling) (a : Nat) :
    taas__labeled_correctly aaf lab a = true ↔
      (lab.in_ a = true → ∀ p ∈ aaf.parents a, lab.in_ p = false) ∧
      (lab.in_ a = false → ∃ p ∈ aaf.parents a, lab.in_ p = true) := by
  unfold taas__labeled_correctly
  by_cases h : lab.in_ a = true
  · simp [h]
  · simp only [Bool.not_eq_true] at h
    simp [h]

theorem stable_of_inv (c : Setting) (s : St) (hwf : well_formed c.aaf)
    (hvalid : valid_grounded c.aaf c.grounded) (hm : mislabeled_inv c s) (hf : fixed_inv c s)
    (hempty : s.mislabeled.length = 0) : stable_labeling c.aaf s.lab := by
  intro a ha
  rw [← taas__labeled_correctly_iff]
  by_cases hin : c.grounded.in_ a = true
  · rw [taas__labeled_correctly_iff]
    have hla := (hf a ha).1 hin
    refine ⟨fun _ p hp => ?_, fun hh => ?_⟩
    · exact (hf p (hwf.1 a p hp).2.1).2 ((hvalid a ha).1 hin p hp)
    · rw [hla] at hh; cases hh
  · by_cases hout : c.grounded.out a = true
    · rw [taas__labeled_correctly_iff]
      have hla := (hf a ha).2 hout
      refine ⟨fun hh => ?_, fun _ => ?_⟩
      · rw [hla] at hh; cases hh
      · obtain ⟨p, hp, hpin⟩ := (hvalid a ha).2 hout
        exact ⟨p, hp, (hf p (hwf.1 a p hp).2.1).1 hpin⟩
    · have hnf : not_fixed c.grounded a := ⟨by simpa using hin, by simpa using hout⟩
      have := hm a ha hnf
      have hnil : s.mislabeled = [] := List.length_eq_zero.mp hempty
      rw [hnil] at this
      simp at this
      exact this

/-- The final state of `solve` satisfies the invariants. -/
theorem solve_final_inv (c : Setting) (e : Exit) (s : St)
    (h : solve c = Outcome.finished e s) :
    (well_formed c.aaf → mislabeled_inv c s) ∧
    (well_formed c.aaf → valid_grounded c.aaf c.grounded → disjoint_grounded c.aaf c.grounded →
      closed_grounded c.aaf c.grounded → fixed_inv c s) := by
  obtain ⟨s0, hs0, hit⟩ := solve_finished c s e h
  obtain ⟨i1, _, _, i4, i5⟩ := loop_head_inv c s0 hs0
  rcases hit with hit | ⟨hit, _, _⟩
  · obtain ⟨_, _, _, _, _, _, n7, _, n9⟩ := iteration_stop c s0 s e hit
    exact ⟨fun hwf => n7 (i4 hwf), fun hwf hv hd hcl => n9 hd (i5 hwf hv hd hcl)⟩
  · obtain ⟨_, _, _, n4, _, n6⟩ := iteration_next c s0 s hit
    exact ⟨fun hwf => n4 hwf (i4 hwf), fun hwf hv hd hcl => n6 hwf hv hd hcl i1 (i5 hwf hv hd hcl)⟩

/-- C1: for every framework (with the adjacency invariant of the data model), every valid
grounded labeling of it as the grounded computation delivers it (`gr.in` and `gr.out`
disjoint, closed under the rule "attacked by `gr.in` implies `gr.out`"), every option setting
and every random stream: if `solve` prints a labeling instead of NO, it is the labeling the
loop was left with, and that labeling is stable: every argument labeled in has no attacker
labeled in and every argument labeled out has an attacker labeled in. -/
theorem solve_prints_stable (c : Setting) (hwf : well_formed c.aaf)
    (hvalid : valid_grounded c.aaf c.grounded) (hdisj : disjoint_grounded c.aaf c.grounded)
    (hclosed : closed_grounded c.aaf c.grounded) (text : String)
    (h : printed c (solve c) = some (Printed.labeling text)) :
    ∃ e s, solve c = Outcome.finished e s ∧ text = taas__lab_print s.lab c.aaf ∧
      stable_labeling c.aaf s.lab := by
  cases hs : solve c with
  | occ_unsat => rw [hs] at h; simp [printed] at h
  | fault f => rw [hs] at h; simp [printed] at h
  | finished e s =>
    rw [hs] at h
    simp only [printed] at h
    split at h
    · rename_i hempty
      injection h with h
      injection h with h
      obtain ⟨m, f⟩ := solve_final_inv c e s hs
      exact ⟨e, s, rfl, h.symm, stable_of_inv c s hwf hvalid (m hwf) (f hwf hvalid hdisj hclosed) hempty⟩
    · injection h with h
      cases h

/-- C1 (witness): the framework `a b`, `c d`, `d c` with its grounded labeling and the options
`-initout 1 -enforceout 1 -randsel 2` prints the stable labeling `[a,c]`. -/
theorem solve_prints_stable_witness :
    well_formed setting_closed_grounded.aaf ∧
    valid_grounded setting_closed_grounded.aaf setting_closed_grounded.grounded ∧
    disjoint_grounded setting_closed_grounded.aaf setting_closed_grounded.grounded ∧
    closed_grounded setting_closed_grounded.aaf setting_closed_grounded.grounded ∧
    printed setting_closed_grounded (solve setting_closed_grounded) =
      some (Printed.labeling "[a,c]") ∧
    ∃ e s, solve setting_closed_grounded = Outcome.finished e s ∧
      "[a,c]" = taas__lab_print s.lab setting_closed_grounded.aaf ∧
      stable_labeling setting_closed_grounded.aaf s.lab :=
  ⟨well_formed_aaf_of _ _ (by decide), by decide, by decide, by decide, by decide!,
    solve_prints_stable setting_closed_grounded (well_formed_aaf_of _ _ (by decide))
      (by decide) (by decide) (by decide) "[a,c]" (by decide!)⟩

/-- Remark (the closure rule of the grounded computation is used): `gr.in = {a}`,
`gr.out = {}` satisfies both conditions of `valid_grounded` for the attacks `a b`, `c d`,
`d c` and is not closed, so it is not a labeling the grounded computation delivers. On it,
with `-initout 1 -enforceout 1 -randsel 2` and draws that select `b` and then `c`, `solve`
prints `[b,c]`, which is not stable (`a` is out and has no attacker). -/
theorem solve_prints_unstable_weak_grounded :
    valid_grounded setting_weak_grounded.aaf setting_weak_grounded.grounded ∧
    disjoint_grounded setting_weak_grounded.aaf setting_weak_grounded.grounded ∧
    ¬ closed_grounded setting_weak_grounded.aaf setting_weak_grounded.grounded ∧
    printed setting_weak_grounded (solve setting_weak_grounded) =
      some (Printed.labeling "[b,c]") ∧
    holds_finally (solve setting_weak_grounded)
      (fun s => ¬ stable_labeling setting_weak_grounded.aaf s.lab) := by
  refine ⟨by decide, by decide, by decide, by decide!, by decide!⟩

/-- Remark (disjointness of `gr.in` and `gr.out` is used): for the two-cycle with
`gr.in = gr.out = {a, b}`, two bit sets that satisfy both conditions of a valid grounded
labeling and the closure rule without being disjoint, the overlay labels `a` in although `a`
is in `gr.out`, and `solve` prints `[a,b]`, which is not stable. -/
theorem overlapping_grounded_prints_unstable :
    well_formed setting_overlapping_grounded.aaf ∧
    valid_grounded setting_overlapping_grounded.aaf setting_overlapping_grounded.grounded ∧
    closed_grounded setting_overlapping_grounded.aaf setting_overlapping_grounded.grounded ∧
    ¬ disjoint_grounded setting_overlapping_grounded.aaf setting_overlapping_grounded.grounded ∧
    setting_overlapping_grounded.grounded.out 0 = true ∧
    (restart_labeling setting_overlapping_grounded
      (init_state setting_overlapping_grounded)).lab.in_ 0 = true ∧
    printed setting_overlapping_grounded (solve setting_overlapping_grounded) =
      some (Printed.labeling "[a,b]") ∧
    holds_finally (solve setting_overlapping_grounded)
      (fun s => ¬ stable_labeling setting_overlapping_grounded.aaf s.lab) :=
  ⟨well_formed_aaf_of _ _ (by decide), by decide, by decide, by decide, by decide, by decide!,
    by decide!, by decide!⟩

/-- Remark (the adjacency invariant of the data model is used): when `a` is a parent of `b`
and `b` is missing from the children of `a`, the flip of `a` does not re-check `b`, and
`solve` prints `[a,b]`, which is not stable. -/
theorem missing_child_prints_unstable :
    ¬ well_formed setting_missing_child.aaf ∧
    valid_grounded setting_missing_child.aaf setting_missing_child.grounded ∧
    disjoint_grounded setting_missing_child.aaf setting_missing_child.grounded ∧
    closed_grounded setting_missing_child.aaf setting_missing_child.grounded ∧
    printed setting_missing_child (solve setting_missing_child) =
      some (Printed.labeling "[a,b]") ∧
    holds_finally (solve setting_missing_child)
      (fun s => ¬ stable_labeling setting_missing_child.aaf s.lab) := by
  refine ⟨fun h => ?_, by decide, by decide, by decide, by decide!, by decide!⟩
  have h1 := (h.1 1 0 (by decide)).2.2
  exact absurd h1 (by decide)

theorem fixed_inv_restart_labeling (c : Setting) (s : St)
    (hdisj : disjoint_grounded c.aaf c.grounded) : fixed_inv c (restart_labeling c s) := by
  intro a ha
  obtain ⟨_, hl, _⟩ := restart_labeling_spec c s
  refine ⟨(hl a ha).1, fun hout => (hl a ha).2 ?_ hout⟩
  by_contra hin
  exact hdisj a ha ⟨by simpa using hin, hout⟩

theorem mislabeled_inv_restart_labeling (c : Setting) (s : St) :
    mislabeled_inv c (restart_labeling c s) := by
  intro a ha hnf
  obtain ⟨hm, _⟩ := restart_labeling_spec c s
  rw [hm, mem_rebuild_mislabeled]
  exact ⟨fun hh => hh.2.2, fun hh => ⟨ha, hnf, hh⟩⟩

theorem enforce_out_loop_writes (c : Setting) (nodes : List Nat) (acc : BitSet × RaSet) :
    (enforce_out_loop c nodes acc).1 =
      (nodes.map (fun node => (node, false))).foldl apply_write acc.1 := by
  unfold enforce_out_loop
  induction nodes generalizing acc with
  | nil => rfl
  | cons n t ih =>
    simp only [List.foldl_cons, List.map_cons]
    rw [ih]
    rfl

theorem label_in_writes_spec (c : Setting) (s s1 : St) (a b : Nat)
    (h : label_in c s a = Toggled.done b s1) :
    s1.lab.in_ = (label_in_writes c a).foldl apply_write s.lab.in_ := by
  unfold label_in at h
  injection h with h1 h2
  subst h2
  unfold label_in_writes
  by_cases he : c.task.enforce_out = true
  · simp only [he, if_true, List.foldl_cons, List.foldl_append]
    rw [enforce_out_loop_writes, enforce_out_loop_writes]
    rfl
  · simp only [he, List.foldl_cons, List.foldl_nil]
    rfl

/-- The labeling after the toggle step is the labeling before it with the writes of
`toggle_writes` applied in order; a toggle step left by a `break` has no write. -/
theorem toggle_label_writes (c : Setting) (s : St) (sel_arg : Nat) :
    (∀ a s1, toggle_label c s sel_arg = Toggled.done a s1 →
      s1.lab.in_ = (toggle_writes c s sel_arg).foldl apply_write s.lab.in_) ∧
    (∀ e s1, toggle_label c s sel_arg = Toggled.stop e s1 →
      toggle_writes c s sel_arg = [] ∧ s1.lab = s.lab) := by
  unfold toggle_label toggle_writes
  split
  · refine ⟨fun a s1 h => ?_, fun e s1 h => by cases h⟩
    injection h with h1 h2
    subst h2
    rfl
  · split
    · split
      · refine ⟨fun a s1 h => (by cases h), fun e s1 h => ?_⟩
        injection h with h1 h2
        subst h2
        exact ⟨rfl, rfl⟩
      · split
        · refine ⟨fun a s1 h => (by cases h), fun e s1 h => ?_⟩
          injection h with h1 h2
          subst h2
          exact ⟨rfl, rfl⟩
        · rename_i r hr
          refine ⟨fun a s1 h => ?_, fun e s1 h => ?_⟩
          · have hw := label_in_writes_spec c _ s1 r a h
            exact hw
          · unfold label_in at h
            cases h
    · refine ⟨fun a s1 h => ?_, fun e s1 h => ?_⟩
      · exact label_in_writes_spec c _ s1 sel_arg a h
      · unfold label_in at h
        cases h

/-- Writes that give every fixed argument its grounded label keep the fixed labels. -/
theorem foldl_apply_write_fixed (c : Setting) (ws : List (Nat × Bool)) (b : BitSet)
    (hw : ∀ w, w ∈ ws → (c.grounded.in_ w.1 = true → w.2 = true) ∧
      (c.grounded.out w.1 = true → w.2 = false))
    (hb : ∀ a, a < c.aaf.number_of_arguments →
      (c.grounded.in_ a = true → b a = true) ∧ (c.grounded.out a = true → b a = false)) :
    ∀ a, a < c.aaf.number_of_arguments →
      (c.grounded.in_ a = true → ws.foldl apply_write b a = true) ∧
      (c.grounded.out a = true → ws.foldl apply_write b a = false) := by
  induction ws generalizing b with
  | nil => exact hb
  | cons w t ih =>
    rw [List.foldl_cons]
    apply ih _ (fun x hx => hw x (List.mem_cons_of_mem _ hx))
    intro a ha
    have hwa := hw w (List.mem_cons_self _ _)
    unfold apply_write
    by_cases haw : a = w.1
    · subst haw
      constructor
      · intro hin
        simp [hwa.1 hin, bitset__set]
      · intro hout
        simp [hwa.2 hout, bitset__unset]
    · by_cases hv : w.2 = true
      · simpa [hv, bitset__set, haw] using hb a ha
      · simpa [hv, bitset__unset, haw] using hb a ha

theorem label_in_writes_fixed (c : Setting) (a : Nat) (hwf : well_formed c.aaf)
    (hvalid : valid_grounded c.aaf c.grounded) (hclosed : closed_grounded c.aaf c.grounded)
    (hout : c.grounded.out a = false) :
    ∀ w, w ∈ label_in_writes c a → (c.grounded.in_ w.1 = true → w.2 = true) ∧
      (c.grounded.out w.1 = true → w.2 = false) := by
  intro w hw
  unfold label_in_writes at hw
  rcases List.mem_cons.mp hw with hw | hw
  · subst hw
    refine ⟨fun _ => rfl, fun h => ?_⟩
    simp only at h
    rw [hout] at h
    cases h
  · split at hw
    · rcases List.mem_append.mp hw with hw | hw
      · obtain ⟨x, hx, rfl⟩ := List.mem_map.mp hw
        refine ⟨fun hin => ?_, fun _ => rfl⟩
        simp only at hin
        obtain ⟨_, hxn, hpa⟩ := hwf.2 a x hx
        have := (hvalid x hxn).1 hin a hpa
        rw [hout] at this
        cases this
      · obtain ⟨x, hx, rfl⟩ := List.mem_map.mp hw
        refine ⟨fun hin => ?_, fun _ => rfl⟩
        simp only at hin
        have := hclosed a (hwf.1 a x hx).1 x hx hin
        rw [hout] at this
        cases this
    · cases hw

theorem toggle_writes_fixed (c : Setting) (s : St) (sel_arg : Nat) (hwf : well_formed c.aaf)
    (hvalid : valid_grounded c.aaf c.grounded) (hclosed : closed_grounded c.aaf c.grounded)
    (hout : c.grounded.out sel_arg = false)
    (hin : s.lab.in_ sel_arg = true → c.grounded.in_ sel_arg = false) :
    ∀ w, w ∈ toggle_writes c s sel_arg → (c.grounded.in_ w.1 = true → w.2 = true) ∧
      (c.grounded.out w.1 = true → w.2 = false) := by
  intro w hw
  unfold toggle_writes at hw
  split at hw
  · rename_i hlab
    have hsin : s.lab.in_ sel_arg = true := by
      by_contra hne
      simp [taas__lab_get_label, hne] at hlab
    rw [List.mem_singleton] at hw
    subst hw
    refine ⟨fun h => ?_, fun _ => rfl⟩
    simp only at h
    rw [hin hsin] at h
    cases h
  · split at hw
    · split at hw
      · cases hw
      · split at hw
        · cases hw
        · rename_i r hr
          exact label_in_writes_fixed c r hwf hvalid hclosed
            (llist__get_with_skip_mem _ _ _ r hr).2 w hw
    · exact label_in_writes_fixed c sel_arg hwf hvalid hclosed hout w hw

/-- C2: for a well-formed framework and a grounded labeling as the grounded computation
delivers it (valid, `gr.in` and `gr.out` disjoint, closed under the rule "attacked by `gr.in`
implies `gr.out`"), for every option setting and every random stream, no step of `solve` after
the overlay of a restart changes the label of a fixed argument. The overlay gives every
argument of `gr.in` the label in and every argument of `gr.out` the label out; they carry
these labels at every later loop head, after every iteration (completed or left by a break)
and in the final state, and an iteration after the first leaves the label of every fixed
argument as it was. Inside an iteration: the state after the restart phase carries the fixed
labels, with the labeling of the loop head or that of a new overlay; the cap check, the move
selection and the odd cycle escape leave the labeling as it is; after each single write of
the toggle step (the flip of the selected argument, each enforce-out write to a child or a
parent) every fixed argument has the label it had before the toggle step; the labeling after
the toggle step is the result of these writes, a toggle step left by a break writes nothing,
and the re-check leaves the labeling as it is. -/
theorem fixed_labels_kept (c : Setting) (hwf : well_formed c.aaf)
    (hvalid : valid_grounded c.aaf c.grounded) (hdisj : disjoint_grounded c.aaf c.grounded)
    (hclosed : closed_grounded c.aaf c.grounded) :
    (∀ s, fixed_inv c (restart_labeling c s)) ∧
    (∀ s, loop_head c s → s.number_iterations ≠ 0 → fixed_inv c s) ∧
    (∀ s s1, loop_head c s →
      (iteration c s = Step.next s1 ∨ ∃ e, iteration c s = Step.stop e s1) →
      fixed_inv c s1 ∧
      (s.number_iterations ≠ 0 → ∀ a, a < c.aaf.number_of_arguments →
        ¬ not_fixed c.grounded a → s1.lab.in_ a = s.lab.in_ a)) ∧
    (∀ e s, solve c = Outcome.finished e s → fixed_inv c s) ∧
    (∀ s s1, loop_head c s →
      (restart_phase c s = Step.next s1 ∨ ∃ e, restart_phase c s = Step.stop e s1) →
      fixed_inv c s1 ∧
      (s1.lab = s.lab ∨ s1.lab = (restart_labeling c (local_minimum_check c s).2).lab)) ∧
    (∀ s s1 s2 p sel_arg, loop_head c s → restart_phase c s = Step.next s1 →
      iteration_cap c s1 = Step.next s2 → select_argument c s2 = Except.ok p →
      (odd_cycle_escape c { p.2 with toBeChecked := [] } p.1).1 = some sel_arg →
      s2.lab = s1.lab ∧ p.2.lab = s1.lab ∧
      (odd_cycle_escape c { p.2 with toBeChecked := [] } p.1).2.lab = s1.lab ∧
      (∀ k a, a < c.aaf.number_of_arguments → ¬ not_fixed c.grounded a →
        ((toggle_writes c (odd_cycle_escape c { p.2 with toBeChecked := [] } p.1).2
            sel_arg).take k).foldl apply_write s1.lab.in_ a = s1.lab.in_ a) ∧
      (∀ a s3,
        toggle_label c (odd_cycle_escape c { p.2 with toBeChecked := [] } p.1).2 sel_arg =
          Toggled.done a s3 →
        s3.lab.in_ =
          (toggle_writes c (odd_cycle_escape c { p.2 with toBeChecked := [] } p.1).2
            sel_arg).foldl apply_write s1.lab.in_ ∧
        ∀ s4, recheck c s3 a = Step.next s4 → s4.lab = s3.lab) ∧
      (∀ e s3,
        toggle_label c (odd_cycle_escape c { p.2 with toBeChecked := [] } p.1).2 sel_arg =
          Toggled.stop e s3 →
        toggle_writes c (odd_cycle_escape c { p.2 with toBeChecked := [] } p.1).2 sel_arg = [] ∧
        s3.lab = s1.lab)) := by
  have hhead : ∀ s, loop_head c s → s.number_iterations ≠ 0 → fixed_inv c s := by
    intro s hs hne
    rcases (loop_head_inv c s hs).2.2.2.2 hwf hvalid hdisj hclosed with h | h
    · exact absurd h hne
    · exact h
  have hstep : ∀ s s1, loop_head c s →
      (iteration c s = Step.next s1 ∨ ∃ e, iteration c s = Step.stop e s1) → fixed_inv c s1 := by
    intro s s1 hs hit
    obtain ⟨i1, _, _, _, i5⟩ := loop_head_inv c s hs
    rcases hit with hit | ⟨e, hit⟩
    · exact (iteration_next c s s1 hit).2.2.2.2.2 hwf hvalid hdisj hclosed i1
        (i5 hwf hvalid hdisj hclosed)
    · exact (iteration_stop c s s1 e hit).2.2.2.2.2.2.2.2 hdisj (i5 hwf hvalid hdisj hclosed)
  have hphase : ∀ s s1, loop_head c s →
      (restart_phase c s = Step.next s1 ∨ ∃ e, restart_phase c s = Step.stop e s1) →
      fixed_inv c s1 := by
    intro s s1 hs hrp
    have i5 := (loop_head_inv c s hs).2.2.2.2 hwf hvalid hdisj hclosed
    rcases hrp with hrp | ⟨e, hrp⟩
    · exact (restart_phase_inv c s s1 _ hrp (Or.inl rfl)).2.2 hdisj i5
    · exact (restart_phase_inv c s s1 _ hrp (Or.inr ⟨e, rfl⟩)).2.2 hdisj i5
  refine ⟨fun s => fixed_inv_restart_labeling c s hdisj, hhead, ?_, ?_, ?_, ?_⟩
  · intro s s1 hs hit
    refine ⟨hstep s s1 hs hit, fun hne a ha hfix => ?_⟩
    have h0 := hhead s hs hne a ha
    have h1 := hstep s s1 hs hit a ha
    by_cases hin : c.grounded.in_ a = true
    · rw [h0.1 hin, h1.1 hin]
    · by_cases hout : c.grounded.out a = true
      · rw [h0.2 hout, h1.2 hout]
      · exact absurd ⟨by simpa using hin, by simpa using hout⟩ hfix
  · intro e s hs
    exact (solve_final_inv c e s hs).2 hwf hvalid hdisj hclosed
  · intro s s1 hs hrp
    refine ⟨hphase s s1 hs hrp, ?_⟩
    rcases hrp with hrp | ⟨e, hrp⟩
    · rcases (restart_phase_spec c s s1 _ hrp (Or.inl rfl)).2.2 with ⟨h, _⟩ | ⟨_, _, h, _⟩
      · exact Or.inr h
      · exact Or.inl h.1
    · rcases (restart_phase_spec c s s1 _ hrp (Or.inr ⟨e, rfl⟩)).2.2 with
        ⟨h, _⟩ | ⟨_, _, h, _⟩
      · exact Or.inr h
      · exact Or.inl h.1
  · intro s s1 s2 p sel_arg hs hrp hcap hsel hesc
    have hinv1 : fixed_inv c s1 := hphase s s1 hs (Or.inl hrp)
    have hcand1 : candidates_inv c s1 :=
      (restart_phase_inv c s s1 _ hrp (Or.inl rfl)).2.1 (loop_head_inv c s hs).1
    have hs2 : s2 = { s1 with number_iterations := s1.number_iterations + 1 } := by
      rcases iteration_cap_spec c s1 with ⟨h, _⟩ | ⟨h, _⟩
      · rw [h] at hcap
        cases hcap
      · rw [h] at hcap
        injection hcap with hcap
        exact hcap.symm
    have hlab2 : s2.lab = s1.lab := by rw [hs2]
    have hcand2 : candidates_inv c s2 := by rw [hs2]; exact hcand1
    obtain ⟨a1, _, _, a4⟩ := select_argument_spec c s2 p hsel
    obtain ⟨b1, _, _, b4⟩ := odd_cycle_escape_spec c { p.2 with toBeChecked := [] } p.1
    have hlabp : p.2.lab = s1.lab := by rw [a1.1, hlab2]
    have hlabt : (odd_cycle_escape c { p.2 with toBeChecked := [] } p.1).2.lab = s1.lab := by
      rw [b1.1]
      exact hlabp
    have hsafe : c.grounded.out sel_arg = false ∧
        ((odd_cycle_escape c { p.2 with toBeChecked := [] } p.1).2.lab.in_ sel_arg = true →
          c.grounded.in_ sel_arg = false) := by
      rcases b4 sel_arg hesc with hb | ⟨hb, hb2⟩
      · rw [hb]
        exact ⟨(a4 hcand2).2, fun _ => (a4 hcand2).1⟩
      · refine ⟨hb2, fun hin => ?_⟩
        rw [b1.1] at hin
        simp only at hb
        rw [hb] at hin
        cases hin
    have hws := toggle_writes_fixed c (odd_cycle_escape c { p.2 with toBeChecked := [] } p.1).2
      sel_arg hwf hvalid hclosed hsafe.1 hsafe.2
    have hw := toggle_label_writes c (odd_cycle_escape c { p.2 with toBeChecked := [] } p.1).2
      sel_arg
    rw [hlabt] at hw
    refine ⟨hlab2, hlabp, hlabt, fun k a ha hfix => ?_, fun a s3 h3 => ⟨hw.1 a s3 h3, ?_⟩,
      fun e s3 h3 => hw.2 e s3 h3⟩
    · have hk := foldl_apply_write_fixed c
        ((toggle_writes c (odd_cycle_escape c { p.2 with toBeChecked := [] } p.1).2
          sel_arg).take k) s1.lab.in_
        (fun w hwm => hws w (List.mem_of_mem_take hwm)) hinv1 a ha
      have h1 := hinv1 a ha
      by_cases hin : c.grounded.in_ a = true
      · rw [hk.1 hin, h1.1 hin]
      · by_cases hout : c.grounded.out a = true
        · rw [hk.2 hout, h1.2 hout]
        · exact absurd ⟨by simpa using hin, by simpa using hout⟩ hfix
    · intro s4 h4
      unfold recheck at h4
      simp only at h4
      split at h4
      · cases h4
      · rename_i s5 h5
        injection h4 with h4
        subst h4
        exact (recheck_loop_spec c _ _ _ h5).1

/-- C2 (witness): the framework `a b`, `c b`, `c d`, `d c` with its grounded labeling
`gr.in = {a}`, `gr.out = {b}` and `-initout 1 -enforceout 1 -randsel 2`: the first iteration
selects `c`, the toggle step writes `c` in and then `b`, `d`, `d` out, where `b` is fixed out,
and after each of these writes the fixed arguments `a` and `b` have the labels of the
overlay. -/
theorem fixed_labels_kept_witness :
    well_formed setting_fixed_neighbour.aaf ∧
    valid_grounded setting_fixed_neighbour.aaf setting_fixed_neighbour.grounded ∧
    disjoint_grounded setting_fixed_neighbour.aaf setting_fixed_neighbour.grounded ∧
    closed_grounded setting_fixed_neighbour.aaf setting_fixed_neighbour.grounded ∧
    restart_phase setting_fixed_neighbour (init_state setting_fixed_neighbour) =
      Step.next state_after_overlay ∧
    iteration_cap setting_fixed_neighbour state_after_overlay =
      Step.next { state_after_overlay with number_iterations := 1 } ∧
    select_argument setting_fixed_neighbour { state_after_overlay with number_iterations := 1 } =
      Except.ok selection_after_overlay ∧
    (odd_cycle_escape setting_fixed_neighbour
      { selection_after_overlay.2 with toBeChecked := [] } selection_after_overlay.1).1 =
        some 2 ∧
    toggle_writes setting_fixed_neighbour
      (odd_cycle_escape setting_fixed_neighbour
        { selection_after_overlay.2 with toBeChecked := [] } selection_after_overlay.1).2 2 =
      [(2, true), (1, false), (3, false), (3, false)] ∧
    setting_fixed_neighbour.grounded.out 1 = true ∧
    (∀ k a, a < setting_fixed_neighbour.aaf.number_of_arguments →
      ¬ not_fixed setting_fixed_neighbour.grounded a →
      ((toggle_writes setting_fixed_neighbour
          (odd_cycle_escape setting_fixed_neighbour
            { selection_after_overlay.2 with toBeChecked := [] }
            selection_after_overlay.1).2 2).take k).foldl apply_write
        state_after_overlay.lab.in_ a = state_after_overlay.lab.in_ a) :=
  ⟨well_formed_aaf_of _ _ (by decide), by decide, by decide, by decide, by rfl, by rfl, by rfl,
    by rfl, by decide, by decide,
    ((fixed_labels_kept setting_fixed_neighbour (well_formed_aaf_of _ _ (by decide))
      (by decide) (by decide) (by decide)).2.2.2.2.2 (init_state setting_fixed_neighbour)
      state_after_overlay { state_after_overlay with number_iterations := 1 }
      selection_after_overlay 2 (loop_head.init) (by rfl) (by rfl) (by rfl) (by rfl)).2.2.2.1⟩

/-- Remark (the closure rule of the grounded computation is used): on `gr.in = {a}`,
`gr.out = {}` for the attacks `a b`, `c d`, `d c`, which satisfies both conditions of
`valid_grounded` and is not closed, with the options `-initout 1 -enforceout 1 -randsel 2`,
the overlay labels `a` in, the arbitrary move flips `b` to in, the enforce-out propagation
labels its attacker `a` out, and `a` is still out in the final state. -/
theorem fixed_label_changed_weak_grounded :
    valid_grounded setting_weak_grounded.aaf setting_weak_grounded.grounded ∧
    disjoint_grounded setting_weak_grounded.aaf setting_weak_grounded.grounded ∧
    ¬ closed_grounded setting_weak_grounded.aaf setting_weak_grounded.grounded ∧
    setting_weak_grounded.grounded.in_ 0 = true ∧
    (restart_labeling setting_weak_grounded (init_state setting_weak_grounded)).lab.in_ 0 = true ∧
    holds_finally (solve setting_weak_grounded) (fun s => s.lab.in_ 0 = false) := by
  refine ⟨by decide, by decide, by decide, by decide, by decide!, by decide!⟩

/-- C3: for a well-formed framework, every option setting and every random stream, at every
iteration boundary (after the restart phase, rebuilt or not; after every iteration, completed
or left by a break; in the final state) an argument in neither `gr.in` nor `gr.out` is in the
mislabeled set if and only if it is not correctly labeled under the current labeling. -/
theorem mislabeled_set_exact (c : Setting) (hwf : well_formed c.aaf) :
    (∀ s, mislabeled_inv c (restart_labeling c s)) ∧
    (∀ s s1, loop_head c s →
      (restart_phase c s = Step.next s1 ∨ ∃ e, restart_phase c s = Step.stop e s1) →
      mislabeled_inv c s1) ∧
    (∀ s s1, loop_head c s →
      (iteration c s = Step.next s1 ∨ ∃ e, iteration c s = Step.stop e s1) →
      mislabeled_inv c s1) ∧
    (∀ e s, solve c = Outcome.finished e s → mislabeled_inv c s) := by
  refine ⟨fun s => mislabeled_inv_restart_labeling c s, ?_, ?_, ?_⟩
  · intro s s1 hs hrp
    have h4 := (loop_head_inv c s hs).2.2.2.1 hwf
    rcases hrp with hrp | ⟨e, hrp⟩
    · exact (restart_phase_inv c s s1 _ hrp (Or.inl rfl)).1 h4
    · exact (restart_phase_inv c s s1 _ hrp (Or.inr ⟨e, rfl⟩)).1 h4
  · intro s s1 hs hit
    have h4 := (loop_head_inv c s hs).2.2.2.1 hwf
    rcases hit with hit | ⟨e, hit⟩
    · exact (iteration_next c s s1 hit).2.2.2.1 hwf h4
    · exact (iteration_stop c s s1 e hit).2.2.2.2.2.2.1 h4
  · intro e s hs
    exact (solve_final_inv c e s hs).1 hwf

/-- C3 (witness): the framework `a b`, `c d`, `d c`. -/
theorem mislabeled_set_exact_witness :
    well_formed setting_closed_grounded.aaf ∧
    (∀ e s, solve setting_closed_grounded = Outcome.finished e s →
      mislabeled_inv setting_closed_grounded s) :=
  ⟨well_formed_aaf_of _ _ (by decide),
    (mislabeled_set_exact setting_closed_grounded (well_formed_aaf_of _ _ (by decide))).2.2.2⟩

/-- C5: for every input and option setting, with `M` the resolved iteration cap: at every loop
head and in the final state the number of flips (toggle steps on the selected argument) is at
most `max (M - 1) 0` and the iteration counter at most `max M 1`; when the loop is left through the iteration cap check the counter
has reached `M` and NO is printed; the loop always ends within `M + 1` iterations. -/
theorem iteration_cap_respected (c : Setting) :
    (∀ s, loop_head c s →
      (s.flipped.length : Int) ≤ max (init_max_iterations c.task c.aaf - 1) 0 ∧
      (s.number_iterations : Int) ≤ max (init_max_iterations c.task c.aaf) 1) ∧
    (∀ e s, solve c = Outcome.finished e s →
      (s.flipped.length : Int) ≤ max (init_max_iterations c.task c.aaf - 1) 0 ∧
      (s.number_iterations : Int) ≤ max (init_max_iterations c.task c.aaf) 1 ∧
      (e = Exit.iteration_cap →
        init_max_iterations c.task c.aaf ≤ (s.number_iterations : Int) ∧
        printed c (solve c) = some Printed.NO)) ∧
    solve c ≠ Outcome.fault Fault.loop_fuel := by
  have hhead : ∀ s, loop_head c s →
      (s.flipped.length : Int) ≤ max (init_max_iterations c.task c.aaf - 1) 0 ∧
      (s.number_iterations : Int) ≤ max (init_max_iterations c.task c.aaf) 1 := by
    intro s hs
    obtain ⟨_, h2, h3, _⟩ := loop_head_inv c s hs
    rw [h2]
    rcases h3 with h3 | ⟨h3, _⟩
    · rw [h3]; simp
    · constructor
      · exact le_max_of_le_left (by omega)
      · exact le_max_of_le_left (by omega)
  refine ⟨hhead, ?_, ?_⟩
  · intro e s hs
    obtain ⟨s0, hs0, hit⟩ := solve_finished c s e hs
    obtain ⟨_, h2, h3, _⟩ := loop_head_inv c s0 hs0
    obtain ⟨hf0, hn0⟩ := hhead s0 hs0
    rcases hit with hit | ⟨hit, he, _⟩
    · obtain ⟨n1, n2, _, _, n5, n6, _⟩ := iteration_stop c s0 s e hit
      refine ⟨by rw [n1]; exact hf0, ?_, ?_⟩
      · rcases h3 with h3 | ⟨h3, _⟩
        · exact le_max_of_le_right (by omega)
        · exact le_max_of_le_left (by omega)
      · intro hcap
        refine ⟨(n6 hcap).1, ?_⟩
        have hpos : 0 < s.mislabeled.length := by
          apply n5 (by rw [hcap]; decide)
          rcases h3 with h3 | ⟨_, h3⟩
          · exact Or.inl h3
          · exact Or.inr h3
        rw [hs]
        simp only [printed]
        rw [if_neg (by omega)]
    · obtain ⟨n1, n2, n3, _⟩ := iteration_next c s0 s hit
      refine ⟨?_, le_max_of_le_left (by omega), fun hcap => ?_⟩
      · rw [n3, h2, ← n1]
        exact le_max_of_le_left (by omega)
      · rw [he] at hcap; cases hcap
  · unfold solve
    split
    · intro hh; cases hh
    · exact main_loop_fuel c _ _ loop_head.init (by simp [init_state])

/-! ## Scenarios -/

theorem local_minimum_check_off (c : Setting) (s : St) (h : c.task.locminres_pos = false) :
    local_minimum_check c s = (false, s) := by
  simp [local_minimum_check, h]

theorem restart_phase_no_restart (c : Setting) (s : St) (h : c.task.locminres_pos = false)
    (hr : init_restart c.task c.aaf = -1) (hn : s.number_iterations ≠ 0) :
    restart_phase c s = Step.next s := by
  unfold restart_phase
  rw [local_minimum_check_off c s h]
  simp [restart_condition, hn, hr]

theorem restart_block_off (c : Setting) (s : St) (h : c.task.locminres_pos = false)
    (hg : c.task.greedyprob_pos = false) :
    restart_block c s =
      if (restart_labeling c s).mislabeled.length = 0 then
        Step.stop Exit.stable_at_restart (restart_labeling c s)
      else Step.next (restart_labeling c s) := by
  simp [restart_block, store_minimum, reset_heap, h, hg]

theorem select_argument_mislabeled (c : Setting) (s : St)
    (hg : ∀ r, c.task.prob_lt_greedyprob r = false)
    (hr : ∀ r, c.task.prob_lt_greedyprob_plus_randsel r = false)
    (hne : s.mislabeled.length ≠ 0) :
    select_argument c s =
      Except.ok (raset__get s.mislabeled (c.rand (s.rand_calls + 1) % s.mislabeled.length),
        { s with rand_calls := s.rand_calls + 1 + 1 }) := by
  simp [select_argument, select_random, hg, hr, raset__random_element, hne]

theorem odd_cycle_escape_off (c : Setting) (s : St) (sel_arg : Nat)
    (h : c.task.escapeoddcycles = false) : odd_cycle_escape c s sel_arg = (some sel_arg, s) := by
  simp [odd_cycle_escape, occ, h]

theorem recheck_element_no_greedy (c : Setting) (s : St) (elem : Nat)
    (hg : c.task.greedyprob_pos = false) (hin : c.grounded.in_ elem = false)
    (hout : c.grounded.out elem = false) :
    recheck_element c s elem = Except.ok
      { s with mislabeled :=
          if taas__labeled_correctly c.aaf s.lab elem = true then raset__remove s.mislabeled elem
          else raset__add s.mislabeled elem } := by
  unfold recheck_element
  simp only [bitset__get_eq, hin, hout, hg]
  by_cases hl : taas__labeled_correctly c.aaf s.lab elem = true
  · simp [hl]
  · simp only [Bool.not_eq_true] at hl
    simp [hl]

theorem main_loop_succ (c : Setting) (fuel : Nat) (s : St) :
    main_loop c (fuel + 1) s =
      match iteration c s with
      | Step.fault f => Outcome.fault f
      | Step.stop e s1 => Outcome.finished e s1
      | Step.next s1 =>
        if s1.mislabeled.length > 0 then main_loop c fuel s1
        else Outcome.finished Exit.mislabeled_empty s1 := rfl

theorem iteration_of_restart_next (c : Setting) (s s1 : St)
    (h : restart_phase c s = Step.next s1)
    (hcap : ((s1.number_iterations + 1 : Nat) : Int) < init_max_iterations c.task c.aaf) :
    iteration c s = search_step c { s1 with number_iterations := s1.number_iterations + 1 } := by
  unfold iteration
  rw [h]
  simp only
  unfold iteration_cap
  rw [if_neg (not_le.mpr hcap)]

theorem iteration_of_restart_stop (c : Setting) (s s1 : St) (e : Exit)
    (h : restart_phase c s = Step.stop e s1) : iteration c s = Step.stop e s1 := by
  unfold iteration
  rw [h]

theorem search_step_of_select (c : Setting) (s s1 : St) (sel_arg : Nat)
    (hsel : select_argument c s = Except.ok (sel_arg, s1))
    (hesc : c.task.escapeoddcycles = false) :
    search_step c s = flip_step c { s1 with toBeChecked := [] } sel_arg := by
  unfold search_step
  rw [hsel]
  simp only
  rw [odd_cycle_escape_off c _ _ hesc]

/-- Evaluation of the two-cycle run (used for C7). -/
theorem two_cycle_run (c : Setting) (ht : c.task = default_options)
    (ha : c.aaf = aaf_two_cycle) (hg : c.grounded = labeling_of [] []) :
    ∃ e s, solve c = Outcome.finished e s ∧ s.mislabeled = [] ∧ s.flipped.length ≤ 1 ∧
      s.number_iterations ≤ 1 ∧ (s.lab.in_ 0 = !s.lab.in_ 1) := by
  have hloc : c.task.locminres_pos = false := by rw [ht]; rfl
  have hgp : c.task.greedyprob_pos = false := by rw [ht]; rfl
  have hesc : c.task.escapeoddcycles = false := by rw [ht]; rfl
  have hpg : ∀ r, c.task.prob_lt_greedyprob r = false := by intro r; rw [ht]; rfl
  have hpr : ∀ r, c.task.prob_lt_greedyprob_plus_randsel r = false := by intro r; rw [ht]; rfl
  have hinit : c.task.init_out = false := by rw [ht]; rfl
  have henf : c.task.enforce_out = false := by rw [ht]; rfl
  have hM : init_max_iterations c.task c.aaf = 2000 := by rw [ht, ha]; decide
  have hn : c.aaf.number_of_arguments = 2 := by rw [ha]; rfl
  have hp0 : c.aaf.parents 0 = [1] := by rw [ha]; rfl
  have hp1 : c.aaf.parents 1 = [0] := by rw [ha]; rfl
  have hc0 : c.aaf.children 0 = [1] := by rw [ha]; rfl
  have hc1 : c.aaf.children 1 = [0] := by rw [ha]; rfl
  have hl : ∀ i, c.aaf.loops i = false := by
    intro i; rw [ha]; simp [aaf_two_cycle, aaf_of]
    omega
  have hgi : ∀ i, c.grounded.in_ i = false := by intro i; rw [hg]; rfl
  have hgo : ∀ i, c.grounded.out i = false := by intro i; rw [hg]; rfl
  have hlc0 : ∀ lab : Labeling, taas__labeled_correctly c.aaf lab 0 =
      (if lab.in_ 0 then !lab.in_ 1 else lab.in_ 1) := by
    intro lab; simp [taas__labeled_correctly, hp0]
  have hlc1 : ∀ lab : Labeling, taas__labeled_correctly c.aaf lab 1 =
      (if lab.in_ 1 then !lab.in_ 0 else lab.in_ 0) := by
    intro lab; simp [taas__labeled_correctly, hp1]
  have hrebuild : ∀ lab : Labeling, rebuild_mislabeled c lab =
      if lab.in_ 0 = lab.in_ 1 then [0, 1] else [] := by
    intro lab
    simp only [rebuild_mislabeled, hn, List.range_succ, List.range_zero, List.nil_append,
      List.cons_append, List.foldl_cons, List.foldl_nil, bitset__get_eq, hgi, hgo, hlc0, hlc1]
    cases lab.in_ 0 <;> cases lab.in_ 1 <;> simp [raset__add]
  have hflip : ∀ (S : St) (sel_arg : Nat), S.mislabeled = [0, 1] → S.toBeChecked = [] →
      S.lab.in_ 0 = S.lab.in_ 1 → (sel_arg = 0 ∨ sel_arg = 1) →
      ∃ s1, flip_step c S sel_arg = Step.next s1 ∧ s1.mislabeled = [] ∧
        s1.flipped = S.flipped ++ [sel_arg] ∧ s1.number_iterations = S.number_iterations ∧
        (s1.lab.in_ 0 = !s1.lab.in_ 1) := by
    intro S sel_arg hmis htbc hlab hsel
    have hre := fun s elem => recheck_element_no_greedy c s elem hgp (hgi elem) (hgo elem)
    cases hb : S.lab.in_ 1 <;> rw [hb] at hlab <;> rcases hsel with hsel | hsel <;> subst hsel <;>
      simp [flip_step, toggle_label, taas__lab_get_label, hlab, hb, hl, label_in, henf, recheck,
        recheck_loop, hre, hc0, hc1, hp0, hp1, htbc, hmis, raset__add, raset__remove, hlc0, hlc1]
  have hrp : restart_phase c (init_state c) = restart_block c (init_state c) := by
    rw [restart_phase_first c _ rfl, local_minimum_check_off c _ hloc]
  have hmis : (restart_labeling c (init_state c)).mislabeled =
      if (restart_labeling c (init_state c)).lab.in_ 0 =
          (restart_labeling c (init_state c)).lab.in_ 1 then [0, 1] else [] := by
    rw [(restart_labeling_spec c (init_state c)).1, hrebuild]
  have hsolve : solve c = main_loop c (2000 + 1) (init_state c) := by
    simp [solve, hesc, hM]
  rw [hsolve, main_loop_succ]
  by_cases heq : (restart_labeling c (init_state c)).lab.in_ 0 =
      (restart_labeling c (init_state c)).lab.in_ 1
  · rw [if_pos heq] at hmis
    have hnext : restart_phase c (init_state c) = Step.next (restart_labeling c (init_state c)) := by
      rw [hrp, restart_block_off c _ hloc hgp, hmis]
      simp
    have hit : iteration c (init_state c) = search_step c
        { restart_labeling c (init_state c) with
          number_iterations := (restart_labeling c (init_state c)).number_iterations + 1 } :=
      iteration_of_restart_next c _ _ hnext (by rw [hM]; simp [restart_labeling, init_state])
    have hsel := select_argument_mislabeled c
      { restart_labeling c (init_state c) with
        number_iterations := (restart_labeling c (init_state c)).number_iterations + 1 } hpg hpr
      (by
        show (restart_labeling c (init_state c)).mislabeled.length ≠ 0
        rw [hmis]; decide)
    rw [search_step_of_select c _ _ _ hsel hesc] at hit
    have hex : ∃ S sel_arg, iteration c (init_state c) = flip_step c S sel_arg ∧
        S.mislabeled = [0, 1] ∧ S.toBeChecked = [] ∧ S.lab.in_ 0 = S.lab.in_ 1 ∧
        (sel_arg = 0 ∨ sel_arg = 1) ∧ S.flipped = [] ∧ S.number_iterations = 1 := by
      refine ⟨_, _, hit, hmis, rfl, heq, ?_, rfl, rfl⟩
      show raset__get (restart_labeling c (init_state c)).mislabeled
        (c.rand ((restart_labeling c (init_state c)).rand_calls + 1) %
          (restart_labeling c (init_state c)).mislabeled.length) = 0 ∨ _ = 1
      rw [hmis]
      simp only [raset__get, List.length_cons, List.length_nil]
      have : ∀ r : Nat, r % 2 = 0 ∨ r % 2 = 1 := fun r => by omega
      rcases this (c.rand ((restart_labeling c (init_state c)).rand_calls + 1)) with h | h <;>
        simp [h]
    obtain ⟨S, sel_arg, hit1, x1, x2, x3, x4, x5, x6⟩ := hex
    obtain ⟨s1, hs1, m1, m2, m3, m4⟩ := hflip S sel_arg x1 x2 x3 x4
    rw [hit1, hs1]
    refine ⟨Exit.mislabeled_empty, s1, ?_, m1, ?_, ?_, m4⟩
    · simp only [m1, List.length_nil, gt_iff_lt, lt_self_iff_false, if_false]
    · rw [m2, x5]; simp
    · rw [m3, x6]
  · rw [if_neg heq] at hmis
    have hstop : restart_phase c (init_state c) =
        Step.stop Exit.stable_at_restart (restart_labeling c (init_state c)) := by
      rw [hrp, restart_block_off c _ hloc hgp, hmis]
      simp
    rw [iteration_of_restart_stop c _ _ _ hstop]
    refine ⟨Exit.stable_at_restart, _, rfl, hmis, ?_, ?_, ?_⟩
    · simp [restart_labeling, init_state]
    · simp [restart_labeling, init_state]
    · revert heq
      cases (restart_labeling c (init_state c)).lab.in_ 0 <;>
        cases (restart_labeling c (init_state c)).lab.in_ 1 <;> simp

/-- C7: for the arguments `a`, `b` with the attacks `a b` and `b a`, the empty grounded labeling
and default options, for every random stream `solve` leaves the loop with an empty mislabeled
set after at most one flip and at most one counted iteration (cap 2000), the final labeling is
stable, and the line printed is `[a]` or `[b]`. -/
theorem solve_two_cycle (c : Setting) (ht : c.task = default_options)
    (ha : c.aaf = aaf_two_cycle) (hg : c.grounded = labeling_of [] []) :
    init_max_iterations c.task c.aaf = 2000 ∧
    ∃ e s, solve c = Outcome.finished e s ∧ s.mislabeled = [] ∧ s.flipped.length ≤ 1 ∧
      s.number_iterations ≤ 1 ∧ stable_labeling c.aaf s.lab ∧
      (printed c (solve c) = some (Printed.labeling "[a]") ∨
        printed c (solve c) = some (Printed.labeling "[b]")) := by
  refine ⟨by rw [ht, ha]; decide, ?_⟩
  obtain ⟨e, s, hs, h1, h2, h3, h4⟩ := two_cycle_run c ht ha hg
  refine ⟨e, s, hs, h1, h2, h3, ?_, ?_⟩
  · rw [ha]
    intro a hlt
    have ha2 : a = 0 ∨ a = 1 := by
      have : a < 2 := hlt
      omega
    rcases ha2 with rfl | rfl <;> cases hb : s.lab.in_ 1 <;> rw [hb] at h4 <;>
      simp [aaf_two_cycle, aaf_of, h4, hb]
  · rw [hs]
    simp only [printed, h1, List.length_nil, if_true]
    cases hb : s.lab.in_ 1 <;> rw [hb] at h4
    · left
      simp [taas__lab_print, ha, aaf_two_cycle, aaf_of, List.range_succ, List.filter, h4, hb,
        join_names]
    · right
      simp [taas__lab_print, ha, aaf_two_cycle, aaf_of, List.range_succ, List.filter, h4, hb,
        join_names]

/-- C7 (witness): the random stream of zeroes prints `[a]`. -/
theorem solve_two_cycle_witness :
    (setting_two_cycle (fun _ => 0)).task = default_options ∧
    (setting_two_cycle (fun _ => 0)).aaf = aaf_two_cycle ∧
    (setting_two_cycle (fun _ => 0)).grounded = labeling_of [] [] ∧
    printed (setting_two_cycle (fun _ => 0)) (solve (setting_two_cycle (fun _ => 0))) =
      some (Printed.labeling "[a]") ∧
    ∃ e s, solve (setting_two_cycle (fun _ => 0)) = Outcome.finished e s ∧ s.mislabeled = [] ∧
      s.flipped.length ≤ 1 ∧ s.number_iterations ≤ 1 ∧
      stable_labeling (setting_two_cycle (fun _ => 0)).aaf s.lab ∧
      (printed (setting_two_cycle (fun _ => 0)) (solve (setting_two_cycle (fun _ => 0))) =
          some (Printed.labeling "[a]") ∨
        printed (setting_two_cycle (fun _ => 0)) (solve (setting_two_cycle (fun _ => 0))) =
          some (Printed.labeling "[b]")) :=
  ⟨rfl, rfl, rfl, by decide!, (solve_two_cycle (setting_two_cycle (fun _ => 0)) rfl rfl rfl).2⟩

theorem taas__lab_print_congr (aaf : AAF) (lab1 lab2 : Labeling)
    (h : ∀ i, i < aaf.number_of_arguments → lab1.in_ i = lab2.in_ i) :
    taas__lab_print lab1 aaf = taas__lab_print lab2 aaf := by
  unfold taas__lab_print
  have : (List.range aaf.number_of_arguments).filter (fun i => bitset__get lab1.in_ i) =
      (List.range aaf.number_of_arguments).filter (fun i => bitset__get lab2.in_ i) := by
    apply List.filter_congr
    intro i hi
    exact h i (List.mem_range.mp hi)
  rw [this]

/-- C6: when every argument is fixed by the grounded labeling and the odd cycle collection
build does not fail, then for every option setting and random stream `solve` leaves the loop in
the first restart block, with iteration counter 0, no flip and one restart, and prints the
labeling whose in-set is `gr.in`. -/
theorem solve_all_fixed (c : Setting)
    (hfix : ∀ i, i < c.aaf.number_of_arguments →
      c.grounded.in_ i = true ∨ c.grounded.out i = true)
    (hocc : c.task.escapeoddcycles = true → c.occ_init ≠ none) :
    ∃ s, solve c = Outcome.finished Exit.stable_at_restart s ∧ s.number_iterations = 0 ∧
      s.flipped = [] ∧ s.restarts = 1 ∧
      printed c (solve c) = some (Printed.labeling (taas__lab_print c.grounded c.aaf)) := by
  have hmis : ∀ lab, rebuild_mislabeled c lab = [] := by
    intro lab
    apply List.eq_nil_iff_forall_not_mem.mpr
    intro x hx
    rw [mem_rebuild_mislabeled] at hx
    rcases hfix x hx.1 with h | h <;> simp [not_fixed, h] at hx
  obtain ⟨l1, l2, l3, l4, l5, l6⟩ := local_minimum_check_frame c (init_state c)
  obtain ⟨r1, r2, r3, r4, r5, r6⟩ :=
    restart_labeling_spec c (local_minimum_check c (init_state c)).2
  have hempty : (restart_labeling c (local_minimum_check c (init_state c)).2).mislabeled = [] := by
    rw [r1, hmis]
  have hit : iteration c (init_state c) = Step.stop Exit.stable_at_restart
      (restart_labeling c (local_minimum_check c (init_state c)).2) := by
    apply iteration_of_restart_stop
    rw [restart_phase_first c _ rfl]
    unfold restart_block
    rw [if_pos (by rw [hempty]; rfl)]
  have hsolve : solve c = Outcome.finished Exit.stable_at_restart
      (restart_labeling c (local_minimum_check c (init_state c)).2) := by
    unfold solve
    have : (c.task.escapeoddcycles && c.occ_init.isNone) = false := by
      cases hesc : c.task.escapeoddcycles
      · rfl
      · have := hocc hesc
        cases hoi : c.occ_init
        · exact absurd hoi this
        · rfl
    rw [this]
    simp only [Bool.false_eq_true, if_false]
    rw [main_loop_succ, hit]
  refine ⟨_, hsolve, by rw [r3, l4]; rfl, by rw [r4, l5]; rfl, by rw [r5, l6]; rfl, ?_⟩
  rw [hsolve]
  simp only [printed, hempty, List.length_nil, if_true]
  congr 2
  apply taas__lab_print_congr
  intro i hi
  rcases hfix i hi with h | h
  · rw [(r2 i hi).1 h, h]
  · cases hin : c.grounded.in_ i
    · exact (r2 i hi).2 hin h
    · exact (r2 i hi).1 hin

/-- C6 (witness): `a`, `b` with the attack `a b`, `gr.in = {a}`, `gr.out = {b}` prints `[a]`. -/
theorem solve_all_fixed_witness :
    (∀ i, i < (setting_of default_options aaf_a_attacks_b (labeling_of [0] [1])
        (fun _ => 0)).aaf.number_of_arguments →
      (setting_of default_options aaf_a_attacks_b (labeling_of [0] [1]) (fun _ => 0)).grounded.in_ i
          = true ∨
        (setting_of default_options aaf_a_attacks_b (labeling_of [0] [1]) (fun _ => 0)).grounded.out i
          = true) ∧
    taas__lab_print (labeling_of [0] [1]) aaf_a_attacks_b = "[a]" ∧
    ∃ s, solve (setting_of default_options aaf_a_attacks_b (labeling_of [0] [1]) (fun _ => 0)) =
        Outcome.finished Exit.stable_at_restart s ∧ s.number_iterations = 0 ∧
      s.flipped = [] ∧ s.restarts = 1 ∧
      printed (setting_of default_options aaf_a_attacks_b (labeling_of [0] [1]) (fun _ => 0))
          (solve (setting_of default_options aaf_a_attacks_b (labeling_of [0] [1]) (fun _ => 0))) =
        some (Printed.labeling (taas__lab_print (labeling_of [0] [1]) aaf_a_attacks_b)) :=
  ⟨by decide, by decide,
    solve_all_fixed (setting_of default_options aaf_a_attacks_b (labeling_of [0] [1]) (fun _ => 0))
      (by decide) (by intro h; cases h)⟩

/-- C8: for a framework without arguments and default options the resolved iteration cap is 0,
and `solve` leaves the loop in the first restart block, before the cap check, without any call
of `rand()` and without a flip, and prints `[]`. -/
theorem solve_empty_framework (c : Setting) (hn : c.aaf.number_of_arguments = 0)
    (ht : c.task = default_options) :
    init_max_iterations c.task c.aaf = 0 ∧
    ∃ s, solve c = Outcome.finished Exit.stable_at_restart s ∧ s.number_iterations = 0 ∧
      s.rand_calls = 0 ∧ s.flipped = [] ∧ s.restarts = 1 ∧
      printed c (solve c) = some (Printed.labeling "[]") := by
  have hcap : init_max_iterations c.task c.aaf = 0 := by
    simp [init_max_iterations, ht, default_options, hn, wrap_int]
  refine ⟨hcap, ?_⟩
  have hlm : local_minimum_check c (init_state c) = (false, init_state c) :=
    local_minimum_check_off c _ (by rw [ht]; rfl)
  have hrb : iteration c (init_state c) = Step.stop Exit.stable_at_restart
      { init_state c with restarts := 1 } := by
    unfold iteration
    rw [restart_phase_first c _ rfl, hlm]
    simp [restart_block, restart_labeling, ht, default_options, hn, taas__lab_randomize,
      overlay_grounded, rebuild_mislabeled, init_state]
  have hs : solve c = Outcome.finished Exit.stable_at_restart
      { init_state c with restarts := 1 } := by
    simp [solve, ht, default_options, hcap, main_loop, hrb]
  refine ⟨_, hs, rfl, rfl, rfl, rfl, ?_⟩
  rw [hs]
  simp [printed, init_state, taas__lab_print, hn, join_names]

/-- C8 (witness): the empty framework prints `[]`. -/
theorem solve_empty_framework_witness :
    (setting_of default_options aaf_empty (labeling_of [] []) (fun _ => 0)).aaf.number_of_arguments
      = 0 ∧
    (setting_of default_options aaf_empty (labeling_of [] []) (fun _ => 0)).task
      = default_options ∧
    printed (setting_of default_options aaf_empty (labeling_of [] []) (fun _ => 0))
        (solve (setting_of default_options aaf_empty (labeling_of [] []) (fun _ => 0))) =
      some (Printed.labeling "[]") :=
  ⟨rfl, rfl,
    (solve_empty_framework (setting_of default_options aaf_empty (labeling_of [] []) (fun _ => 0))
      rfl rfl).2.elim (fun _ h => h.2.2.2.2.2)⟩

/-- C10: with `escapeoddcycles` set and a NULL result of the odd cycle collection build, `solve`
prints NO and returns before the labeling, the mislabeled set and the loop exist: there is no
loop exit and no final state. -/
theorem solve_occ_unsat (c : Setting) (hesc : c.task.escapeoddcycles = true)
    (hocc : c.occ_init = none) :
    solve c = Outcome.occ_unsat ∧ printed c (solve c) = some Printed.NO ∧
      final_state (solve c) = none ∧ exit_of (solve c) = none := by
  have h : solve c = Outcome.occ_unsat := by simp [solve, hesc, hocc]
  simp [h, printed, final_state, exit_of]

/-- C10 (witness): the three-cycle with `-escapeoddcycles 1`. -/
theorem solve_occ_unsat_witness :
    setting_three_cycle.task.escapeoddcycles = true ∧ setting_three_cycle.occ_init = none ∧
    printed setting_three_cycle (solve setting_three_cycle) = some Printed.NO :=
  ⟨rfl, rfl, (solve_occ_unsat setting_three_cycle rfl rfl).2.1⟩

/-- C4 (evaluation at the failing input): for the attacks `b b`, `c b`, `c d`, `d c` with the
grounded labeling `gr.in = {a}` and `-initout 1`, the self-attacking `b` is selected for an
out-to-in flip in the first iteration; `b` has the attackers `b` and `c`, none of them in
`gr.out`, but the code reads the empty parent list of argument 0, leaves the loop and prints
NO, although the labeling with in-set `{a, c}` is stable. -/
theorem self_loop_break_with_stable_labeling :
    valid_grounded setting_loop_attacked.aaf setting_loop_attacked.grounded ∧
    closed_grounded setting_loop_attacked.aaf setting_loop_attacked.grounded ∧
    setting_loop_attacked.aaf.parents 1 = [1, 2] ∧
    setting_loop_attacked.grounded.out 1 = false ∧
    setting_loop_attacked.grounded.out 2 = false ∧
    setting_loop_attacked.aaf.parents 0 = [] ∧
    exit_of (solve setting_loop_attacked) = some Exit.loop_no_attacker ∧
    holds_finally (solve setting_loop_attacked) (fun s => s.number_iterations = 1) ∧
    init_max_iterations setting_loop_attacked.task setting_loop_attacked.aaf = 4000 ∧
    printed setting_loop_attacked (solve setting_loop_attacked) = some Printed.NO ∧
    stable_labeling setting_loop_attacked.aaf (labeling_of [0, 2] []) := by
  refine ⟨by decide, by decide, by decide, by decide, by decide, by decide, by decide!,
    by decide!, by decide, by decide!, by decide⟩

/-- In the self-loop scenario: the mislabeled set is `[0]`, and a heap, when greedy moves are
enabled, exists and holds nothing but an entry for argument 0. -/
theorem self_loop_search_step (c : Setting) (hc : self_loop_scenario c) (s : St)
    (hmis : s.mislabeled = [0])
    (hpq : c.task.greedyprob_pos = true → ∃ k, s.mislabeled_pqueue = some [(0, k)]) :
    ∃ s1, search_step c s = Step.next s1 ∧ s1.mislabeled = [0] ∧
      (c.task.greedyprob_pos = true → ∃ k, s1.mislabeled_pqueue = some [(0, k)]) ∧
      s1.number_iterations = s.number_iterations ∧ s1.flipped = s.flipped ++ [0] := by
  obtain ⟨ha, hg, _, _, _, _, hesc, hloc, hcons, hfuel⟩ := hc
  have hn : c.aaf.number_of_arguments = 1 := by rw [ha]; rfl
  have hp0 : c.aaf.parents 0 = [0] := by rw [ha]; rfl
  have hc0 : c.aaf.children 0 = [0] := by rw [ha]; rfl
  have hl0 : c.aaf.loops 0 = true := by rw [ha]; rfl
  have hgi : ∀ i, c.grounded.in_ i = false := by intro i; rw [hg]; rfl
  have hgo : ∀ i, c.grounded.out i = false := by intro i; rw [hg]; rfl
  have hlc : ∀ lab : Labeling, taas__labeled_correctly c.aaf lab 0 = false := by
    intro lab
    simp [taas__labeled_correctly, hp0]
  -- selection
  have hsel : ∃ s0, select_argument c s = Except.ok (0, s0) ∧ s0.mislabeled = [0] ∧
      s0.lab = s.lab ∧ s0.number_iterations = s.number_iterations ∧ s0.flipped = s.flipped ∧
      (c.task.greedyprob_pos = true → ∃ h, s0.mislabeled_pqueue = some h ∧
        (h = [] ∨ ∃ k, h = [(0, k)])) := by
    have hrandom : ∃ s0, select_random c { s with rand_calls := s.rand_calls + 1 }
          (c.rand s.rand_calls) = Except.ok (0, s0) ∧ s0.mislabeled = [0] ∧
        s0.lab = s.lab ∧ s0.number_iterations = s.number_iterations ∧ s0.flipped = s.flipped ∧
        s0.mislabeled_pqueue = s.mislabeled_pqueue := by
      unfold select_random
      by_cases hr : c.task.prob_lt_greedyprob_plus_randsel (c.rand s.rand_calls) = true
      · rw [if_pos hr, if_neg (by rw [hn]; decide)]
        obtain ⟨f, hf⟩ : ∃ f, c.rejection_fuel = f + 1 := ⟨c.rejection_fuel - 1, by omega⟩
        rw [hf]
        simp only [rejection_loop, hn, Nat.mod_one, bitset__get_eq, hgi, hgo, Bool.or_self,
          Bool.false_eq_true, if_false]
        exact ⟨_, rfl, hmis, rfl, rfl, rfl, rfl⟩
      · rw [if_neg hr]
        simp only [raset__random_element, hmis, List.length_cons, List.length_nil,
          Nat.reduceAdd, Nat.one_ne_zero, if_false, Nat.mod_one, raset__get]
        exact ⟨_, rfl, rfl, rfl, rfl, rfl, rfl⟩
    unfold select_argument
    by_cases hgr : c.task.prob_lt_greedyprob (c.rand s.rand_calls) = true
    · rw [if_pos hgr]
      obtain ⟨k, hk⟩ := hpq (hcons _ hgr)
      rw [hk]
      simp only [List.length_cons, List.length_nil, Nat.reduceAdd, gt_iff_lt, Nat.lt_one_iff,
        Nat.one_pos, if_true]
      refine ⟨_, rfl, hmis, rfl, rfl, rfl, fun _ => ⟨_, rfl, Or.inl ?_⟩⟩
      simp [binaryheap__extract_minimum, binaryheap__minimum, binaryheap__remove]
    · rw [if_neg hgr]
      obtain ⟨s0, h1, h2, h3, h4, h5, h6⟩ := hrandom
      refine ⟨s0, h1, h2, h3, h4, h5, fun hpos => ?_⟩
      obtain ⟨k, hk⟩ := hpq hpos
      exact ⟨_, by rw [h6]; exact hk, Or.inr ⟨k, rfl⟩⟩
  obtain ⟨s0, hs0, m1, m2, m3, m4, m5⟩ := hsel
  rw [search_step_of_select c s s0 0 hs0 hesc]
  -- toggle
  have htog : ∃ S, toggle_label c { s0 with toBeChecked := [] } 0 = Toggled.done 0 S ∧
      S.mislabeled = [0] ∧ S.toBeChecked = [0] ∧
      S.mislabeled_pqueue = s0.mislabeled_pqueue ∧
      S.number_iterations = s0.number_iterations ∧ S.flipped = s0.flipped ++ [0] := by
    unfold toggle_label
    by_cases hin : s0.lab.in_ 0 = true
    · simp only [taas__lab_get_label, bitset__get_eq, hin, if_true]
      exact ⟨_, rfl, m1, by simp [raset__add], rfl, rfl, rfl⟩
    · simp only [taas__lab_get_label, bitset__get_eq, hin, if_false]
      rw [if_neg (by decide), if_pos hl0, hp0]
      simp only [List.length_cons, List.length_nil, Nat.reduceAdd, Nat.one_ne_zero, if_false,
        Nat.mod_one, llist__get_with_skip, bitset__get_eq, hgo, Bool.not_false, List.filter,
        List.getD_cons_zero]
      unfold label_in
      refine ⟨_, rfl, m1, ?_, rfl, rfl, rfl⟩
      by_cases he : c.task.enforce_out = true
      · simp [he, enforce_out_loop, hp0, hc0, raset__add]
      · simp [he, raset__add]
  obtain ⟨S, hS, t1, t2, t3, t4, t5⟩ := htog
  unfold flip_step
  rw [hS]
  simp only
  -- re-check
  unfold recheck
  simp only [hp0, hc0, t2, List.foldl_cons, List.foldl_nil, raset__add, List.mem_singleton,
    if_true, recheck_loop]
  unfold recheck_element
  simp only [bitset__get_eq, hgi, hgo, Bool.not_false, Bool.and_self, if_true, hlc,
    Bool.true_or, Bool.and_true, t1, raset__add, List.mem_singleton, Bool.false_eq_true,
    Bool.and_false, Bool.false_and, if_false]
  by_cases hpos : c.task.greedyprob_pos = true
  · obtain ⟨h, hh, hcase⟩ := m5 hpos
    rw [if_pos hpos, t3, hh]
    simp only
    refine ⟨_, rfl, rfl, fun _ => ?_, by simp [t4, m3], by simp [t5, m4]⟩
    rcases hcase with hcase | ⟨k, hcase⟩ <;> subst hcase <;>
      simp [binaryheap__update, binaryheap__contains, binaryheap__insert]
  · rw [if_neg hpos]
    exact ⟨_, rfl, rfl, fun hh => absurd hh hpos, by simp [t4, m3], by simp [t5, m4]⟩

theorem self_loop_constants (c : Setting) (hc : self_loop_scenario c) :
    init_max_iterations c.task c.aaf = 1000 ∧ init_restart c.task c.aaf = -1 ∧
    c.task.escapeoddcycles = false ∧ c.task.locminres_pos = false := by
  obtain ⟨ha, _, h1, h2, h3, h4, hesc, hloc, _, _⟩ := hc
  refine ⟨?_, ?_, hesc, hloc⟩
  · simp only [init_max_iterations, h3, h4, ha]
    decide
  · simp only [init_restart, h1, h2]

theorem self_loop_first_iteration (c : Setting) (hc : self_loop_scenario c) :
    ∃ s1, iteration c (init_state c) = Step.next s1 ∧ s1.mislabeled = [0] ∧
      (c.task.greedyprob_pos = true → ∃ k, s1.mislabeled_pqueue = some [(0, k)]) ∧
      s1.number_iterations = 1 ∧ s1.flipped = [0] := by
  obtain ⟨hM, _, _, hloc⟩ := self_loop_constants c hc
  have hc1 := hc
  obtain ⟨ha, hg, _, _, _, _, _, _, _, _⟩ := hc1
  have hn : c.aaf.number_of_arguments = 1 := by rw [ha]; rfl
  have hp0 : c.aaf.parents 0 = [0] := by rw [ha]; rfl
  have hgi : ∀ i, c.grounded.in_ i = false := by intro i; rw [hg]; rfl
  have hgo : ∀ i, c.grounded.out i = false := by intro i; rw [hg]; rfl
  have hlc : ∀ lab : Labeling, taas__labeled_correctly c.aaf lab 0 = false := by
    intro lab
    simp [taas__labeled_correctly, hp0]
  have hrebuild : ∀ lab : Labeling, rebuild_mislabeled c lab = [0] := by
    intro lab
    simp [rebuild_mislabeled, hn, List.range_succ, hgi, hgo, hlc, raset__add]
  have hmis : (restart_labeling c (init_state c)).mislabeled = [0] := by
    rw [(restart_labeling_spec c (init_state c)).1, hrebuild]
  have hsm : store_minimum c (restart_labeling c (init_state c)) =
      restart_labeling c (init_state c) := by
    simp [store_minimum, hloc]
  have hnext : restart_phase c (init_state c) =
      Step.next (reset_heap c (restart_labeling c (init_state c))) := by
    rw [restart_phase_first c _ rfl, local_minimum_check_off c _ hloc]
    unfold restart_block
    rw [if_neg (by rw [hmis]; decide), hsm]
  obtain ⟨r1, r2, r3, r4, _, r6⟩ := reset_heap_frame c (restart_labeling c (init_state c))
  have hit := iteration_of_restart_next c _ _ hnext (by
    rw [hM, r3]
    simp [restart_labeling, init_state])
  have hpq : c.task.greedyprob_pos = true → ∃ k,
      (reset_heap c (restart_labeling c (init_state c))).mislabeled_pqueue = some [(0, k)] := by
    intro hpos
    refine ⟨get_flipping_count c.aaf (restart_labeling c (init_state c)).lab 0, ?_⟩
    simp only [reset_heap, hpos, if_true, hmis, build_heap, hn, List.range_succ,
      List.range_zero, List.nil_append, List.foldl_cons, List.foldl_nil, bitset__get_eq, hgi,
      hgo, Bool.not_false, Bool.and_self, binaryheap__insert, List.length_cons,
      List.length_nil, Nat.reduceAdd, raset__get, List.getD_cons_zero]
    split <;> rfl
  obtain ⟨s1, hs1, m1, m2, m3, m4⟩ := self_loop_search_step c hc
    { reset_heap c (restart_labeling c (init_state c)) with
      number_iterations :=
        (reset_heap c (restart_labeling c (init_state c))).number_iterations + 1 }
    (by show (reset_heap c (restart_labeling c (init_state c))).mislabeled = [0]
        rw [r2, hmis])
    hpq
  refine ⟨s1, by rw [hit, hs1], m1, m2, ?_, ?_⟩
  · rw [m3]
    show (reset_heap c (restart_labeling c (init_state c))).number_iterations + 1 = 1
    rw [r3]
    rfl
  · rw [m4]
    show (reset_heap c (restart_labeling c (init_state c))).flipped ++ [0] = [0]
    rw [r4]
    rfl

theorem self_loop_later_iteration (c : Setting) (hc : self_loop_scenario c) (s : St)
    (hmis : s.mislabeled = [0])
    (hpq : c.task.greedyprob_pos = true → ∃ k, s.mislabeled_pqueue = some [(0, k)])
    (hn : 1 ≤ s.number_iterations) :
    (s.number_iterations + 1 < 1000 →
      ∃ s1, iteration c s = Step.next s1 ∧ s1.mislabeled = [0] ∧
        (c.task.greedyprob_pos = true → ∃ k, s1.mislabeled_pqueue = some [(0, k)]) ∧
        s1.number_iterations = s.number_iterations + 1 ∧ s1.flipped = s.flipped ++ [0]) ∧
    (1000 ≤ s.number_iterations + 1 →
      iteration c s = Step.stop Exit.iteration_cap
        { s with number_iterations := s.number_iterations + 1 }) := by
  obtain ⟨hM, hR, _, hloc⟩ := self_loop_constants c hc
  have hnext : restart_phase c s = Step.next s :=
    restart_phase_no_restart c s hloc hR (by omega)
  constructor
  · intro hlt
    have hit := iteration_of_restart_next c _ _ hnext (by rw [hM]; omega)
    obtain ⟨s1, hs1, m1, m2, m3, m4⟩ := self_loop_search_step c hc
      { s with number_iterations := s.number_iterations + 1 } hmis hpq
    exact ⟨s1, by rw [hit, hs1], m1, m2, m3, m4⟩
  · intro hge
    unfold iteration
    rw [hnext]
    simp only
    rcases iteration_cap_spec c s with ⟨hic, _⟩ | ⟨_, hcap⟩
    · rw [hic]
    · rw [hM] at hcap
      omega

theorem self_loop_main_loop (c : Setting) (hc : self_loop_scenario c) (d : Nat) :
    ∀ (fuel : Nat) (s : St), s.mislabeled = [0] →
      (c.task.greedyprob_pos = true → ∃ k, s.mislabeled_pqueue = some [(0, k)]) →
      1 ≤ s.number_iterations → s.number_iterations + d = 999 → d + 1 ≤ fuel →
      ∃ s1, main_loop c fuel s = Outcome.finished Exit.iteration_cap s1 ∧
        s1.number_iterations = 1000 ∧ s1.mislabeled = [0] ∧
        s1.flipped = s.flipped ++ List.replicate d 0 := by
  induction d with
  | zero =>
    intro fuel s hmis hpq hn hd hf
    obtain ⟨f, rfl⟩ : ∃ f, fuel = f + 1 := ⟨fuel - 1, by omega⟩
    rw [main_loop_succ, (self_loop_later_iteration c hc s hmis hpq hn).2 (by omega)]
    exact ⟨_, rfl, by simp; omega, hmis, by simp⟩
  | succ d ih =>
    intro fuel s hmis hpq hn hd hf
    obtain ⟨f, rfl⟩ : ∃ f, fuel = f + 1 := ⟨fuel - 1, by omega⟩
    obtain ⟨s1, hs1, m1, m2, m3, m4⟩ :=
      (self_loop_later_iteration c hc s hmis hpq hn).1 (by omega)
    rw [main_loop_succ, hs1]
    simp only [m1, List.length_cons, List.length_nil, Nat.reduceAdd, gt_iff_lt, Nat.lt_one_iff,
      Nat.one_pos, if_true]
    obtain ⟨s2, hs2, k1, k2, k3⟩ := ih f s1 m1 m2 (by omega) (by omega) (by omega)
    refine ⟨s2, hs2, k1, k2, ?_⟩
    rw [k3, m4, List.append_assoc]
    rfl

/-- C9: for the single argument `a` with the attack `a a` and nothing fixed, for every random
stream and every setting of `greedyprob`, `greedyincall`, `randsel`, `initout` and `enforceout`
(the other options at their defaults): `solve` prints NO; the loop is left at the iteration
cap of 1000 with the mislabeled set `[a]`, after 999 toggle steps, every one of them on `a`
(with `enforceout` the propagation labels `a`, its own neighbour, out again after the toggle
has labeled it in). -/
theorem solve_self_loop (c : Setting) (hc : self_loop_scenario c) :
    init_max_iterations c.task c.aaf = 1000 ∧
    ∃ s, solve c = Outcome.finished Exit.iteration_cap s ∧ s.number_iterations = 1000 ∧
      s.mislabeled = [0] ∧ s.flipped = List.replicate 999 0 ∧
      printed c (solve c) = some Printed.NO := by
  obtain ⟨hM, _, hesc, _⟩ := self_loop_constants c hc
  refine ⟨hM, ?_⟩
  have hsolve : solve c = main_loop c (1000 + 1) (init_state c) := by
    simp [solve, hesc, hM]
  obtain ⟨s1, hs1, m1, m2, m3, m4⟩ := self_loop_first_iteration c hc
  obtain ⟨s2, hs2, k1, k2, k3⟩ := self_loop_main_loop c hc 998 1000 s1 m1 m2 (by omega)
    (by omega) (by omega)
  have hfin : solve c = Outcome.finished Exit.iteration_cap s2 := by
    rw [hsolve, main_loop_succ, hs1]
    simp only [m1, List.length_cons, List.length_nil, Nat.reduceAdd, gt_iff_lt, Nat.lt_one_iff,
      Nat.one_pos, if_true]
    exact hs2
  refine ⟨s2, hfin, k1, k2, ?_, ?_⟩
  · rw [k3, m4]
    rfl
  · rw [hfin]
    simp [printed, k2]

/-- C9 (witness): the options `-greedyprob 0.5 -randsel 0.3 -initout 1 -enforceout 1`. -/
theorem solve_self_loop_witness :
    self_loop_scenario
      (setting_of options_mixed_moves aaf_self_loop (labeling_of [] []) (fun i => i)) ∧
    printed (setting_of options_mixed_moves aaf_self_loop (labeling_of [] []) (fun i => i))
        (solve (setting_of options_mixed_moves aaf_self_loop (labeling_of [] []) (fun i => i))) =
      some Printed.NO :=
  ⟨⟨rfl, rfl, rfl, rfl, rfl, rfl, rfl, rfl, fun _ _ => rfl, by decide⟩,
    (solve_self_loop
      (setting_of options_mixed_moves aaf_self_loop (labeling_of [] []) (fun i => i))
      ⟨rfl, rfl, rfl, rfl, rfl, rfl, rfl, rfl, fun _ _ => rfl, by decide⟩).2.elim
      (fun _ h => h.2.2.2.2)⟩

/-! ## Determinism and the iteration options -/

/-- C11 (evaluation at the failing input): two runs on the two-cycle with `-locminres 2`, the
same options, grounded labeling and random stream (1, 0, 1, ...), which differ only in the
content of the local `min_mislabeled` before its first assignment (1 and 0). With 1 the first
local minimum check assigns the minimum and the random labeling is drawn from the first two
values; with 0 the check draws one value before the labeling is drawn. The first run prints
`[a]` after two calls of `rand()`, the second `[b]` after three. -/
theorem output_depends_on_unassigned_local :
    (setting_locminres 1).task = (setting_locminres 0).task ∧
    (setting_locminres 1).aaf = (setting_locminres 0).aaf ∧
    (setting_locminres 1).grounded = (setting_locminres 0).grounded ∧
    (setting_locminres 1).rand = (setting_locminres 0).rand ∧
    (setting_locminres 1).task.locminres_pos = true ∧
    printed (setting_locminres 1) (solve (setting_locminres 1)) =
      some (Printed.labeling "[a]") ∧
    printed (setting_locminres 0) (solve (setting_locminres 0)) =
      some (Printed.labeling "[b]") ∧
    holds_finally (solve (setting_locminres 1)) (fun s => s.rand_calls = 2) ∧
    holds_finally (solve (setting_locminres 0)) (fun s => s.rand_calls = 3) := by
  refine ⟨rfl, rfl, rfl, rfl, rfl, by decide!, by decide!, by decide!, by decide!⟩

theorem wrap_int_of_int_range (x : Int) (h1 : -2147483648 ≤ x) (h2 : x ≤ 2147483647) :
    wrap_int x = x := by
  unfold wrap_int
  omega

/-- C12 (counterexample): with `-maxit 5 -maxitdyn 1500000000 -restart 5
-restartdyn 1500000000` on two arguments the `int` product `1500000000 * 2` is -1294967296,
and both `init_max_iterations` and `init_restart` return 5, which is the smaller of `X = 5`
and `Y·n = 3000000000`. -/
theorem init_returns_the_smaller_on_overflow :
    options_large_factor.maxit = some 5 ∧
    options_large_factor.maxitdyn = some 1500000000 ∧
    options_large_factor.restart_param = some 5 ∧
    options_large_factor.restartdyn_param = some 1500000000 ∧
    aaf_two_cycle.number_of_arguments = 2 ∧
    wrap_int (1500000000 * aaf_two_cycle.number_of_arguments) = -1294967296 ∧
    init_max_iterations options_large_factor aaf_two_cycle = 5 ∧
    init_restart options_large_factor aaf_two_cycle = 5 ∧
    max (5 : Int) (1500000000 * aaf_two_cycle.number_of_arguments) = 3000000000 ∧
    init_max_iterations options_large_factor aaf_two_cycle ≠
      max 5 (1500000000 * aaf_two_cycle.number_of_arguments) ∧
    init_restart options_large_factor aaf_two_cycle ≠
      max 5 (1500000000 * aaf_two_cycle.number_of_arguments) := by
  decide

/-- C12 (amended): when both `-maxit X` and `-maxitdyn Y` are supplied, `init_max_iterations`
returns the larger of `X` and the `int` product `Y * n` (taken with 32-bit wrap-around), which
is the larger of `X` and `Y·n` whenever `Y·n` is in the range of `int`; the same for
`init_restart` with `-restart X` and `-restartdyn Y`. -/
theorem init_returns_the_larger (task : Options) (aaf : AAF) (X Y : Int) :
    (task.maxit = some X → task.maxitdyn = some Y →
      init_max_iterations task aaf = max X (wrap_int (Y * aaf.number_of_arguments)) ∧
      (-2147483648 ≤ Y * aaf.number_of_arguments → Y * aaf.number_of_arguments ≤ 2147483647 →
        init_max_iterations task aaf = max X (Y * aaf.number_of_arguments))) ∧
    (task.restart_param = some X → task.restartdyn_param = some Y →
      init_restart task aaf = max X (wrap_int (Y * aaf.number_of_arguments)) ∧
      (-2147483648 ≤ Y * aaf.number_of_arguments → Y * aaf.number_of_arguments ≤ 2147483647 →
        init_restart task aaf = max X (Y * aaf.number_of_arguments))) := by
  have hmax : ∀ a b : Int, (if a > b then a else b) = max b a := by
    intro a b
    split
    · rename_i h; exact (max_eq_right (le_of_lt h)).symm
    · rename_i h; exact (max_eq_left (not_lt.mp h)).symm
  constructor
  · intro hX hY
    have h : init_max_iterations task aaf = max X (wrap_int (Y * aaf.number_of_arguments)) := by
      simp only [init_max_iterations, hX, hY]
      exact hmax _ _
    refine ⟨h, fun h1 h2 => ?_⟩
    rw [h, wrap_int_of_int_range _ h1 h2]
  · intro hX hY
    have h : init_restart task aaf = max X (wrap_int (Y * aaf.number_of_arguments)) := by
      simp only [init_restart, hX, hY]
      exact hmax _ _
    refine ⟨h, fun h1 h2 => ?_⟩
    rw [h, wrap_int_of_int_range _ h1 h2]

/-- C12 (witness): `-maxit 10 -maxitdyn 1 -restart 7 -restartdyn 2` on two arguments. -/
theorem init_returns_the_larger_witness :
    init_max_iterations options_both_given aaf_two_cycle = max 10 (1 * 2) ∧
    init_restart options_both_given aaf_two_cycle = max 7 (2 * 2) :=
  ⟨((init_returns_the_larger options_both_given aaf_two_cycle 10 1).1 rfl rfl).2
      (by decide) (by decide),
    ((init_returns_the_larger options_both_given aaf_two_cycle 7 2).2 rfl rfl).2
      (by decide) (by decide)⟩

/-- C13 (evaluation at the failing input): with `-maxit 10 -maxitdyn 1` on two arguments the
cap is 10, not the minimum 2 of 10 and 1·2; with `-restart 7 -restartdyn 2` the restart
interval is 7, not the minimum 4 of 7 and 2·2. -/
theorem init_does_not_return_the_smaller :
    options_both_given.maxit = some 10 ∧ options_both_given.maxitdyn = some 1 ∧
    options_both_given.restart_param = some 7 ∧ options_both_given.restartdyn_param = some 2 ∧
    aaf_two_cycle.number_of_arguments = 2 ∧
    init_max_iterations options_both_given aaf_two_cycle = 10 ∧
    min (10 : Int) (1 * 2) = 2 ∧
    init_restart options_both_given aaf_two_cycle = 7 ∧
    min (7 : Int) (2 * 2) = 4 := by
  refine ⟨rfl, rfl, rfl, rfl, rfl, by decide, by decide, by decide, by decide⟩

/-- C14 (evaluation at the failing input): with `-restartdyn -1` on two arguments the resolved
restart value is -2, so the restart condition holds at every even iteration counter; in the
run on two self-attacking arguments with `-maxit 6` (no local minimum restarts) the restart
block is entered three times, at the counter values 0, 2 and 4. Without both options, or with
`-restart -1` alone, the resolved value is -1 and the condition is `force_restart`. -/
theorem restartdyn_minus_one_restarts :
    options_restartdyn_minus_one.restart_param = none ∧
    options_restartdyn_minus_one.restartdyn_param = some (-1) ∧
    options_restartdyn_minus_one.locminres_pos = false ∧
    init_restart options_restartdyn_minus_one aaf_two_loops = -2 ∧
    (∀ s force, s.number_iterations = 2 →
      restart_condition setting_restartdyn_minus_one s force = Except.ok true) ∧
    holds_finally (solve setting_restartdyn_minus_one)
      (fun s => s.restarts = 3 ∧ s.number_iterations = 6) ∧
    (∀ (task : Options) (aaf : AAF), task.restartdyn_param = none →
      (task.restart_param = none ∨ task.restart_param = some (-1)) →
      init_restart task aaf = -1) := by
  refine ⟨rfl, rfl, rfl, by decide, ?_, by decide!, ?_⟩
  · intro s force hs
    have h : init_restart setting_restartdyn_minus_one.task setting_restartdyn_minus_one.aaf
        = -2 := by decide
    simp [restart_condition, hs, h]
  · intro task aaf hd hr
    rcases hr with hr | hr <;> simp [init_restart, hd, hr]

/-! ## Command line -/

/-- C15 (evaluation at the failing input): for `argv = taas-haywood -p SE-ST -p SE-ST`, which
has no `-f`, `--formats` or `--problems`, the counter `param` reaches 2 and
`taas__cmd_handle` returns a task whose `file` was never assigned. -/
theorem cmd_handle_returns_task_without_file :
    "-f" ∉ ["taas-haywood", "-p", "SE-ST", "-p", "SE-ST"] ∧
    "--formats" ∉ ["taas-haywood", "-p", "SE-ST", "-p", "SE-ST"] ∧
    "--problems" ∉ ["taas-haywood", "-p", "SE-ST", "-p", "SE-ST"] ∧
    cmd_loop haywood_information ["-p", "SE-ST", "-p", "SE-ST"] new_task 0 =
      Except.ok ({ new_task with track := CharPtr.str "SE-ST" }, 2) ∧
    taas__cmd_handle ["taas-haywood", "-p", "SE-ST", "-p", "SE-ST"] haywood_information =
      CmdResult.task
        { new_task with
          track := CharPtr.str "SE-ST"
          problem := CharPtr.str "SE"
          arg := some (-1) } ∧
    new_task.file = CharPtr.unset := by
  refine ⟨by decide, by decide, by decide, by rfl, by decide, rfl⟩

theorem cmd_loop_key_value_tokens (info : SolverInformation) :
    ∀ (pairs : List (String × String)) (task : TaskSpecification) (param : Nat),
      (∀ p ∈ pairs, p.1 ∉ option_tokens) →
      cmd_loop info (key_value_tokens pairs) task param =
        Except.ok
          ({ task with
              number_of_additional_arguments :=
                task.number_of_additional_arguments + pairs.length
              additional_keys := task.additional_keys ++ pairs.map Prod.fst
              additional_values :=
                task.additional_values ++ pairs.map (fun p => CharPtr.str p.2) },
            param) := by
  intro pairs
  induction pairs with
  | nil => intro task param _; simp [key_value_tokens, cmd_loop]
  | cons p rest ih =>
    intro task param h
    obtain ⟨k, v⟩ := p
    have hk : k ∉ option_tokens := h (k, v) (List.mem_cons_self _ _)
    simp only [option_tokens, List.mem_cons, List.mem_singleton, List.not_mem_nil, or_false,
      not_or] at hk
    obtain ⟨h1, h2, h3, h4, h5⟩ := hk
    have hstep : cmd_option info task param k (CharPtr.str v) =
        Except.ok
          ({ task with
              number_of_additional_arguments := task.number_of_additional_arguments + 1
              additional_keys := task.additional_keys ++ [k]
              additional_values := task.additional_values ++ [CharPtr.str v] },
            param) := by
      simp [cmd_option, h1, h2, h3, h4, h5]
    simp only [key_value_tokens, cmd_loop, hstep]
    rw [ih _ _ (fun q hq => h q (List.mem_cons_of_mem _ hq))]
    simp [Nat.add_assoc, Nat.add_comm 1]

theorem task_get_value_loop_spec (task : TaskSpecification) (key : String)
    (pairs : List (String × String))
    (hkeys : task.additional_keys = pairs.map Prod.fst)
    (hvalues : task.additional_values = pairs.map (fun p => CharPtr.str p.2)) :
    ∀ (k i : Nat), i + k = pairs.length →
      task_get_value_loop task key i k =
        match (pairs.drop i).find? (fun p => p.1 = key) with
        | some p => CharPtr.str p.2
        | none => CharPtr.null := by
  intro k
  induction k with
  | zero =>
    intro i hi
    have : pairs.drop i = [] := List.drop_eq_nil_of_le (by omega)
    simp [task_get_value_loop, this]
  | succ k ih =>
    intro i hi
    have hlt : i < pairs.length := by omega
    have hdrop : pairs.drop i = pairs[i] :: pairs.drop (i + 1) := List.drop_eq_getElem_cons hlt
    rw [task_get_value_loop, hdrop, List.find?_cons, hkeys, hvalues]
    by_cases hk : pairs[i].1 = key
    · simp [hk, List.getD, hlt]
    · have := ih (i + 1) (by omega)
      simp [hk, hlt, this]

/-- C16: for `argv = exe -p T -f F k1 v1 ... km vm` with keys other than `-p`, `-f`, `-a`,
`--formats`, `--problems`, `taas__cmd_handle` returns a task with track `T` and file `F` that
records the m keys and the m values in order, and `taas__task_get_value(task, k)` returns the
value of the first pair whose key is `k`, and `NULL` when no key is `k`. -/
theorem additional_arguments_recorded (info : SolverInformation) (exe T F : String)
    (pairs : List (String × String)) (hkeys : ∀ p ∈ pairs, p.1 ∉ option_tokens) :
    ∃ t : TaskSpecification,
      taas__cmd_handle (exe :: "-p" :: T :: "-f" :: F :: key_value_tokens pairs) info =
        CmdResult.task t ∧
      t.track = CharPtr.str T ∧ t.file = CharPtr.str F ∧
      t.number_of_additional_arguments = pairs.length ∧
      t.additional_keys = pairs.map Prod.fst ∧
      t.additional_values = pairs.map (fun p => CharPtr.str p.2) ∧
      ∀ k : String,
        taas__task_get_value t k =
          match pairs.find? (fun p => p.1 = k) with
          | some p => CharPtr.str p.2
          | none => CharPtr.null := by
  have hloop := cmd_loop_key_value_tokens info pairs
    { new_task with track := CharPtr.str T, file := CharPtr.str F } 2 hkeys
  refine ⟨{ new_task with
      track := CharPtr.str T
      file := CharPtr.str F
      problem := CharPtr.str (T.take 2)
      arg := some (-1)
      number_of_additional_arguments := pairs.length
      additional_keys := pairs.map Prod.fst
      additional_values := pairs.map (fun p => CharPtr.str p.2) }, ?_, rfl, rfl, rfl, rfl, rfl, ?_⟩
  · simp only [taas__cmd_handle, List.drop_succ_cons, List.drop_zero, cmd_loop, cmd_option]
    simp only [new_task] at hloop
    simp [new_task, hloop]
  · intro k
    have := task_get_value_loop_spec
      { new_task with
        track := CharPtr.str T
        file := CharPtr.str F
        problem := CharPtr.str (T.take 2)
        arg := some (-1)
        number_of_additional_arguments := pairs.length
        additional_keys := pairs.map Prod.fst
        additional_values := pairs.map (fun p => CharPtr.str p.2) } k pairs rfl rfl
      pairs.length 0 (by simp)
    simpa [taas__task_get_value] using this

/-- C16 (witness): `taas-haywood -p SE-ST -f x.tgf -rseed 5 -maxit 9 -rseed 7`; the value
found for `-rseed` is that of its first occurrence. -/
theorem additional_arguments_recorded_witness :
    (∀ p ∈ [("-rseed", "5"), ("-maxit", "9"), ("-rseed", "7")], p.1 ∉ option_tokens) ∧
    ∃ t : TaskSpecification,
      taas__cmd_handle
        ("taas-haywood" :: "-p" :: "SE-ST" :: "-f" :: "x.tgf" ::
          key_value_tokens [("-rseed", "5"), ("-maxit", "9"), ("-rseed", "7")])
        haywood_information = CmdResult.task t ∧
      t.track = CharPtr.str "SE-ST" ∧ t.file = CharPtr.str "x.tgf" ∧
      t.number_of_additional_arguments =
        [("-rseed", "5"), ("-maxit", "9"), ("-rseed", "7")].length ∧
      t.additional_keys = [("-rseed", "5"), ("-maxit", "9"), ("-rseed", "7")].map Prod.fst ∧
      t.additional_values =
        [("-rseed", "5"), ("-maxit", "9"), ("-rseed", "7")].map (fun p => CharPtr.str p.2) ∧
      ∀ k : String,
        taas__task_get_value t k =
          match [("-rseed", "5"), ("-maxit", "9"), ("-rseed", "7")].find? (fun p => p.1 = k) with
          | some p => CharPtr.str p.2
          | none => CharPtr.null :=
  ⟨by decide,
    additional_arguments_recorded haywood_information "taas-haywood" "SE-ST" "x.tgf"
      [("-rseed", "5"), ("-maxit", "9"), ("-rseed", "7")] (by decide)⟩

/-! ## Hash table -/

theorem hash__index_of_range (table : StringHashTable) (string : String)
    (hn : 0 < table.length) (h : 0 ≤ Int.tmod (hash__hashcode string) table.length) :
    hash__index table string =
      Except.ok (Int.tmod (hash__hashcode string) table.length).toNat := by
  unfold hash__index
  have h2 : Int.tmod (hash__hashcode string) table.length < table.length :=
    Int.tmod_lt_of_pos _ hn
  rw [if_neg (by omega), if_pos ⟨h, h2⟩]

theorem hash__insert_all_spec (n : Int) (hn : 0 < n) :
    ∀ (pairs : List (String × Int)) (table : StringHashTable), table.length = n →
      (∀ p ∈ pairs, 0 ≤ Int.tmod (hash__hashcode p.1) n) →
      ∃ table' : StringHashTable,
        hash__insert_all table pairs = Except.ok table' ∧ table'.length = n ∧
        ∀ i, table'.arr i = table.arr i ++
          (pairs.filter (fun p => (Int.tmod (hash__hashcode p.1) n).toNat = i)).map
            (fun p => { string := p.1, value := p.2 }) := by
  intro pairs
  induction pairs with
  | nil => intro table hl _; exact ⟨table, rfl, hl, by simp⟩
  | cons p rest ih =>
    intro table hl hr
    obtain ⟨s, v⟩ := p
    have hs : 0 ≤ Int.tmod (hash__hashcode s) n := hr (s, v) (List.mem_cons_self _ _)
    have hidx := hash__index_of_range table s (by omega) (by rw [hl]; exact hs)
    rw [hl] at hidx
    obtain ⟨table', h1, h2, h3⟩ := ih
      { table with
        arr := fun i =>
          if i = (Int.tmod (hash__hashcode s) n).toNat then
            llist__add (table.arr (Int.tmod (hash__hashcode s) n).toNat)
              { string := s, value := v }
          else table.arr i }
      hl (fun q hq => hr q (List.mem_cons_of_mem _ hq))
    refine ⟨table', ?_, h2, ?_⟩
    · simp only [hash__insert_all, hash__insert, hidx]
      exact h1
    · intro i
      rw [h3 i]
      by_cases hi : i = (Int.tmod (hash__hashcode s) n).toNat
      · subst hi
        simp [llist__add, List.filter_cons]
      · have hi' : ¬ (Int.tmod (hash__hashcode s) n).toNat = i := fun h => hi h.symm
        simp [hi, hi', List.filter_cons]

theorem hash__get_loop_mem (s : String) (v : Int) :
    ∀ (l : List (String × Int)), (l.map Prod.fst).Nodup → (s, v) ∈ l →
      hash__get_loop s (l.map (fun p => { string := p.1, value := p.2 })) = v := by
  intro l
  induction l with
  | nil => intro _ h; cases h
  | cons p rest ih =>
    intro hnd hmem
    obtain ⟨s', v'⟩ := p
    simp only [List.map_cons, List.nodup_cons] at hnd
    simp only [List.map_cons, hash__get_loop]
    rcases List.mem_cons.mp hmem with h | h
    · injection h with h1 h2
      subst h1; subst h2
      simp
    · have hne : s' ≠ s := by
        intro he
        subst he
        exact hnd.1 (List.mem_map.mpr ⟨(s', v), h, rfl⟩)
      rw [if_neg hne]
      exact ih hnd.2 h

theorem hash__get_loop_not_mem (s : String) :
    ∀ (l : List (String × Int)), s ∉ l.map Prod.fst →
      hash__get_loop s (l.map (fun p => { string := p.1, value := p.2 })) = -1 := by
  intro l
  induction l with
  | nil => intro _; rfl
  | cons p rest ih =>
    intro h
    simp only [List.map_cons, List.mem_cons, not_or] at h
    simp only [List.map_cons, hash__get_loop]
    rw [if_neg (fun he => h.1 he.symm)]
    exact ih h.2

/-- C17 (counterexample): on a table initialised with length 0 and nothing inserted,
`hash__get(table, "a")` computes a remainder by zero instead of returning -1; and inserting
the one-byte string with the byte 0xE4 (the `char` -28) into a table of length 2 uses the
index -1. -/
theorem hash__get_undefined :
    hash__insert_all (hash__init 0) [] = Except.ok (hash__init 0) ∧
    hash__get (hash__init 0) "a" = Except.error Undefined.modulo_by_zero ∧
    hash__hashcode "\xe4" = -3555 ∧
    Int.tmod (hash__hashcode "\xe4") 2 = -1 ∧
    hash__insert_all (hash__init 2) [("\xe4", 0)] = Except.error Undefined.out_of_bounds := by
  refine ⟨rfl, rfl, by decide, by decide, by rfl⟩

/-- C17 (amended): for every table initialised by `hash__init` with a length n > 0 and every
sequence of `hash__insert` calls with pairwise distinct strings whose index
`hash__hashcode(s) % n` is not negative, every call is defined, `hash__get(table, s)` returns
the value inserted with `s` for every inserted string, and returns -1 for every string that
was never inserted and whose index is not negative. -/
theorem hash__get_after_inserts (n : Int) (pairs : List (String × Int)) (hn : 0 < n)
    (hdistinct : (pairs.map Prod.fst).Nodup)
    (hrange : ∀ p ∈ pairs, 0 ≤ Int.tmod (hash__hashcode p.1) n) :
    ∃ table : StringHashTable,
      hash__insert_all (hash__init n) pairs = Except.ok table ∧
      (∀ p ∈ pairs, hash__get table p.1 = Except.ok p.2) ∧
      (∀ s : String, s ∉ pairs.map Prod.fst → 0 ≤ Int.tmod (hash__hashcode s) n →
        hash__get table s = Except.ok (-1)) := by
  obtain ⟨table, h1, h2, h3⟩ := hash__insert_all_spec n hn pairs (hash__init n) rfl hrange
  have hsub : ∀ i : Nat, ((pairs.filter
      (fun p => (Int.tmod (hash__hashcode p.1) n).toNat = i)).map Prod.fst).Nodup :=
    fun i => hdistinct.sublist ((List.filter_sublist _).map _)
  refine ⟨table, h1, ?_, ?_⟩
  · intro p hp
    have hidx := hash__index_of_range table p.1 (by omega) (by rw [h2]; exact hrange p hp)
    rw [h2] at hidx
    simp only [hash__get, hidx, h3, hash__init, List.nil_append]
    rw [hash__get_loop_mem p.1 p.2 _ (hsub _) (List.mem_filter.mpr ⟨hp, by simp⟩)]
  · intro s hs hr
    have hidx := hash__index_of_range table s (by omega) (by rw [h2]; exact hr)
    rw [h2] at hidx
    simp only [hash__get, hidx, h3, hash__init, List.nil_append]
    rw [hash__get_loop_not_mem s _ (fun hm => hs ?_)]
    obtain ⟨q, hq, rfl⟩ := List.mem_map.mp hm
    exact List.mem_map.mpr ⟨q, (List.mem_filter.mp hq).1, rfl⟩

/-- C17 (witness): the strings `a`, `b`, `c` with the values 0, 1, 2 in a table of length
3. -/
theorem hash__get_after_inserts_witness :
    (0 : Int) < 3 ∧ ([("a", (0 : Int)), ("b", 1), ("c", 2)].map Prod.fst).Nodup ∧
    (∀ p ∈ [("a", (0 : Int)), ("b", 1), ("c", 2)], 0 ≤ Int.tmod (hash__hashcode p.1) 3) ∧
    ∃ table : StringHashTable,
      hash__insert_all (hash__init 3) [("a", 0), ("b", 1), ("c", 2)] = Except.ok table ∧
      (∀ p ∈ [("a", (0 : Int)), ("b", 1), ("c", 2)], hash__get table p.1 = Except.ok p.2) ∧
      (∀ s : String, s ∉ [("a", (0 : Int)), ("b", 1), ("c", 2)].map Prod.fst →
        0 ≤ Int.tmod (hash__hashcode s) 3 → hash__get table s = Except.ok (-1)) :=
  ⟨by decide, by decide, by decide,
    hash__get_after_inserts 3 [("a", 0), ("b", 1), ("c", 2)] (by decide) (by decide)
      (by decide)⟩

/-! ## Reading the input file -/

/-- C18 (evaluation at the failing input): the file with the arguments
`the_first_argument_of_the_framework`, `the_second_argument_of_the_framework` and the attack
of the first on the second. The first name has 35 bytes, so `strcpy` writes 36 bytes to the 9
bytes of `arg1` and the behaviour of `taas__readFile` is undefined. With the names `a`, `b`
the same file gives `children[0] = [1]` and `parents[1] = [0]`. -/
theorem readFile_adjacency_undefined :
    (trimwhitespace "the_first_argument_of_the_framework\n").length + 1 = 36 ∧
    sizeof_char_pointer + 1 = 9 ∧
    taas__readFile
        ["the_first_argument_of_the_framework\n", "the_second_argument_of_the_framework\n",
          "#\n",
          "the_first_argument_of_the_framework the_second_argument_of_the_framework\n"] =
      Except.error Undefined.out_of_bounds ∧
    (taas__readFile ["a\n", "b\n", "#\n", "a b\n"]).toOption.map
      (fun p => (p.children 0, p.children 1, p.parents 0, p.parents 1)) =
      some ([1], [], [], [0]) := by
  refine ⟨by decide, by decide, by rfl, by decide⟩

/-- C19 (evaluation at the failing input): the file with the one argument
`an_argument_that_nothing_attacks` and no attack. The name has 32 bytes, `strcpy` writes 33
bytes to the 9 bytes of `arg1`, and the behaviour of `taas__readFile` is undefined. With the
name `u` the initial bit of the argument is set and `parents[0]` is empty. -/
theorem readFile_initial_undefined :
    (trimwhitespace "an_argument_that_nothing_attacks\n").length + 1 = 33 ∧
    sizeof_char_pointer + 1 = 9 ∧
    taas__readFile ["an_argument_that_nothing_attacks\n", "#\n"] =
      Except.error Undefined.out_of_bounds ∧
    (taas__readFile ["u\n", "#\n"]).toOption.map
      (fun p => (p.initial.map (fun b => b 0), p.parents 0)) = some (some true, []) := by
  refine ⟨by decide, by decide, by rfl, by decide⟩

/-- C20 (evaluation at the failing input): the file with the one argument
`an_argument_that_attacks_itself` and its attack on itself. The name has 31 bytes, `strcpy`
writes 32 bytes to the 9 bytes of `arg1`, and the behaviour of `taas__readFile` is undefined.
With the name `s` the loops bit is set and the argument is in `children[0]` and
`parents[0]`. -/
theorem readFile_loops_undefined :
    (trimwhitespace "an_argument_that_attacks_itself\n").length + 1 = 32 ∧
    sizeof_char_pointer + 1 = 9 ∧
    taas__readFile
        ["an_argument_that_attacks_itself\n", "#\n",
          "an_argument_that_attacks_itself an_argument_that_attacks_itself\n"] =
      Except.error Undefined.out_of_bounds ∧
    (taas__readFile ["s\n", "#\n", "s s\n"]).toOption.map
      (fun p => (p.loops.map (fun b => b 0), p.children 0, p.parents 0)) =
      some (some true, [0], [0]) := by
  refine ⟨by decide, by decide, by rfl, by decide⟩

/-! ## The reader on files in the input format -/

theorem dropWhile_of_head (p : Char → Bool) (l : List Char)
    (h : ∀ x ∈ l.head?, p x = false) : l.dropWhile p = l := by
  cases l with
  | nil => rfl
  | cons a r =>
    have := h a (by simp)
    simp [List.dropWhile, this]

theorem takeWhile_append_stop (p : Char → Bool) (x : Char) (r : List Char) (hx : p x = false) :
    ∀ l : List Char, (∀ y ∈ l, p y = true) → (l ++ x :: r).takeWhile p = l := by
  intro l
  induction l with
  | nil => intro _; simp [List.takeWhile, hx]
  | cons a l ih =>
    intro h
    have ha := h a (List.mem_cons_self _ _)
    rw [List.cons_append, List.takeWhile_cons, ha]
    simp only [if_true]
    rw [ih (fun y hy => h y (List.mem_cons_of_mem _ hy))]

theorem trim_end_append_newline (cs : List Char)
    (hlast : ∀ x ∈ cs.getLast?, isspace x = false) :
    trim_end (String.mk cs ++ "\n") = String.mk cs := by
  unfold trim_end
  have h1 : (String.mk cs ++ "\n").toList = cs ++ ['\n'] := by
    simp [String.toList, String.data_append]
  rw [h1]
  have h2 : (cs ++ ['\n']).reverse = '\n' :: cs.reverse := by simp
  rw [h2]
  have h3 : List.dropWhile isspace ('\n' :: cs.reverse) = List.dropWhile isspace cs.reverse := by
    rw [List.dropWhile_cons]
    have : isspace '\n' = true := by decide
    simp [this]
  rw [h3, dropWhile_of_head]
  · simp
  · intro x hx
    apply hlast
    simpa [List.head?_reverse] using hx

theorem trimwhitespace_append_newline (cs : List Char)
    (hfirst : ∀ x ∈ cs.head?, isspace x = false)
    (hlast : ∀ x ∈ cs.getLast?, isspace x = false) :
    trimwhitespace (String.mk cs ++ "\n") = String.mk cs := by
  unfold trimwhitespace
  rw [trim_end_append_newline cs hlast]
  show String.mk (List.dropWhile isspace cs) = String.mk cs
  rw [dropWhile_of_head _ _ hfirst]

theorem readable_name_trimwhitespace (n : Nat) (name : String) (h : readable_name n name) :
    trimwhitespace (name ++ "\n") = name := by
  obtain ⟨_, _, hs, _, _⟩ := h
  have := trimwhitespace_append_newline name.data
    (fun x hx => hs x (List.mem_of_mem_head? hx))
    (fun x hx => hs x (List.mem_of_mem_getLast? hx))
  exact this

theorem attack_row_trim_end (n : Nat) (a b : String) (hb : readable_name n b) :
    trim_end (a ++ " " ++ b ++ "\n") = a ++ " " ++ b := by
  obtain ⟨hne, _, hs, _, _⟩ := hb
  have hbne : b.data ≠ [] := fun h => hne (String.ext h)
  have := trim_end_append_newline (a ++ " " ++ b).data (by
    intro x hx
    have hd : (a ++ " " ++ b).data = (a.data ++ [' ']) ++ b.data := by
      simp [String.data_append]
    rw [hd, List.getLast?_append_of_ne_nil _ hbne] at hx
    exact hs x (List.mem_of_mem_getLast? hx))
  exact this

theorem attack_row_trimwhitespace (n : Nat) (a b : String) (ha : readable_name n a)
    (hb : readable_name n b) :
    trimwhitespace (a ++ " " ++ b ++ "\n") = a ++ " " ++ b := by
  unfold trimwhitespace
  rw [attack_row_trim_end n a b hb]
  obtain ⟨hne, _, hs, _, _⟩ := ha
  show String.mk (List.dropWhile isspace (a ++ " " ++ b).data) = a ++ " " ++ b
  rw [dropWhile_of_head]
  intro x hx
  have hane : a.data ≠ [] := fun h => hne (String.ext h)
  have hd : (a ++ " " ++ b).data = a.data ++ ([' '] ++ b.data) := by
    simp [String.data_append]
  rw [hd, List.head?_append_of_ne_nil _ hane] at hx
  exact hs x (List.mem_of_mem_head? hx)

theorem attack_row_split (n : Nat) (a b : String) (ha : readable_name n a) :
    ' ' ∈ (a ++ " " ++ b).toList ∧
    String.mk ((a ++ " " ++ b).toList.take
      ((a ++ " " ++ b).toList.takeWhile (fun ch => ch ≠ ' ')).length) = a ∧
    String.mk ((a ++ " " ++ b).toList.drop
      (((a ++ " " ++ b).toList.takeWhile (fun ch => ch ≠ ' ')).length + 1)) = b := by
  obtain ⟨_, _, hs, _, _⟩ := ha
  have hd : (a ++ " " ++ b).toList = a.data ++ ' ' :: b.data := by
    simp [String.toList, String.data_append]
  have htw : (a.data ++ ' ' :: b.data).takeWhile (fun ch => decide (ch ≠ ' ')) = a.data := by
    apply takeWhile_append_stop
    · simp
    · intro y hy
      have := hs y hy
      simp only [decide_eq_true_eq]
      intro he
      subst he
      exact absurd this (by decide)
  rw [hd, htw]
  refine ⟨by simp, ?_, ?_⟩
  · simp
  · have : (a.data ++ ' ' :: b.data).drop (a.data.length + 1) = b.data := by
      rw [List.drop_append_eq_append_drop]
      simp
    rw [this]

theorem trimwhitespace_sentinel : trimwhitespace "#\n" = "#" := by decide

theorem count_arguments_cons (row : String) (rest : List String) (idx : Nat) :
    count_arguments (row :: rest) idx =
      if trimwhitespace row = "" then count_arguments rest idx
      else if trimwhitespace row = "#" then idx
      else count_arguments rest (idx + 1) := rfl

theorem read_rows_cons (row : String) (rest : List String) (s : ReadState) :
    read_rows (row :: rest) s =
      if trimwhitespace row = "" then read_rows rest s
      else if trimwhitespace row = "#" then read_rows rest (read_sentinel s)
      else
        match (if s.argumentSection then read_argument s row else read_attack s row) with
        | Except.error u => Except.error u
        | Except.ok s' => read_rows rest s' := rfl

theorem count_arguments_names (n : Nat) (rest : List String) :
    ∀ (names' : List String) (idx : Nat), (∀ name ∈ names', readable_name n name) →
      count_arguments (names'.map (fun name => name ++ "\n") ++ "#\n" :: rest) idx =
        idx + names'.length := by
  intro names'
  induction names' with
  | nil =>
    intro idx _
    simp [count_arguments_cons, trimwhitespace_sentinel]
  | cons name r ih =>
    intro idx h
    have hn := h name (List.mem_cons_self _ _)
    have ht := readable_name_trimwhitespace n name hn
    obtain ⟨h1, h2, _, _, _⟩ := hn
    rw [List.map_cons, List.cons_append, count_arguments_cons]
    simp only [ht, h1, h2, if_false]
    rw [ih (idx + 1) (fun x hx => h x (List.mem_cons_of_mem _ hx))]
    simp only [List.length_cons]
    omega

theorem read_rows_names (n : Nat) (rest : List String) :
    ∀ (names' : List String) (s : ReadState) (done : List String) (table' : StringHashTable),
      s.argumentSection = true → s.idx = done.length →
      done.length + names'.length ≤ s.allocated →
      (∀ name ∈ names', readable_name n name) →
      hash__insert_all s.aaf.arguments2ids (indexed_from s.idx names') = Except.ok table' →
      (∀ i, s.aaf.ids2arguments i = done.getD i "") →
      (∀ i, s.aaf.children i = []) → (∀ i, s.aaf.parents i = []) →
      ∃ s' : ReadState,
        read_rows (names'.map (fun name => name ++ "\n") ++ rest) s = read_rows rest s' ∧
        s'.argumentSection = true ∧ s'.idx = done.length + names'.length ∧
        s'.allocated = s.allocated ∧ s'.aaf.arguments2ids = table' ∧
        (∀ i, s'.aaf.ids2arguments i = (done ++ names').getD i "") ∧
        (∀ i, s'.aaf.children i = []) ∧ (∀ i, s'.aaf.parents i = []) := by
  intro names'
  induction names' with
  | nil =>
    intro s done table' hsec hidx _ _ htab hids hch hpa
    simp only [indexed_from, hash__insert_all, Except.ok.injEq] at htab
    exact ⟨s, by simp, hsec, by simp [hidx], rfl, htab, by simpa using hids, hch, hpa⟩
  | cons name r ih =>
    intro s done table' hsec hidx hlen hnames htab hids hch hpa
    have hn := hnames name (List.mem_cons_self _ _)
    have ht := readable_name_trimwhitespace n name hn
    obtain ⟨h1, h2, _, h4, _⟩ := hn
    simp only [List.length_cons] at hlen
    simp only [indexed_from, hash__insert_all] at htab
    cases hins : hash__insert s.aaf.arguments2ids name (s.idx : Int) with
    | error u => rw [hins] at htab; cases htab
    | ok t1 =>
      rw [hins] at htab
      simp only at htab
      have hbuf : ¬ (sizeof_char_pointer + 1 < name.length + 1) := by omega
      have halloc : ¬ (s.allocated ≤ s.idx) := by omega
      obtain ⟨s', e1, e2, e3, e4, e5, e6, e7, e8⟩ := ih
        { s with
          aaf :=
            { s.aaf with
              ids2arguments := fun i => if i = s.idx then name else s.aaf.ids2arguments i
              arguments2ids := t1
              children := fun i => if i = s.idx then [] else s.aaf.children i
              parents := fun i => if i = s.idx then [] else s.aaf.parents i }
          idx := s.idx + 1 }
        (done ++ [name]) table' hsec (by simp [hidx]) (by simp; omega)
        (fun x hx => hnames x (List.mem_cons_of_mem _ hx)) htab
        (by
          intro i
          simp only
          by_cases hi : i = s.idx
          · subst hi
            rw [if_pos rfl, hidx]
            simp [List.getD_eq_getElem?_getD]
          · rw [if_neg hi, hids i]
            rw [hidx] at hi
            simp only [List.getD_eq_getElem?_getD]
            by_cases hlt : i < done.length
            · rw [List.getElem?_append_left hlt]
            · have hgt : done.length < i := by omega
              rw [List.getElem?_eq_none (by omega), List.getElem?_eq_none (by simp; omega)])
        (by intro i; simp only; split <;> simp [hch])
        (by intro i; simp only; split <;> simp [hpa])
      refine ⟨s', ?_, e2, ?_, e4, e5, ?_, e7, e8⟩
      · rw [← e1]
        rw [List.map_cons, List.cons_append, read_rows_cons]
        simp only [ht, h1, h2, if_false, hsec, if_true, read_argument, hbuf, halloc, hins]
      · rw [e3]; simp; omega
      · intro i; rw [e6 i]; simp

theorem indexed_from_fst : ∀ (names : List String) (k : Nat),
    (indexed_from k names).map Prod.fst = names := by
  intro names
  induction names with
  | nil => intro k; rfl
  | cons a r ih => intro k; simp [indexed_from, ih]

theorem mem_indexed_from : ∀ (names : List String) (k j : Nat), j < names.length →
    (names.getD j "", ((k + j : Nat) : Int)) ∈ indexed_from k names := by
  intro names
  induction names with
  | nil => intro k j h; simp at h
  | cons a r ih =>
    intro k j h
    cases j with
    | zero => simp [indexed_from]
    | succ j =>
      have := ih (k + 1) j (by simpa using h)
      simp only [indexed_from, List.mem_cons]
      right
      have he : k + (j + 1) = k + 1 + j := by omega
      rw [he]
      simpa using this

theorem indexed_from_range (n : Nat) : ∀ (names : List String) (k : Nat),
    (∀ name ∈ names, readable_name n name) →
    ∀ p ∈ indexed_from k names, 0 ≤ Int.tmod (hash__hashcode p.1) n := by
  intro names
  induction names with
  | nil => intro k _ p hp; simp [indexed_from] at hp
  | cons a r ih =>
    intro k h p hp
    simp only [indexed_from, List.mem_cons] at hp
    rcases hp with hp | hp
    · subst hp
      exact (h a (List.mem_cons_self _ _)).2.2.2.2
    · exact ih (k + 1) (fun x hx => h x (List.mem_cons_of_mem _ hx)) p hp

theorem hash__get_indexed (names : List String) (hnd : names.Nodup)
    (hr : ∀ name ∈ names, readable_name names.length name) :
    ∃ table : StringHashTable,
      hash__insert_all (hash__init names.length) (indexed_from 0 names) = Except.ok table ∧
      ∀ j, j < names.length → hash__get table (names.getD j "") = Except.ok (j : Int) := by
  by_cases hz : names = []
  · subst hz
    exact ⟨hash__init 0, rfl, fun j hj => by simp at hj⟩
  · have hn : (0 : Int) < (names.length : Nat) := by
      have := List.length_pos.mpr hz
      omega
    have hrange := indexed_from_range names.length names 0 hr
    obtain ⟨table, h1, h2, h3⟩ := hash__insert_all_spec _ hn (indexed_from 0 names)
      (hash__init names.length) rfl hrange
    refine ⟨table, h1, ?_⟩
    intro j hj
    have hmem := mem_indexed_from names 0 j hj
    rw [Nat.zero_add] at hmem
    have hge : 0 ≤ Int.tmod (hash__hashcode (names.getD j "")) names.length :=
      hrange (names.getD j "", (j : Int)) hmem
    have hidx := hash__index_of_range table (names.getD j "") (by rw [h2]; exact hn)
      (by rw [h2]; exact hge)
    rw [h2] at hidx
    have hnd' : ((List.filter
        (fun p : String × Int =>
          decide ((Int.tmod (hash__hashcode p.1) names.length).toNat =
            (Int.tmod (hash__hashcode (names.getD j "")) names.length).toNat))
        (indexed_from 0 names)).map Prod.fst).Nodup := by
      have h0 : ((indexed_from 0 names).map Prod.fst).Nodup := by
        rw [indexed_from_fst]; exact hnd
      exact h0.sublist ((List.filter_sublist _).map _)
    simp only [hash__get, hidx, h3, hash__init, List.nil_append]
    rw [hash__get_loop_mem _ (j : Int) _ hnd' (List.mem_filter.mpr ⟨hmem, by simp⟩)]

theorem getD_mem (names : List String) (j : Nat) (h : j < names.length) :
    names.getD j "" ∈ names := by
  rw [List.getD_eq_getElem?_getD, List.getElem?_eq_getElem h]
  exact List.getElem_mem h

theorem attack_row_not_blank (n : Nat) (a b : String) (ha : readable_name n a) :
    a ++ " " ++ b ≠ "" ∧ a ++ " " ++ b ≠ "#" := by
  have hne : a.data ≠ [] := fun h => ha.1 (String.ext h)
  have hpos := List.length_pos.mpr hne
  have hd : (a ++ " " ++ b).data = a.data ++ ' ' :: b.data := by simp [String.data_append]
  constructor
  · intro h
    have h' := congrArg (fun s => s.data.length) h
    simp only [hd, List.length_append, List.length_cons] at h'
    simp only [List.length_nil] at h'
    omega
  · intro h
    have h' := congrArg (fun s => s.data.length) h
    simp only [hd, List.length_append, List.length_cons] at h'
    simp only [List.length_nil] at h'
    omega

theorem read_attack_spec (names : List String) (done : List (Nat × Nat)) (s : ReadState)
    (e : Nat × Nat) (hr : ∀ name ∈ names, readable_name names.length name)
    (h : attacks_read names done s) (h1 : e.1 < names.length) (h2 : e.2 < names.length) :
    ∃ s' : ReadState,
      read_attack s (attack_row names e) = Except.ok s' ∧
      attacks_read names (done ++ [e]) s' := by
  obtain ⟨i1, i2, i3, i4, i5, i6, i7, i8, ⟨bi, i9, i10⟩, ⟨bl, i11, i12⟩⟩ := h
  have ha := hr _ (getD_mem names e.1 h1)
  have hb := hr _ (getD_mem names e.2 h2)
  have hrow := attack_row_trim_end names.length (names.getD e.1 "") (names.getD e.2 "") hb
  obtain ⟨hm, hs1, hs2⟩ := attack_row_split names.length (names.getD e.1 "")
    (names.getD e.2 "") ha
  have hcond : ¬ ((e.1 : Int) < 0 ∨ (s.allocated : Int) ≤ (e.1 : Int) ∨ (e.2 : Int) < 0 ∨
      (s.allocated : Int) ≤ (e.2 : Int) ∨ (s.aaf.number_of_arguments : Int) ≤ (e.2 : Int)) := by
    rw [i2, i3]
    omega
  unfold read_attack attack_row
  rw [hrow]
  simp only [hm, not_true, if_false, hs1, hs2, i4 _ h1, i4 _ h2, hcond]
  refine ⟨_, rfl, ?_⟩
  · refine ⟨i1, i2, i3, i4, i5, ?_, ?_, ?_, ⟨bitset__unset bi e.2, ?_, ?_⟩, ?_⟩
    · simp [i6]
    · intro i
      simp only [Int.toNat_ofNat, llist__add, i7, aaf_of, List.filter_append, List.map_append]
      by_cases hi : i = e.1
      · subst hi; simp
      · have hi' : ¬ e.1 = i := fun h => hi h.symm
        simp [hi, hi']
    · intro i
      simp only [Int.toNat_ofNat, llist__add, i8, aaf_of, List.filter_append, List.map_append]
      by_cases hi : i = e.2
      · subst hi; simp
      · have hi' : ¬ e.2 = i := fun h => hi h.symm
        simp [hi, hi']
    · simp [i9]
    · intro i
      simp only [Int.toNat_ofNat, bitset__unset, i10, aaf_of, List.any_append]
      by_cases hi : i = e.2
      · subst hi; simp
      · have hi' : ¬ e.2 = i := fun h => hi h.symm
        simp [hi, hi']
    · by_cases he : e.1 = e.2
      · refine ⟨bitset__set bl e.1, ?_, ?_⟩
        · simp [he, i11]
        · intro i
          simp only [bitset__set, i12, aaf_of, List.any_append]
          by_cases hi : i = e.1
          · subst hi; simp [← he]
          · have hi' : ¬ e.1 = i := fun h => hi h.symm
            simp [hi, hi']
      · refine ⟨bl, ?_, ?_⟩
        · have : ¬ ((e.1 : Int) = (e.2 : Int)) := by omega
          simp [this, i11]
        · intro i
          have hfalse : (e.1 == i && e.2 == i) = false := by
            by_cases ha' : e.1 = i
            · by_cases hb' : e.2 = i
              · exact absurd (ha'.trans hb'.symm) he
              · simp [hb']
            · simp [ha']
          simp [i12, aaf_of, List.any_append, hfalse]

theorem read_rows_attacks (names : List String)
    (hr : ∀ name ∈ names, readable_name names.length name) :
    ∀ (attacks' : List (Nat × Nat)) (done : List (Nat × Nat)) (s : ReadState),
      attacks_read names done s →
      (∀ e ∈ attacks', e.1 < names.length ∧ e.2 < names.length) →
      ∃ s' : ReadState,
        read_rows (attacks'.map (attack_row names)) s = Except.ok s' ∧
        attacks_read names (done ++ attacks') s' := by
  intro attacks'
  induction attacks' with
  | nil =>
    intro done s h _
    exact ⟨s, rfl, by simpa using h⟩
  | cons e r ih =>
    intro done s h hb
    obtain ⟨h1, h2⟩ := hb e (List.mem_cons_self _ _)
    have ha := hr _ (getD_mem names e.1 h1)
    have hb' := hr _ (getD_mem names e.2 h2)
    have htrim : trimwhitespace (attack_row names e) =
        names.getD e.1 "" ++ " " ++ names.getD e.2 "" :=
      attack_row_trimwhitespace names.length _ _ ha hb'
    obtain ⟨hn1, hn2⟩ := attack_row_not_blank names.length (names.getD e.1 "")
      (names.getD e.2 "") ha
    obtain ⟨s1, hs1, hinv⟩ := read_attack_spec names done s e hr h h1 h2
    obtain ⟨s', hs', hinv'⟩ := ih (done ++ [e]) s1 hinv
      (fun x hx => hb x (List.mem_cons_of_mem _ hx))
    refine ⟨s', ?_, by simpa using hinv'⟩
    rw [List.map_cons, read_rows_cons, htrim]
    simp only [hn1, hn2, if_false, h.1, hs1]
    exact hs'

theorem AAF_ext (a b : AAF) (h1 : ∀ i, a.ids2arguments i = b.ids2arguments i)
    (h2 : a.number_of_arguments = b.number_of_arguments)
    (h3 : a.number_of_attacks = b.number_of_attacks)
    (h4 : ∀ i, a.children i = b.children i) (h5 : ∀ i, a.parents i = b.parents i)
    (h6 : ∀ i, a.initial i = b.initial i) (h7 : ∀ i, a.loops i = b.loops i) : a = b := by
  cases a
  cases b
  simp only [AAF.mk.injEq]
  exact ⟨funext h1, h2, h3, funext h4, funext h5, funext h6, funext h7⟩

/-- On a file in the input format whose names fit the buffer `arg1` and have an index that is
not negative, `taas__readFile` is defined and builds the framework of the names and attacks
of the file. -/
theorem readFile_file_rows (names : List String) (attacks : List (Nat × Nat))
    (h : readable_file names attacks) :
    ∃ p : ParsedAAF,
      taas__readFile (file_rows names attacks) = Except.ok p ∧
      built_aaf p = some (aaf_of names attacks) := by
  obtain ⟨hnd, hr, hatt⟩ := h
  obtain ⟨table, ht1, ht2⟩ := hash__get_indexed names hnd hr
  have hcount : count_arguments (file_rows names attacks) 0 = names.length := by
    unfold file_rows
    rw [count_arguments_names names.length _ names 0 hr]
    simp
  obtain ⟨s1, e1, e2, e3, e4, e5, e6, e7, e8⟩ := read_rows_names names.length
    ("#\n" :: attacks.map (attack_row names)) names (read_start (file_rows names attacks)) []
    table rfl rfl (by simp [read_start, hcount]) hr
    (by simp only [read_start, hcount]; exact ht1) (by intro i; simp [read_start])
    (fun _ => rfl) (fun _ => rfl)
  have hinv : attacks_read names [] (read_sentinel s1) := by
    refine ⟨rfl, ?_, ?_, ?_, ?_, rfl, ?_, ?_, ⟨_, rfl, ?_⟩, ⟨_, rfl, ?_⟩⟩
    · simp [read_sentinel, e4, read_start, hcount]
    · simp [read_sentinel, e3]
    · intro j hj
      simp only [read_sentinel, e5]
      exact ht2 j hj
    · intro i
      simp only [read_sentinel, e6 i, List.nil_append]
    · intro i; simp [read_sentinel, e7, aaf_of]
    · intro i; simp [read_sentinel, e8, aaf_of]
    · intro i; simp [bitset__setAll, aaf_of]
    · intro i; simp [bitset__unsetAll, aaf_of]
  obtain ⟨s2, f1, f2⟩ := read_rows_attacks names hr attacks [] (read_sentinel s1) hinv hatt
  obtain ⟨_, _, g3, _, g5, g6, g7, g8, ⟨bi, g9, g10⟩, ⟨bl, g11, g12⟩⟩ := f2
  refine ⟨s2.aaf, ?_, ?_⟩
  · unfold taas__readFile
    have : read_rows (file_rows names attacks) (read_start (file_rows names attacks)) =
        Except.ok s2 := by
      have hfr : file_rows names attacks =
          names.map (fun name => name ++ "\n") ++ "#\n" :: attacks.map (attack_row names) := rfl
      rw [hfr] at e1 ⊢
      rw [e1, read_rows_cons]
      simp only [trimwhitespace_sentinel]
      exact f1
    rw [this]
  · unfold built_aaf
    rw [g6, g9, g11]
    simp only [Option.some.injEq]
    apply AAF_ext
    · intro i; exact g5 i
    · simp [g3, aaf_of]
    · simp [aaf_of]
    · intro i; exact g7 i
    · intro i; exact g8 i
    · intro i; exact g10 i
    · intro i; exact g12 i

theorem aaf_of_adjacency (names : List String) (attacks : List (Nat × Nat)) (a b : Nat) :
    ((aaf_of names attacks).children a).count b = attacks.count (a, b) ∧
    ((aaf_of names attacks).parents b).count a = attacks.count (a, b) := by
  simp only [aaf_of]
  induction attacks with
  | nil => simp
  | cons e r ih =>
    obtain ⟨x, y⟩ := e
    simp only [List.filter_cons, List.count_cons]
    by_cases hx : x = a <;> by_cases hy : y = b
    · subst hx; subst hy; simp [ih.1, ih.2]
    · have hy' : ¬ b = y := fun h => hy h.symm
      subst hx; simp [ih.1, ih.2, hy, hy']
    · have hx' : ¬ a = x := fun h => hx h.symm
      subst hy; simp [ih.1, ih.2, hx, hx']
    · simp [ih.1, ih.2, hx, hy]

theorem aaf_of_initial (names : List String) (attacks : List (Nat × Nat)) (a : Nat) :
    ((aaf_of names attacks).initial a = true ↔ (aaf_of names attacks).parents a = []) ∧
    ((aaf_of names attacks).parents a = [] ↔ ∀ e ∈ attacks, e.2 ≠ a) := by
  simp only [aaf_of]
  constructor
  · simp [List.filter_eq_nil_iff]
  · simp [List.filter_eq_nil_iff]

theorem aaf_of_loops (names : List String) (attacks : List (Nat × Nat)) (a : Nat) :
    ((aaf_of names attacks).loops a = true ↔ a ∈ (aaf_of names attacks).children a) ∧
    ((a, a) ∈ attacks →
      a ∈ (aaf_of names attacks).children a ∧ a ∈ (aaf_of names attacks).parents a) := by
  simp only [aaf_of]
  refine ⟨?_, fun h => ⟨?_, ?_⟩⟩
  · simp only [List.any_eq_true, Bool.and_eq_true, beq_iff_eq, List.mem_map, List.mem_filter]
    constructor
    · rintro ⟨e, he, h1, h2⟩
      exact ⟨e, ⟨he, h1⟩, h2⟩
    · rintro ⟨e, ⟨he, h1⟩, h2⟩
      exact ⟨e, he, h1, h2⟩
  · exact List.mem_map.mpr ⟨(a, a), List.mem_filter.mpr ⟨h, by simp⟩, rfl⟩
  · exact List.mem_map.mpr ⟨(a, a), List.mem_filter.mpr ⟨h, by simp⟩, rfl⟩

/-- On a file in the input format whose names fit the buffer `arg1` and have an index that is
not negative, the framework that `taas__readFile` builds has consistent adjacency lists with
the multiplicities of the attack rows, the initial bit of an argument is set exactly when its
list of parents is empty, and the loops bit exactly when the argument is among its
children. -/
theorem readFile_invariants (names : List String) (attacks : List (Nat × Nat))
    (h : readable_file names attacks) :
    ∃ (p : ParsedAAF) (aaf : AAF),
      taas__readFile (file_rows names attacks) = Except.ok p ∧ built_aaf p = some aaf ∧
      (∀ a b, (aaf.children a).count b = (aaf.parents b).count a ∧
        (aaf.children a).count b = attacks.count (a, b)) ∧
      (∀ a, (aaf.initial a = true ↔ aaf.parents a = []) ∧
        (aaf.parents a = [] ↔ ∀ e ∈ attacks, e.2 ≠ a)) ∧
      (∀ a, (aaf.loops a = true ↔ a ∈ aaf.children a) ∧
        ((a, a) ∈ attacks → a ∈ aaf.children a ∧ a ∈ aaf.parents a)) := by
  obtain ⟨p, h1, h2⟩ := readFile_file_rows names attacks h
  refine ⟨p, aaf_of names attacks, h1, h2, ?_, ?_, ?_⟩
  · intro a b
    have := aaf_of_adjacency names attacks a b
    exact ⟨this.1.trans this.2.symm, this.1⟩
  · intro a; exact aaf_of_initial names attacks a
  · intro a; exact aaf_of_loops names attacks a

/-- The file with the rows `a`, `b`, `#`, `a b`, `b a` is read as the two-cycle. -/
theorem readFile_two_cycle :
    readable_file ["a", "b"] [(0, 1), (1, 0)] ∧
    ∃ p : ParsedAAF,
      taas__readFile ["a\n", "b\n", "#\n", "a b\n", "b a\n"] = Except.ok p ∧
      built_aaf p = some aaf_two_cycle :=
  ⟨by decide, readFile_file_rows ["a", "b"] [(0, 1), (1, 0)] (by decide)⟩

/-! ## The flipping count -/

theorem under_assumption_eq_toggled (aaf : AAF) (lab : Labeling) (x arg : Nat) :
    taas__labeled_correctly_under_assumption aaf lab x arg
      (if bitset__get lab.in_ arg then Label.LAB_OUT else Label.LAB_IN) =
    taas__labeled_correctly aaf (toggled lab arg) x := by
  unfold taas__labeled_correctly_under_assumption toggled
  by_cases h : lab.in_ arg = true
  · simp [h, bitset__get]
  · simp [h, bitset__get]

theorem foldl_count_eq (c1 c2 : Nat → Bool) :
    ∀ (l : List Nat) (fc : Int),
      l.foldl (fun (fc : Int) (x : Nat) =>
          fc + (if c1 x then 1 else 0) + (if c2 x then -1 else 0)) fc =
        fc + ((l.filter c1).length : Int) - ((l.filter c2).length : Int) := by
  intro l
  induction l with
  | nil => intro fc; simp
  | cons a r ih =>
    intro fc
    rw [List.foldl_cons, ih]
    by_cases h1 : c1 a = true <;> by_cases h2 : c2 a = true <;>
      simp [List.filter_cons, h1, h2] <;> omega

/-- The value of `get_flipping_count`: the number of correctly labeled entries of the list
`a, children(a), parents(a)` under the labeling minus that number under the labeling with the
label of `a` toggled, every entry of the list counted as often as it occurs. -/
theorem get_flipping_count_eq (aaf : AAF) (lab : Labeling) (a : Nat) :
    get_flipping_count aaf lab a =
      correct_count aaf lab (a :: (aaf.children a ++ aaf.parents a)) -
        correct_count aaf (toggled lab a) (a :: (aaf.children a ++ aaf.parents a)) := by
  unfold get_flipping_count correct_count
  simp only [under_assumption_eq_toggled]
  rw [foldl_count_eq, foldl_count_eq]
  simp only [List.filter_cons, List.filter_append]
  by_cases h1 : taas__labeled_correctly aaf lab a = true <;>
    by_cases h2 : taas__labeled_correctly aaf (toggled lab a) a = true <;>
    simp [h1, h2] <;> omega

/-- When no argument occurs twice in the list `a, children(a), parents(a)`, the value of
`get_flipping_count` is the flip gain of the specification. -/
theorem get_flipping_count_of_nodup (aaf : AAF) (lab : Labeling) (a : Nat)
    (h : (a :: (aaf.children a ++ aaf.parents a)).Nodup) :
    get_flipping_count aaf lab a = flip_gain aaf lab a := by
  rw [get_flipping_count_eq]
  unfold flip_gain neighbourhood
  rw [List.Nodup.dedup h]

/-- C21 (evaluation at the failing inputs): under the all-out labeling of the two-cycle
`a b`, `b a`, the argument `b` is child and parent of `a` and is counted twice:
`get_flipping_count` is -3, the difference over the set `N[a] = {a, b}` is -2. With the attack
`a b` given twice the values are -3 and -2 as well. For the self-attacking `a` attacked by `b`,
with `b` labeled in, `a` is counted three times: the values are 3 and 1. -/
theorem flipping_count_counts_repetitions :
    neighbourhood aaf_two_cycle 0 = [0, 1] ∧
    get_flipping_count aaf_two_cycle (labeling_of [] []) 0 = -3 ∧
    flip_gain aaf_two_cycle (labeling_of [] []) 0 = -2 ∧
    neighbourhood aaf_duplicate_attack 0 = [0, 1] ∧
    get_flipping_count aaf_duplicate_attack (labeling_of [] []) 0 = -3 ∧
    flip_gain aaf_duplicate_attack (labeling_of [] []) 0 = -2 ∧
    neighbourhood aaf_attacked_loop 0 = [0, 1] ∧
    get_flipping_count aaf_attacked_loop (labeling_of [1] []) 0 = 3 ∧
    flip_gain aaf_attacked_loop (labeling_of [1] []) 0 = 1 := by
  refine ⟨by decide, by decide, by decide, by decide, by decide, by decide, by decide,
    by decide, by decide⟩

/-! ## The self-attack replacement, periodic restarts, the remainder by zero -/

/-- C24 (evaluation at the failing inputs): in the framework `a b`, `b a`, `c c` the selected
argument `c` (index 2) is labeled out and self-attacking and `parents(c) = [c]`, but the toggle
step reads the parents of argument 0 and labels `b` in, which is no parent of `c`. In the
framework `b b`, `c b`, `c d`, `d c` with the unattacked `a` at index 0 the selected `b` has
the parents `b`, `c`, none of them in `gr.out`, and the loop is left. -/
theorem self_loop_replacement_reads_argument_zero :
    setting_loop_beside_cycle.aaf.loops 2 = true ∧
    setting_loop_beside_cycle.aaf.parents 2 = [2] ∧
    setting_loop_beside_cycle.aaf.parents 0 = [1] ∧
    (restart_labeling setting_loop_beside_cycle (init_state setting_loop_beside_cycle)).lab.in_ 2
      = false ∧
    written_argument (toggle_label setting_loop_beside_cycle
      (restart_labeling setting_loop_beside_cycle (init_state setting_loop_beside_cycle)) 2)
      = some 1 ∧
    step_holds (iteration setting_loop_beside_cycle (init_state setting_loop_beside_cycle))
      (fun s => s.flipped = [1] ∧ s.mislabeled = [2]) ∧
    setting_loop_attacked.aaf.loops 1 = true ∧
    setting_loop_attacked.aaf.parents 1 = [1, 2] ∧
    setting_loop_attacked.grounded.out 1 = false ∧
    setting_loop_attacked.grounded.out 2 = false ∧
    setting_loop_attacked.aaf.parents 0 = [] ∧
    toggled_exit (toggle_label setting_loop_attacked
      (restart_labeling setting_loop_attacked (init_state setting_loop_attacked)) 1)
      = some Exit.loop_no_attacker := by
  refine ⟨by decide, by decide, by decide, by decide, by decide!, by decide!, by decide,
    by decide, by decide, by decide, by decide, by decide!⟩

/-- C25 (counterexample): with `-restart -2` the resolved restart value is -2, which is not
positive; the restart condition holds at the counter value 2 without a forced restart, and the
run on two self-attacking arguments with `-maxit 6` enters the restart block three times (at
0, 2 and 4). -/
theorem restart_minus_two_restarts :
    options_restart_minus_two.restart_param = some (-2) ∧
    options_restart_minus_two.restartdyn_param = none ∧
    options_restart_minus_two.locminres_pos = false ∧
    init_restart options_restart_minus_two aaf_two_loops = -2 ∧
    (∀ s, s.number_iterations = 2 →
      restart_condition setting_restart_minus_two s false = Except.ok true) ∧
    holds_finally (solve setting_restart_minus_two)
      (fun s => s.restarts = 3 ∧ s.number_iterations = 6) := by
  refine ⟨rfl, rfl, rfl, by decide, ?_, by decide!⟩
  intro s hs
  have h : init_restart setting_restart_minus_two.task setting_restart_minus_two.aaf
      = -2 := by decide
  simp [restart_condition, hs, h]

/-- C25 (amended): at an iteration with counter value k >= 1 and no forced local-minimum
restart, for a resolved restart value other than 0, `solve` enters the restart block (which
re-initialises the labeling) if the value is not -1 and divides k, and goes on without a
restart otherwise; for a positive value, dividing k is `k mod restart = 0`. -/
theorem restart_iff_multiple (c : Setting) (s : St) (hk : 1 ≤ s.number_iterations)
    (hforce : (local_minimum_check c s).1 = false)
    (h0 : init_restart c.task c.aaf ≠ 0) :
    ((init_restart c.task c.aaf ≠ -1 ∧
        init_restart c.task c.aaf ∣ (s.number_iterations : Int)) →
      restart_phase c s = restart_block c (local_minimum_check c s).2) ∧
    (¬ (init_restart c.task c.aaf ≠ -1 ∧
        init_restart c.task c.aaf ∣ (s.number_iterations : Int)) →
      restart_phase c s = Step.next (local_minimum_check c s).2) ∧
    (0 < init_restart c.task c.aaf →
      (init_restart c.task c.aaf ∣ (s.number_iterations : Int) ↔
        (s.number_iterations : Int) % init_restart c.task c.aaf = 0)) := by
  have hit := local_minimum_check_iterations c s
  have hne : (local_minimum_check c s).2.number_iterations ≠ 0 := by rw [hit]; omega
  refine ⟨?_, ?_, ?_⟩
  · rintro ⟨h1, h2⟩
    have h3 := Int.dvd_iff_tmod_eq_zero.mp h2
    unfold restart_phase restart_condition
    rw [hit] at hne ⊢
    simp [hne, h1, h0, h3]
  · intro h
    unfold restart_phase restart_condition
    rw [hit] at hne ⊢
    by_cases h1 : init_restart c.task c.aaf = -1
    · simp [hne, h1, hforce]
    · have h3 : ¬ Int.tmod (s.number_iterations : Int) (init_restart c.task c.aaf) = 0 :=
        fun h3 => h ⟨h1, Int.dvd_iff_tmod_eq_zero.mpr h3⟩
      simp [hne, h1, h0, h3, hforce]
  · intro _
    exact Int.dvd_iff_emod_eq_zero

/-- C25 (witness): `-restart 3` at the counter value 3. -/
theorem restart_iff_multiple_witness :
    1 ≤ state_at_three.number_iterations ∧
    (local_minimum_check setting_restart_three state_at_three).1 = false ∧
    init_restart setting_restart_three.task setting_restart_three.aaf ≠ 0 ∧
    ((init_restart setting_restart_three.task setting_restart_three.aaf ≠ -1 ∧
        init_restart setting_restart_three.task setting_restart_three.aaf ∣
          (state_at_three.number_iterations : Int)) →
      restart_phase setting_restart_three state_at_three =
        restart_block setting_restart_three
          (local_minimum_check setting_restart_three state_at_three).2) ∧
    (¬ (init_restart setting_restart_three.task setting_restart_three.aaf ≠ -1 ∧
        init_restart setting_restart_three.task setting_restart_three.aaf ∣
          (state_at_three.number_iterations : Int)) →
      restart_phase setting_restart_three state_at_three =
        Step.next (local_minimum_check setting_restart_three state_at_three).2) ∧
    (0 < init_restart setting_restart_three.task setting_restart_three.aaf →
      (init_restart setting_restart_three.task setting_restart_three.aaf ∣
          (state_at_three.number_iterations : Int) ↔
        (state_at_three.number_iterations : Int) %
          init_restart setting_restart_three.task setting_restart_three.aaf = 0)) :=
  ⟨by decide, by decide, by decide,
    restart_iff_multiple setting_restart_three state_at_three (by decide) (by decide)
      (by decide)⟩

/-- C26 (evaluation at the failing inputs): on the well-formed framework of two
self-attacking arguments with the (valid) empty grounded labeling, `-restart 0` and
`-restartdyn 0` both resolve to the restart value 0; the test `restart != -1` holds, and at
the second pass of the loop `number_iterations % restart` is evaluated with the divisor 0. -/
theorem restart_zero_remainder_by_zero :
    well_formed aaf_two_loops ∧ valid_grounded aaf_two_loops (labeling_of [] []) ∧
    init_restart setting_restart_zero.task setting_restart_zero.aaf = 0 ∧
    init_restart setting_restartdyn_zero.task setting_restartdyn_zero.aaf = 0 ∧
    (∀ s force, s.number_iterations ≠ 0 →
      restart_condition setting_restart_zero s force = Except.error Fault.modulo_by_zero) ∧
    fault_of (solve setting_restart_zero) = some Fault.modulo_by_zero ∧
    fault_of (solve setting_restartdyn_zero) = some Fault.modulo_by_zero ∧
    printed setting_restart_zero (solve setting_restart_zero) = none := by
  refine ⟨well_formed_aaf_of _ _ (by decide), by decide, by decide, by decide, ?_, by decide!,
    by decide!, by decide!⟩
  intro s force hs
  have h : init_restart setting_restart_zero.task setting_restart_zero.aaf = 0 := by decide
  simp [restart_condition, hs, h]

/-! ## The bucket index -/

/-- C28 (evaluation at the failing inputs): the two-byte string 0xC3 0xA9 has the `char`
values -61 and -87 and the hash code -18795; in a table of length 4 the index
`hash__hashcode(s) % table->length` is -3, so `hash__insert` and `hash__get` access
`table->arr[-3]`. In a table initialised with length 0 the index of every string is a remainder
by zero. -/
theorem hash__index_outside_table :
    "\xc3\xa9".toList.map signed_char = [-61, -87] ∧
    hash__hashcode "\xc3\xa9" = -18795 ∧
    Int.tmod (hash__hashcode "\xc3\xa9") (hash__init 4).length = -3 ∧
    hash__index (hash__init 4) "\xc3\xa9" = Except.error Undefined.out_of_bounds ∧
    (hash__insert (hash__init 4) "\xc3\xa9" 0).toOption.isNone = true ∧
    hash__get (hash__init 4) "\xc3\xa9" = Except.error Undefined.out_of_bounds ∧
    hash__index (hash__init 0) "a" = Except.error Undefined.modulo_by_zero := by
  refine ⟨by decide, by decide, by decide, by rfl, by rfl, by rfl, by rfl⟩

theorem signed_char_of_ascii (ch : Char) (h : ch.toNat < 128) :
    signed_char ch = (ch.toNat : Int) := by
  unfold signed_char
  omega

theorem xor_term_bounds (a : Nat) (b : Int) (ha : a < 128) (hb1 : 0 ≤ b) (hb2 : b < 32768) :
    0 ≤ Int.xor ((a : Int) * 127) b ∧ Int.xor ((a : Int) * 127) b < 32768 := by
  obtain ⟨k, rfl⟩ := Int.eq_ofNat_of_zero_le hb1
  have h1 : ((a : Int) * 127) = ((a * 127 : Nat) : Int) := by push_cast; rfl
  rw [h1]
  have h2 : Int.xor ((a * 127 : Nat) : Int) (k : Int) = ((a * 127 ^^^ k : Nat) : Int) := rfl
  rw [h2]
  have h3 : a * 127 ^^^ k < 2 ^ 15 := Nat.xor_lt_two_pow (by omega) (by omega)
  constructor
  · exact Int.ofNat_nonneg _
  · have : (2 : Nat) ^ 15 = 32768 := by norm_num
    omega

theorem hashcode_loop_bounds (len : Int) (hlen : len < 32768) :
    ∀ (l : List Char) (i h : Int), (∀ ch ∈ l, ch.toNat < 128) → 0 ≤ i →
      i + (l.length : Int) = len → 0 ≤ h → h ≤ i * 32768 →
      0 ≤ hashcode_loop len l i h ∧ hashcode_loop len l i h ≤ len * 32768 := by
  intro l
  induction l with
  | nil =>
    intro i h _ _ hi h0 h1
    simp only [List.length_nil, Int.ofNat_zero, Int.add_zero] at hi
    subst hi
    exact ⟨h0, h1⟩
  | cons ch r ih =>
    intro i h hasc hi0 hi h0 h1
    simp only [List.length_cons, Nat.cast_add, Nat.cast_one] at hi
    have hch := hasc ch (List.mem_cons_self _ _)
    have ht := xor_term_bounds ch.toNat (len - i) hch (by omega) (by omega)
    rw [← signed_char_of_ascii ch hch] at ht
    have hw : wrap_int (h + Int.xor (signed_char ch * 127) (len - i)) =
        h + Int.xor (signed_char ch * 127) (len - i) :=
      wrap_int_of_int_range _ (by omega) (by omega)
    unfold hashcode_loop
    rw [hw]
    exact ih (i + 1) _ (fun x hx => hasc x (List.mem_cons_of_mem _ hx)) (by omega) (by omega)
      (by omega) (by omega)

/-- For a string of fewer than 32768 bytes, all below 128, and a table initialised with a
positive length, the index is defined and lies in `[0, length)`. -/
theorem hash__index_of_ascii (n : Int) (s : String) (hn : 0 < n)
    (hascii : ∀ ch ∈ s.toList, ch.toNat < 128) (hlen : s.length < 32768) :
    ∃ idx : Nat, hash__index (hash__init n) s = Except.ok idx ∧ (idx : Int) < n := by
  have hl : wrap_int (s.length : Int) = (s.length : Int) :=
    wrap_int_of_int_range _ (by omega) (by omega)
  have hb := hashcode_loop_bounds (s.length : Int) (by omega) s.toList 0 0 hascii
    (by omega) (by rw [Int.zero_add]; rfl) (by omega) (by omega)
  have hnn : 0 ≤ hash__hashcode s := by
    unfold hash__hashcode
    rw [hl]
    exact hb.1
  have h1 : 0 ≤ Int.tmod (hash__hashcode s) n := Int.tmod_nonneg _ hnn
  have h2 : Int.tmod (hash__hashcode s) n < n := Int.tmod_lt_of_pos _ hn
  refine ⟨(Int.tmod (hash__hashcode s) n).toNat, ?_, ?_⟩
  · exact hash__index_of_range (hash__init n) s hn h1
  · rw [Int.toNat_of_nonneg h1]
    exact h2

/-! ## The preconditions of the move selection -/

theorem step_holds_iff (r : Step) (P : St → Prop) :
    step_holds r P ↔ ∃ s, r = Step.next s ∧ P s := by
  cases r with
  | next s => simp [step_holds]
  | stop e s => simp [step_holds]
  | fault f => simp [step_holds]

theorem restart_block_heap_ready (c : Setting) (s s1 : St)
    (h : restart_block c s = Step.next s1) : heap_ready c s1 := by
  intro hg
  unfold restart_block at h
  split at h
  · cases h
  · injection h with h
    subst h
    simp [reset_heap, hg]

theorem restart_phase_heap_ready (c : Setting) (s s1 : St)
    (hs : s.number_iterations = 0 ∨ heap_ready c s)
    (h : restart_phase c s = Step.next s1) : heap_ready c s1 := by
  unfold restart_phase at h
  split at h
  · cases h
  · exact restart_block_heap_ready c _ s1 h
  · rename_i hcond
    injection h with h
    subst h
    have hit := local_minimum_check_iterations c s
    rcases hs with hs | hs
    · rw [restart_condition_first c _ _ (by rw [hit]; exact hs)] at hcond
      cases hcond
    · intro hg
      rw [(local_minimum_check_frame c s).2.2.1]
      exact hs hg

theorem recheck_element_heap_ready (c : Setting) (s : St) (elem : Nat)
    (hs : heap_ready c s) :
    ∃ s1, recheck_element c s elem = Except.ok s1 ∧ heap_ready c s1 := by
  unfold recheck_element
  split
  · simp only
    by_cases hg : c.task.greedyprob_pos = true
    · obtain ⟨h, hh⟩ := hs hg
      simp only [hg, hh, Bool.true_and]
      split
      · exact ⟨_, rfl, fun _ => ⟨_, rfl⟩⟩
      · split
        · split
          · exact ⟨_, rfl, fun _ => ⟨_, rfl⟩⟩
          · exact ⟨_, rfl, fun _ => ⟨_, rfl⟩⟩
        · exact ⟨_, rfl, fun _ => ⟨_, rfl⟩⟩
    · simp only [hg, Bool.false_and]
      exact ⟨_, rfl, fun hg' => absurd hg' hg⟩
  · exact ⟨s, rfl, hs⟩

theorem recheck_loop_heap_ready (c : Setting) :
    ∀ (l : List Nat) (s : St), heap_ready c s →
      ∃ s1, recheck_loop c l s = Except.ok s1 ∧ heap_ready c s1 := by
  intro l
  induction l with
  | nil => intro s hs; exact ⟨s, rfl, hs⟩
  | cons elem rest ih =>
    intro s hs
    obtain ⟨s1, h1, h2⟩ := recheck_element_heap_ready c s elem hs
    obtain ⟨s2, h3, h4⟩ := ih s1 h2
    refine ⟨s2, ?_, h4⟩
    unfold recheck_loop
    rw [h1]
    exact h3

theorem binaryheap__minimum_ne_none (h : BinaryHeap) (hl : 0 < h.length) :
    binaryheap__minimum h ≠ none := by
  cases h with
  | nil => simp at hl
  | cons e t =>
    unfold binaryheap__minimum
    split
    · simp
    · split <;> simp

theorem select_random_ready (c : Setting) (s : St) (r : Nat)
    (hm : 0 < s.mislabeled.length) (hn : 0 < c.aaf.number_of_arguments) :
    ∀ f, select_random c s r = Except.error f → f = Fault.rejection_fuel := by
  intro f h
  unfold select_random at h
  split at h
  · rw [if_neg (by omega)] at h
    split at h
    · injection h with h; exact h.symm
    · cases h
  · split at h
    · rename_i hnone
      unfold raset__random_element at hnone
      rw [if_neg (by omega)] at hnone
      cases hnone
    · cases h

theorem select_argument_ready (c : Setting) (s : St)
    (hprob : ∀ r, c.task.prob_lt_greedyprob r = true → c.task.greedyprob_pos = true)
    (hh : heap_ready c s) (hm : 0 < s.mislabeled.length)
    (hn : 0 < c.aaf.number_of_arguments) :
    (∀ f, select_argument c s = Except.error f → f = Fault.rejection_fuel) ∧
    (∀ p, select_argument c s = Except.ok p → heap_ready c p.2) := by
  have hrandom : ∀ p, select_random c { s with rand_calls := s.rand_calls + 1 }
      (c.rand s.rand_calls) = Except.ok p → heap_ready c p.2 := by
    intro p hp hg
    rw [(select_random_spec c _ _ p hp).2.1]
    exact hh hg
  have hrand := select_random_ready c { s with rand_calls := s.rand_calls + 1 }
    (c.rand s.rand_calls) hm hn
  constructor
  · intro f h
    unfold select_argument at h
    split at h
    · rename_i hlt
      obtain ⟨h0, hh0⟩ := hh (hprob _ hlt)
      split at h
      · rename_i hnone
        rw [hh0] at hnone
        cases hnone
      · rename_i h1 hsome
        split at h
        · rename_i hlen
          split at h
          · rename_i hnone
            unfold binaryheap__extract_minimum at hnone
            split at hnone
            · rename_i hmin
              exact absurd hmin (binaryheap__minimum_ne_none h1 hlen)
            · cases hnone
          · cases h
        · exact hrand f h
    · exact hrand f h
  · intro p h
    unfold select_argument at h
    split at h
    · split at h
      · cases h
      · split at h
        · split at h
          · cases h
          · injection h with h
            subst h
            exact fun _ => ⟨_, rfl⟩
        · exact hrandom p h
    · exact hrandom p h

theorem toggle_label_done_pqueue (c : Setting) (s s1 : St) (sel_arg a : Nat)
    (h : toggle_label c s sel_arg = Toggled.done a s1) :
    s1.mislabeled_pqueue = s.mislabeled_pqueue := by
  rcases toggle_label_done c s s1 sel_arg a h with ⟨_, _, h1⟩ | ⟨_, _, s0, _, h2, _, h3⟩
  · rw [h1]
  · rw [(label_in_spec c s0 s1 a a h3).2.2.1, h2]

theorem recheck_ready (c : Setting) (s : St) (a : Nat) (hs : heap_ready c s) :
    ∃ s2, recheck c s a = Step.next s2 ∧ heap_ready c s2 := by
  unfold recheck
  simp only
  generalize (c.aaf.parents a).foldl raset__add
    ((c.aaf.children a).foldl raset__add s.toBeChecked) = L
  obtain ⟨s3, h3, h4⟩ := recheck_loop_heap_ready c L { s with toBeChecked := L } hs
  rw [h3]
  exact ⟨s3, rfl, h4⟩

theorem search_step_ready (c : Setting) (s : St)
    (hprob : ∀ r, c.task.prob_lt_greedyprob r = true → c.task.greedyprob_pos = true)
    (hh : heap_ready c s) (hm : 0 < s.mislabeled.length)
    (hn : 0 < c.aaf.number_of_arguments) :
    (∀ f, search_step c s = Step.fault f → f = Fault.rejection_fuel) ∧
    (∀ s2, search_step c s = Step.next s2 → heap_ready c s2) := by
  obtain ⟨hsel1, hsel2⟩ := select_argument_ready c s hprob hh hm hn
  have hflip : ∀ (p : Nat × St) (sel_arg : Nat), select_argument c s = Except.ok p →
      (∀ f, flip_step c (odd_cycle_escape c { p.2 with toBeChecked := [] } p.1).2 sel_arg
          = Step.fault f → f = Fault.rejection_fuel) ∧
      (∀ s2, flip_step c (odd_cycle_escape c { p.2 with toBeChecked := [] } p.1).2 sel_arg
          = Step.next s2 → heap_ready c s2) := by
    intro p sel_arg hp
    have hE : heap_ready c (odd_cycle_escape c { p.2 with toBeChecked := [] } p.1).2 := by
      intro hg
      rw [(odd_cycle_escape_spec c _ _).2.1]
      exact hsel2 p hp hg
    unfold flip_step
    split
    · exact ⟨fun f h => (by cases h), fun s2 h => (by cases h)⟩
    · rename_i a s1 htog
      have hq := toggle_label_done_pqueue c _ s1 sel_arg a htog
      obtain ⟨s3, h3, h4⟩ := recheck_ready c s1 a
        (by intro hg; rw [hq]; exact hE hg)
      rw [h3]
      refine ⟨fun f h => (by cases h), fun s2 h => ?_⟩
      injection h with h
      subst h
      exact h4
  constructor
  · intro f h
    unfold search_step at h
    split at h
    · injection h with h
      subst h
      rename_i f1 hf1
      exact hsel1 _ hf1
    · rename_i p hp
      split at h
      · cases h
      · exact (hflip p _ hp).1 f h
  · intro s2 h
    unfold search_step at h
    split at h
    · cases h
    · rename_i p hp
      split at h
      · cases h
      · exact (hflip p _ hp).2 s2 h

theorem restart_phase_ready (c : Setting) (s s1 : St) (hs : loop_head c s)
    (hinv : s.number_iterations = 0 ∨
      (heap_ready c s ∧ ∃ a, a < c.aaf.number_of_arguments ∧ not_fixed c.grounded a))
    (h : restart_phase c s = Step.next s1) :
    0 < s1.mislabeled.length ∧ (∀ a ∈ s1.mislabeled, not_fixed c.grounded a) ∧
    heap_ready c s1 ∧ ∃ a, a < c.aaf.number_of_arguments ∧ not_fixed c.grounded a := by
  obtain ⟨i1, _, i3, _⟩ := loop_head_inv c s hs
  have hc := (restart_phase_inv c s s1 _ h (Or.inl rfl)).2.1 i1
  have hh := restart_phase_heap_ready c s s1 (hinv.imp id And.left) h
  obtain ⟨_, _, hcase⟩ := restart_phase_spec c s s1 _ h (Or.inl rfl)
  rcases hcase with ⟨_, hm, _, _, hne, _⟩ | ⟨hn0, _, hsame, _⟩
  · have hpos : 0 < s1.mislabeled.length := Nat.pos_of_ne_zero (hne rfl)
    refine ⟨hpos, hc.1, hh, ?_⟩
    obtain ⟨x, hx⟩ := List.exists_mem_of_length_pos hpos
    rw [hm] at hx
    obtain ⟨h1, h2, _⟩ := (mem_rebuild_mislabeled c s1.lab x).mp hx
    exact ⟨x, h1, h2⟩
  · rcases i3 with i3 | ⟨_, i3⟩
    · exact absurd i3 hn0
    · rcases hinv with hinv | ⟨_, hex⟩
      · exact absurd hinv hn0
      · refine ⟨by rw [hsame.2.1]; exact i3, hc.1, hh, hex⟩

/-- At every head of the main loop after the first pass the heap has been constructed (when
`greedyprob > 0`) and some argument is not fixed by the grounded labeling. -/
theorem loop_head_ready (c : Setting)
    (hprob : ∀ r, c.task.prob_lt_greedyprob r = true → c.task.greedyprob_pos = true)
    (s : St) (h : loop_head c s) :
    s.number_iterations = 0 ∨
      (heap_ready c s ∧ ∃ a, a < c.aaf.number_of_arguments ∧ not_fixed c.grounded a) := by
  induction h with
  | init => exact Or.inl rfl
  | next s s1 hs hit _ ih =>
    rcases iteration_cases c s s1 _ hit (Or.inl rfl) with ⟨_, e, he⟩ | ⟨s', hr, hcase⟩
    · cases he
    · rcases hcase with ⟨hstop, _⟩ | ⟨_, hss⟩
      · cases hstop
      · obtain ⟨m1, _, m3, m4⟩ := restart_phase_ready c s s' hs ih hr
        have hn : 0 < c.aaf.number_of_arguments := by
          obtain ⟨a, ha, _⟩ := m4
          omega
        have hready := (search_step_ready c
          { s' with number_iterations := s'.number_iterations + 1 } hprob
          (fun hg => m3 hg) m1 hn).2 s1 hss
        exact Or.inr ⟨hready, m4⟩

/-- C27: whenever the move selection of `solve` is reached (at a head of the main loop the
restart phase and the iteration cap check went through), the mislabeled set is not empty, its
members are not fixed by the grounded labeling, some argument of the framework is not fixed,
and for `greedyprob > 0` the heap has been constructed; the selection and the rest of the loop
body then only fail if the rejection loop uses up the draws that the model allows: there is no
random element of an empty set, no remainder by zero and no use of a NULL heap. A draw below
`greedyprob` is only possible for a positive `greedyprob`. -/
theorem move_selection_preconditions (c : Setting)
    (hprob : ∀ r, c.task.prob_lt_greedyprob r = true → c.task.greedyprob_pos = true) :
    ∀ s s1 s2, loop_head c s → restart_phase c s = Step.next s1 →
      iteration_cap c s1 = Step.next s2 →
      0 < s2.mislabeled.length ∧
      (∀ a ∈ s2.mislabeled, not_fixed c.grounded a) ∧
      (∃ a, a < c.aaf.number_of_arguments ∧ not_fixed c.grounded a) ∧
      (c.task.greedyprob_pos = true → ∃ h, s2.mislabeled_pqueue = some h) ∧
      (∀ f, select_argument c s2 = Except.error f → f = Fault.rejection_fuel) ∧
      (∀ f, search_step c s2 = Step.fault f → f = Fault.rejection_fuel) := by
  intro s s1 s2 hs hr hc
  obtain ⟨m1, m2, m3, m4⟩ := restart_phase_ready c s s1 hs (loop_head_ready c hprob s hs) hr
  have hs2 : s2 = { s1 with number_iterations := s1.number_iterations + 1 } := by
    rcases iteration_cap_spec c s1 with ⟨h1, _⟩ | ⟨h1, _⟩
    · rw [h1] at hc
      cases hc
    · rw [h1] at hc
      injection hc with hc
      exact hc.symm
  subst hs2
  obtain ⟨a, ha, hna⟩ := m4
  refine ⟨m1, m2, ⟨a, ha, hna⟩, fun hg => m3 hg, ?_, ?_⟩
  · exact (select_argument_ready c
      { s1 with number_iterations := s1.number_iterations + 1 } hprob (fun hg => m3 hg) m1
      (by omega)).1
  · exact (search_step_ready c
      { s1 with number_iterations := s1.number_iterations + 1 } hprob (fun hg => m3 hg) m1
      (by omega)).1

/-- C27 (witness): the two-cycle with `-greedyprob 0.5 -randsel 0.3 -initout 1 -enforceout 1`;
in the first pass of the loop the move selection is reached. -/
theorem move_selection_preconditions_witness :
    (∀ r, setting_greedy_two_cycle.task.prob_lt_greedyprob r = true →
      setting_greedy_two_cycle.task.greedyprob_pos = true) ∧
    step_holds (restart_phase setting_greedy_two_cycle (init_state setting_greedy_two_cycle))
      (fun s1 => step_holds (iteration_cap setting_greedy_two_cycle s1)
        (fun s2 => s2.mislabeled = [0, 1])) ∧
    (∀ s s1 s2, loop_head setting_greedy_two_cycle s →
      restart_phase setting_greedy_two_cycle s = Step.next s1 →
      iteration_cap setting_greedy_two_cycle s1 = Step.next s2 →
      0 < s2.mislabeled.length ∧
      (∀ a ∈ s2.mislabeled, not_fixed setting_greedy_two_cycle.grounded a) ∧
      (∃ a, a < setting_greedy_two_cycle.aaf.number_of_arguments ∧
        not_fixed setting_greedy_two_cycle.grounded a) ∧
      (setting_greedy_two_cycle.task.greedyprob_pos = true →
        ∃ h, s2.mislabeled_pqueue = some h) ∧
      (∀ f, select_argument setting_greedy_two_cycle s2 = Except.error f →
        f = Fault.rejection_fuel) ∧
      (∀ f, search_step setting_greedy_two_cycle s2 = Step.fault f →
        f = Fault.rejection_fuel)) :=
  ⟨fun _ _ => rfl, by decide!,
    move_selection_preconditions setting_greedy_two_cycle (fun _ _ => rfl)⟩

/-! ## The undefined operations of `solve` -/

theorem restart_phase_fault_restart_zero (c : Setting) (s : St) (f : Fault)
    (h : restart_phase c s = Step.fault f) :
    f = Fault.modulo_by_zero ∧ init_restart c.task c.aaf = 0 := by
  refine ⟨restart_phase_fault c s f h, ?_⟩
  unfold restart_phase at h
  split at h
  · rename_i f1 hf1
    unfold restart_condition at hf1
    split at hf1
    · cases hf1
    · split at hf1
      · split at hf1
        · rename_i h0
          exact h0
        · split at hf1 <;> cases hf1
      · cases hf1
  · unfold restart_block at h
    split at h <;> cases h
  · cases h

theorem iteration_fault_cases (c : Setting)
    (hprob : ∀ r, c.task.prob_lt_greedyprob r = true → c.task.greedyprob_pos = true)
    (s : St) (hs : loop_head c s) (f : Fault) (h : iteration c s = Step.fault f) :
    (f = Fault.modulo_by_zero ∧ init_restart c.task c.aaf = 0) ∨ f = Fault.rejection_fuel := by
  unfold iteration at h
  split at h
  · rename_i f1 hf1
    injection h with h
    subst h
    exact Or.inl (restart_phase_fault_restart_zero c s _ hf1)
  · cases h
  · rename_i s1 hr
    obtain ⟨m1, _, m3, a, ha, _⟩ := restart_phase_ready c s s1 hs (loop_head_ready c hprob s hs) hr
    rcases iteration_cap_spec c s1 with ⟨hic, _⟩ | ⟨hic, _⟩
    · rw [hic] at h
      cases h
    · rw [hic] at h
      simp only at h
      exact Or.inr ((search_step_ready c
        { s1 with number_iterations := s1.number_iterations + 1 } hprob (fun hg => m3 hg) m1
        (by omega)).1 f h)

theorem main_loop_fault (c : Setting) (fuel : Nat) (s : St) (f : Fault)
    (hs : loop_head c s) (h : main_loop c fuel s = Outcome.fault f) :
    f = Fault.loop_fuel ∨ ∃ s0, loop_head c s0 ∧ iteration c s0 = Step.fault f := by
  induction fuel generalizing s with
  | zero =>
    simp only [main_loop, Outcome.fault.injEq] at h
    exact Or.inl h.symm
  | succ k ih =>
    unfold main_loop at h
    split at h
    · rename_i f1 hit
      injection h with h
      subst h
      exact Or.inr ⟨s, hs, hit⟩
    · cases h
    · rename_i s2 hit
      split at h
      · rename_i hpos
        exact ih s2 (loop_head.next s s2 hs hit hpos) h
      · cases h

/-- The only undefined operation of `solve` is the remainder by a restart value of 0: every
other stop of the model is the bound on the draws of the rejection loop. A draw below
`greedyprob` is only possible for a positive `greedyprob`. -/
theorem solve_fault_cases (c : Setting)
    (hprob : ∀ r, c.task.prob_lt_greedyprob r = true → c.task.greedyprob_pos = true)
    (f : Fault) (h : solve c = Outcome.fault f) :
    (f = Fault.modulo_by_zero ∧ init_restart c.task c.aaf = 0) ∨ f = Fault.rejection_fuel := by
  unfold solve at h
  split at h
  · cases h
  · rcases main_loop_fault c _ _ f loop_head.init h with hf | ⟨s0, hs0, hit⟩
    · subst hf
      exact absurd h (main_loop_fuel c _ _ loop_head.init (by simp [init_state]))
    · exact iteration_fault_cases c hprob s0 hs0 f hit

/-! ## The heap at the iteration boundaries -/

/-- C22 (evaluation at the failing input): the framework `x x2`, `x2 x`, `z z2`, `z2 z`,
`x y`, `z y` with `-greedyprob 0.5 -initout 1`. After the restart the heap holds `x` with the
key -4, its flipping count under the all-out labeling. The first move flips `z`, which is no
neighbour of `x` but shares the child `y` with it; `x` is not re-checked. At the next head of
the loop `x` is in the heap with the key -4 and its flipping count is -3. -/
theorem heap_key_stale_after_distant_flip :
    setting_shared_child.task.greedyprob_pos = true ∧
    0 ∉ setting_shared_child.aaf.children 3 ∧ 0 ∉ setting_shared_child.aaf.parents 3 ∧
    2 ∈ setting_shared_child.aaf.children 0 ∧ 2 ∈ setting_shared_child.aaf.children 3 ∧
    step_holds (restart_phase setting_shared_child (init_state setting_shared_child))
      (fun s => s.mislabeled_pqueue = some [(0, -4), (1, -3), (2, -1), (3, -4), (4, -3)] ∧
        get_flipping_count setting_shared_child.aaf s.lab 0 = -4) ∧
    ∃ s, loop_head setting_shared_child s ∧ s.number_iterations = 1 ∧ s.flipped = [3] ∧
      s.mislabeled = [0, 1] ∧ s.mislabeled_pqueue = some [(0, -4), (1, -3)] ∧
      get_flipping_count setting_shared_child.aaf s.lab 0 = -3 := by
  refine ⟨rfl, by decide, by decide, by decide, by decide, by decide!, ?_⟩
  have h : step_holds (iteration setting_shared_child (init_state setting_shared_child))
      (fun s => s.number_iterations = 1 ∧ s.flipped = [3] ∧
        s.mislabeled = [0, 1] ∧ s.mislabeled_pqueue = some [(0, -4), (1, -3)] ∧
        get_flipping_count setting_shared_child.aaf s.lab 0 = -3) := by decide!
  obtain ⟨s, hs, h1, h2, h3, h4, h5⟩ := (step_holds_iff _ _).mp h
  exact ⟨s, loop_head.next _ s loop_head.init hs (by rw [h3]; decide), h1, h2, h3, h4, h5⟩

/-- C23 (evaluation at the failing inputs), with `-greedyprob 0.5 -initout 1` (`greedyincall`
is 0). In the framework `a c`, `c a`, `b b`, `b x1`, ..., `b x4` the first move is a greedy
move that extracts the self-attacking `b` from the heap; the toggle step replaces it by `c`
(the parent of argument 0) and labels `c` in; `b` is not re-checked, and at the next head of
the loop `b` is in the mislabeled set and not in the heap. In the framework with the odd cycle
`p`, `q`, `r` attacked by `t` and `-escapeoddcycles 1` the greedy move extracts `q`, the odd
cycle escape replaces it by `t`, and at the next head of the loop `q` is in the mislabeled set
and not in the heap. -/
theorem heap_misses_replaced_argument :
    setting_loop_with_children.task.greedyprob_pos = true ∧
    setting_loop_with_children.task.greedyincall = false ∧
    (∃ s, loop_head setting_loop_with_children s ∧ s.number_iterations = 1 ∧
      s.flipped = [1] ∧ s.mislabeled = [2, 3, 4, 5, 6] ∧
      s.mislabeled_pqueue = some [(3, -1), (4, -1), (5, -1), (6, -1)]) ∧
    setting_attacked_odd_cycle.task.greedyprob_pos = true ∧
    setting_attacked_odd_cycle.task.greedyincall = false ∧
    (∃ s, loop_head setting_attacked_odd_cycle s ∧ s.number_iterations = 1 ∧
      s.flipped = [3] ∧ s.mislabeled = [1, 2, 5, 6, 7] ∧
      s.mislabeled_pqueue = some [(2, -2), (5, -1), (6, -1), (7, -1)]) := by
  refine ⟨rfl, rfl, ?_, rfl, rfl, ?_⟩
  · have h : step_holds
        (iteration setting_loop_with_children (init_state setting_loop_with_children))
        (fun s => s.number_iterations = 1 ∧ s.flipped = [1] ∧
          s.mislabeled = [2, 3, 4, 5, 6] ∧
          s.mislabeled_pqueue = some [(3, -1), (4, -1), (5, -1), (6, -1)]) := by decide!
    obtain ⟨s, hs, h1, h2, h3, h4⟩ := (step_holds_iff _ _).mp h
    exact ⟨s, loop_head.next _ s loop_head.init hs (by rw [h3]; decide), h1, h2, h3, h4⟩
  · have h : step_holds
        (iteration setting_attacked_odd_cycle (init_state setting_attacked_odd_cycle))
        (fun s => s.number_iterations = 1 ∧ s.flipped = [3] ∧
          s.mislabeled = [1, 2, 5, 6, 7] ∧
          s.mislabeled_pqueue = some [(2, -2), (5, -1), (6, -1), (7, -1)]) := by decide!
    obtain ⟨s, hs, h1, h2, h3, h4⟩ := (step_holds_iff _ _).mp h
    exact ⟨s, loop_head.next _ s loop_head.init hs (by rw [h3]; decide), h1, h2, h3, h4⟩

end Haywood
